import Mathlib

/-!
# fuoricode: the ignore matcher, the text classifier and the export walk

A shallow embedding of `src/ignore.c` and `src/fuori.c`.

Conventions of the embedding.

* A byte is a natural number (`unsigned char`, so below 256); a C string and a
  buffer are lists of bytes.  A C string holds no NUL byte.
* `size_t` arithmetic is done in `Nat`: every quantity the embedded functions
  compute is bounded by a buffer length, so no wrap-around is reachable.
* Memory allocation and stream I/O succeed; the return paths taken only when
  `malloc`, `realloc`, `fopen`, `fread` or a write fail are not part of the model.
* A `while` loop and the recursion of the walk carry a bound on their
  iterations or depth.  The result is an `Option`: `none` when the bound is
  exceeded or when a read leaves the sample.  The lemmas `is_likely_utf8_total`,
  `is_binary_file_total`, `process_file_total` and `process_directory_total`
  show that the bounds used are never exceeded.
* The output stream is kept as the list of sections written, each with the path
  that was given to `process_file`; `output_bytes` is the stream itself.
-/

namespace Fuori

/-- The bytes of an ASCII string literal. -/
def bytes (s : String) : List Nat := s.toList.map Char.toNat

/-! ## libc string helpers -/

/-- The C expression `strncmp(p, "./", 2) == 0 ? p + 2 : p`. -/
def skip_dot_slash : List Nat → List Nat
  | 46 :: 47 :: rest => rest
  | p => p

/-- The C idiom `b = strrchr(s, '/'); b = b ? b + 1 : s`: what follows the last
`/` of `s`, or `s` itself when it has none. -/
def after_last_slash : List Nat → List Nat
  | [] => []
  | c :: rest =>
    if 47 ∈ rest then after_last_slash rest
    else if c = 47 then rest
    else c :: rest

/-! ## fnmatch(3) with `FNM_PATHNAME`

`fnmatch` is a libc function.  `is_ignored` below takes the matcher as a
parameter; `fnmatch_pathname` is a model of the POSIX rules for the flag set
`FNM_PATHNAME` (no `FNM_NOESCAPE`, no `FNM_PERIOD`) in the C locale, used where
a concrete pattern is evaluated.  Bracket expressions are modelled with
negation (`!`, `^`), ranges, a leading literal `]` and backslash quoting; a `/`
listed in a bracket expression is a member that matches nothing; the named
classes `[:alpha:]`, collating symbols and equivalence classes are outside the
model. -/

/-- One element of a parsed glob pattern. -/
inductive GlobTok where
  | lit (c : Nat)
  | any
  | star
  | set (neg : Bool) (items : List (Nat × Nat))
  deriving DecidableEq, Repr

/-- Scans the members of a bracket expression.  `skip` counts bytes already
covered by the previous member, `n` the bytes consumed so far, and `first` tells
that a `]` here is a member.  Returns the member ranges and the number of bytes
up to and including the closing `]`; `none` when the bracket is not closed. -/
def bracket_items : List Nat → Nat → Nat → List (Nat × Nat) → Bool →
    Option (List (Nat × Nat) × Nat)
  | [], _, _, _, _ => none
  | _ :: rest, skip + 1, n, acc, first => bracket_items rest skip (n + 1) acc first
  | c :: rest, 0, n, acc, first =>
    if c = 93 ∧ first = false then some (acc, n + 1)
    else if c = 92 then
      match rest.head? with
      | none => none
      | some e => bracket_items rest 1 (n + 1) (acc ++ [(e, e)]) false
    else if rest.head? = some 45 then
      match rest.tail.head? with
      | some hi =>
        if hi = 93 then bracket_items rest 0 (n + 1) (acc ++ [(c, c)]) false
        else bracket_items rest 2 (n + 1) (acc ++ [(c, hi)]) false
      | none => bracket_items rest 0 (n + 1) (acc ++ [(c, c)]) false
    else bracket_items rest 0 (n + 1) (acc ++ [(c, c)]) false

/-- Parses what follows a `[`: an optional `!` or `^`, then the members. -/
def parse_bracket : List Nat → Option (Bool × List (Nat × Nat) × Nat)
  | [] => none
  | c :: rest =>
    if c = 33 ∨ c = 94 then
      match bracket_items rest 0 1 [] true with
      | some (items, n) => some (true, items, n)
      | none => none
    else
      match bracket_items (c :: rest) 0 0 [] true with
      | some (items, n) => some (false, items, n)
      | none => none

/-- Splits a pattern into tokens.  The first argument counts bytes still to be
skipped because a bracket expression already covered them.  `none` for a pattern
that ends in an unquoted backslash, which matches nothing. -/
def tokenize : Nat → List Nat → Option (List GlobTok)
  | _, [] => some []
  | k + 1, _ :: rest => tokenize k rest
  | 0, c :: rest =>
    if c = 92 then
      match rest with
      | [] => none
      | e :: _ => (tokenize 1 rest).map (fun ts => GlobTok.lit e :: ts)
    else if c = 63 then (tokenize 0 rest).map (fun ts => GlobTok.any :: ts)
    else if c = 42 then (tokenize 0 rest).map (fun ts => GlobTok.star :: ts)
    else if c = 91 then
      match parse_bracket rest with
      | some (neg, items, n) => (tokenize n rest).map (fun ts => GlobTok.set neg items :: ts)
      | none => (tokenize 0 rest).map (fun ts => GlobTok.lit 91 :: ts)
    else (tokenize 0 rest).map (fun ts => GlobTok.lit c :: ts)

/-- Membership of a byte in a bracket expression; a `/` is never a member under
`FNM_PATHNAME`. -/
def set_matches (neg : Bool) (items : List (Nat × Nat)) (x : Nat) : Bool :=
  x != 47 && (items.any (fun r => decide (r.1 ≤ x ∧ x ≤ r.2)) != neg)

/-- The `*` wildcard: `k` is tried on every suffix reached by dropping bytes
other than `/`. -/
def star_loop (k : List Nat → Bool) : List Nat → Bool
  | [] => k []
  | x :: xs => k (x :: xs) || (x != 47 && star_loop k xs)

/-- Matches a token list against a whole string. -/
def match_toks : List GlobTok → List Nat → Bool
  | [], s => s.isEmpty
  | GlobTok.lit c :: ts, s =>
    match s with
    | x :: xs => x == c && match_toks ts xs
    | [] => false
  | GlobTok.any :: ts, s =>
    match s with
    | x :: xs => x != 47 && match_toks ts xs
    | [] => false
  | GlobTok.set neg items :: ts, s =>
    match s with
    | x :: xs => set_matches neg items x && match_toks ts xs
    | [] => false
  | GlobTok.star :: ts, s => star_loop (match_toks ts) s

/-- The test `fnmatch(pattern, string, FNM_PATHNAME) == 0`. -/
def fnmatch_pathname (pattern string : List Nat) : Bool :=
  match tokenize 0 pattern with
  | some ts => match_toks ts string
  | none => false

/-! ## src/ignore.c -/

/-- One iteration of the loop of `is_ignored` for the pattern `raw`: `none` when
the iteration leaves `ignored` as it is (a `continue`, or `fnmatch` did not
return 0), `some v` when it assigns `ignored = v`, `v` being `!negated`. -/
def pattern_verdict (fnm : List Nat → List Nat → Bool) (rel base : List Nat) (is_dir : Bool)
    (raw : List Nat) : Option Bool :=
  if raw.length = 0 then none
  else
    let negated : Bool := decide (raw.head? = some 33)
    let pattern := if negated then raw.tail else raw
    if pattern.length = 0 then none
    else
      let pattern_is_dir_only : Bool := decide (pattern.getLast? = some 47)
      if pattern_is_dir_only && !is_dir then none
      else
        let pat := if pattern_is_dir_only then pattern.dropLast else pattern
        let has_slash : Bool := decide (47 ∈ pat)
        if has_slash then
          let match_pat := if pat.head? = some 47 then pat.tail else pat
          if fnm match_pat rel then some (!negated) else none
        else if fnm pat base then some (!negated)
        else none

/-- The function `is_ignored` of `src/ignore.c`, for a non-NULL pattern array,
with `fnm p s` standing for `fnmatch(p, s, FNM_PATHNAME) == 0`. -/
def is_ignored (fnm : List Nat → List Nat → Bool) (filepath : List Nat)
    (patterns : List (List Nat)) (is_dir : Bool) : Bool :=
  let rel := skip_dot_slash filepath
  let base := after_last_slash rel
  patterns.foldl (fun ignored raw => (pattern_verdict fnm rel base is_dir raw).getD ignored) false

/-- The pattern `raw` matches the path: its loop iteration assigns `ignored`. -/
def pattern_matches (fnm : List Nat → List Nat → Bool) (filepath : List Nat) (is_dir : Bool)
    (raw : List Nat) : Bool :=
  (pattern_verdict fnm (skip_dot_slash filepath) (after_last_slash (skip_dot_slash filepath))
    is_dir raw).isSome

/-- The pattern starts with `!`. -/
def pattern_negated (raw : List Nat) : Bool := decide (raw.head? = some 33)

/-- Number of literal `/` tokens of a parsed pattern. -/
def slash_lits : List GlobTok → Nat
  | [] => 0
  | GlobTok.lit c :: ts => (if c = 47 then 1 else 0) + slash_lits ts
  | _ :: ts => slash_lits ts

/-! ## src/fuori.c: the classifier -/

/-- The read `s[k]` of a sample of `n` bytes; `none` is a read at an index that
is not below `n`. -/
def sample_read (s : List Nat) (n k : Nat) : Option Nat :=
  if k < n then s[k]? else none

/-- The inner loop of `is_likely_utf8`: `for (k = 1; k <= need; k++)` checking
`(s[i+k] & 0xC0) == 0x80`, with `r` iterations left from `k` on.  `some false`
is the early `return 0`. -/
def continuation_ok (s : List Nat) (n i : Nat) : Nat → Nat → Option Bool
  | 0, _ => some true
  | r + 1, k =>
    match sample_read s n (i + k) with
    | none => none
    | some b => if b &&& 0xC0 ≠ 0x80 then some false else continuation_ok s n i r (k + 1)

/-- The value `need` gets in `is_likely_utf8` from the lead byte `c`: 1, 2 or 3,
and 0 for the `else return 0` branch. -/
def utf8_need (c : Nat) : Nat :=
  if c &&& 0xE0 = 0xC0 then 1
  else if c &&& 0xF0 = 0xE0 then 2
  else if c &&& 0xF8 = 0xF0 then 3
  else 0

/-- The `while (i < n)` loop of `is_likely_utf8`, from index `i`, with at most
`fuel` iterations; `none` when a read leaves the sample or the iterations run
out while `i < n`. -/
def is_likely_utf8_loop (s : List Nat) (n : Nat) : Nat → Nat → Option Bool
  | 0, i => if i < n then none else some true
  | fuel + 1, i =>
    if i < n then
      match sample_read s n i with
      | none => none
      | some c =>
        if c < 0x80 then is_likely_utf8_loop s n fuel (i + 1)
        else
          let need := utf8_need c
          if need = 0 then some false
          else if i + need ≥ n then some true
          else
            match continuation_ok s n i need 1 with
            | none => none
            | some false => some false
            | some true => is_likely_utf8_loop s n fuel (i + need + 1)
    else some true

/-- The function `is_likely_utf8(s, n)`.  Every iteration advances `i`, so `n`
iterations suffice. -/
def is_likely_utf8 (s : List Nat) (n : Nat) : Option Bool :=
  is_likely_utf8_loop s n n 0

/-- The control-byte test of `is_binary_file`: below 0x20 and none of LF, CR, tab. -/
def is_ctrl (c : Nat) : Bool := decide (c < 0x20 ∧ c ≠ 10 ∧ c ≠ 13 ∧ c ≠ 9)

/-- The function `is_binary_file(buffer, bytes_read)`; the two `for` loops run
over the first `bytes_read` bytes of the buffer. -/
def is_binary_file (buffer : List Nat) (bytes_read : Nat) : Option Bool :=
  if bytes_read = 0 then some false
  else if (buffer.take bytes_read).any (fun b => b == 0) then some true
  else
    match is_likely_utf8 buffer bytes_read with
    | none => none
    | some true => some false
    | some false =>
      let ctrl := (buffer.take bytes_read).countP is_ctrl
      some (decide (ctrl * 100 / bytes_read > 2))

/-! ## src/fuori.c: the language tag -/

/-- ASCII `tolower`, as `strcasecmp` applies it in the C locale. -/
def to_lower (c : Nat) : Nat := if 65 ≤ c ∧ c ≤ 90 then c + 32 else c

/-- The test `strcasecmp(a, b) == 0`. -/
def strcasecmp_eq (a b : List Nat) : Bool := a.map to_lower == b.map to_lower

/-- The result of `strrchr(s, c)` for `c` other than NUL: the suffix of `s` that
starts at the last `c`, `none` when `s` has no `c`. -/
def strrchr (s : List Nat) (c : Nat) : Option (List Nat) :=
  match s with
  | [] => none
  | x :: rest =>
    match strrchr rest c with
    | some r => some r
    | none => if x = c then some (x :: rest) else none

/-- The test `strstr(hay, needle) != NULL` on C strings. -/
def strstr_found (hay needle : List Nat) : Bool :=
  hay.tails.any (fun t => needle.isPrefixOf t)

/-- The table `lang_map`, without its sentinel. -/
def lang_map : List (List Nat × List Nat) :=
  [("c", "c"), ("h", "c"),
   ("cpp", "cpp"), ("cc", "cpp"), ("cxx", "cpp"), ("hpp", "cpp"),
   ("py", "python"),
   ("js", "javascript"), ("jsx", "javascript"),
   ("ts", "typescript"), ("tsx", "typescript"),
   ("html", "html"),
   ("css", "css"),
   ("java", "java"),
   ("php", "php"),
   ("sql", "sql"),
   ("xml", "xml"),
   ("json", "json"),
   ("md", "markdown"),
   ("sh", "bash"),
   ("yml", "yaml"), ("yaml", "yaml"),
   ("go", "go"),
   ("rs", "rust"),
   ("kt", "kotlin"),
   ("cs", "csharp"),
   ("rb", "ruby"),
   ("lua", "lua"),
   ("toml", "toml"),
   ("ini", "ini"),
   ("dockerfile", "dockerfile"),
   ("makefile", "makefile"),
   ("cmake", "cmake"),
   ("swift", "swift"),
   ("m", "objective-c"), ("mm", "objective-c"),
   ("ps1", "powershell"),
   ("bat", "batch"),
   ("r", "r"),
   ("scala", "scala"),
   ("proto", "protobuf")].map (fun e => (bytes e.1, bytes e.2))

/-- The scan `while (line_len < buffer_len && line_len < 255 && buffer[line_len]
is neither LF nor CR) line_len++` of `detect_shebang`, from `line_len` on, the
argument being the buffer from that index on. -/
def shebang_line_len : List Nat → Nat → Nat
  | [], line_len => line_len
  | b :: rest, line_len =>
    if line_len < 255 ∧ b ≠ 10 ∧ b ≠ 13 then shebang_line_len rest (line_len + 1) else line_len

/-- The function `detect_shebang(buffer, buffer_len)` for a non-NULL buffer of
`buffer_len` bytes.  `line` is a C string, so it ends at its first NUL byte. -/
def detect_shebang (buffer : List Nat) : Option (List Nat) :=
  if buffer.length < 2 then none
  else if buffer[0]? ≠ some 35 ∨ buffer[1]? ≠ some 33 then none
  else
    let line_len := shebang_line_len buffer 0
    let line := (buffer.take line_len).takeWhile (fun b => b != 0)
    if strstr_found line (bytes "python") then some (bytes "python")
    else if strstr_found line (bytes "bash") || strstr_found line (bytes "sh") then
      some (bytes "bash")
    else if strstr_found line (bytes "node") then some (bytes "javascript")
    else if strstr_found line (bytes "ruby") then some (bytes "ruby")
    else if strstr_found line (bytes "perl") then some (bytes "perl")
    else if strstr_found line (bytes "lua") then some (bytes "lua")
    else none

/-- The function `get_language_identifier(filepath, buffer, buffer_len)`; `none`
is the NULL result.  `dot` is searched in the whole `filepath`, and `dot ==
filepath` holds when the last `.` is the first byte of `filepath`. -/
def get_language_identifier (filepath buffer : List Nat) : Option (List Nat) :=
  let base := after_last_slash filepath
  if strcasecmp_eq base (bytes "Dockerfile") then some (bytes "dockerfile")
  else if strcasecmp_eq base (bytes "Makefile") || strcasecmp_eq base (bytes "GNUmakefile") then
    some (bytes "makefile")
  else
    match strrchr filepath 46 with
    | none => detect_shebang buffer
    | some dot =>
      if dot.length = filepath.length then detect_shebang buffer
      else
        match lang_map.find? (fun e => strcasecmp_eq dot.tail e.1) with
        | some e => some e.2
        | none => none

/-! ## src/fuori.c: the exporter -/

/-- The function `write_fence(out, count, lang)`: the bytes it writes. -/
def write_fence (count : Nat) (lang : Option (List Nat)) : List Nat :=
  List.replicate count 96 ++
    (match lang with
     | some l => if l ≠ [] then l else []
     | none => []) ++ [10]

/-- The backtick scan of `process_file`: the state is `(current_run, max_run)`. -/
def backtick_scan (buffer : List Nat) : Nat × Nat :=
  buffer.foldl
    (fun st b =>
      if b = 96 then (st.1 + 1, if st.1 + 1 > st.2 then st.1 + 1 else st.2)
      else (0, st.2))
    (0, 0)

/-- The fence width of `process_file`: `max_run >= 3 ? max_run + 1 : 3`. -/
def fence_width (buffer : List Nat) : Nat :=
  let max_run := (backtick_scan buffer).2
  if max_run ≥ 3 then max_run + 1 else 3

/-- What `lstat` and `fstat` report of a regular file, and what reading it
yields.  `st_size` need not be the length of `content`. -/
structure RegFile where
  st_dev : Nat
  st_ino : Nat
  st_size : Nat
  content : List Nat
  deriving DecidableEq, Repr

/-- The successive results of `fread(extra_chunk, 1, size, file)` on a stream
whose unread part is `unread`, up to the first empty read; at most `fuel` reads. -/
def fread_chunks_loop (size : Nat) : Nat → List Nat → List (List Nat)
  | 0, _ => []
  | fuel + 1, unread =>
    if unread = [] then [] else unread.take size :: fread_chunks_loop size fuel (unread.drop size)

/-- The non-empty reads of `size` bytes that exhaust `unread`; every read takes
a byte, so `unread.length` reads suffice. -/
def fread_chunks (size : Nat) (unread : List Nat) : List (List Nat) :=
  fread_chunks_loop size unread.length unread

/-- The `while ((extra_read = fread(extra_chunk, 1, 4096, file)) > 0)` loop of
`process_file`: `chunks` are the successive non-empty reads; `none` is the
`return 1` taken when `needed > max_file_size`. -/
def read_extra (max_file_size : Nat) : List Nat → List (List Nat) → Option (List Nat)
  | buffer, [] => some buffer
  | buffer, chunk :: chunks =>
    let needed := buffer.length + chunk.length
    if needed > max_file_size then none
    else read_extra max_file_size (buffer ++ chunk) chunks

/-- The bytes `process_file` writes for an exported file: the `write_text`,
`write_fence` and `write_bytes` calls that follow the backtick scan. -/
def export_section (filepath buffer : List Nat) : List Nat :=
  let display := skip_dot_slash filepath
  let lang := get_language_identifier filepath buffer
  let fence := fence_width buffer
  bytes "## " ++ display ++ bytes "\n\n" ++
    write_fence fence lang ++
    buffer ++
    (if buffer.getLast? ≠ some 10 then bytes "\n" else []) ++
    write_fence fence none ++ bytes "\n\n"

/-- The function `process_file(filepath, st, max_file_size, output_file)` on a
regular file that is opened as the file `lstat` saw: the return code (0
exported, 1 skipped) and the bytes appended to the output. -/
def process_file (filepath : List Nat) (st : RegFile) (max_file_size : Nat) :
    Option (Int × List Nat) :=
  if st.st_size > max_file_size then some (1, [])
  else
    let buffer_size := st.st_size
    let first := st.content.take buffer_size
    match read_extra max_file_size first (fread_chunks 4096 (st.content.drop buffer_size)) with
    | none => some (1, [])
    | some buffer =>
      let bytes_read := buffer.length
      let sample_size := if bytes_read < 8192 then bytes_read else 8192
      match is_binary_file buffer sample_size with
      | none => none
      | some true => some (1, [])
      | some false =>
        if bytes_read = 0 then some (1, [])
        else some (0, export_section filepath buffer)

/-- The function `should_exclude_file(filepath, st, max_file_size, patterns,
count)` on a regular file; `true` is the result 1. -/
def should_exclude_file (fnm : List Nat → List Nat → Bool) (filepath : List Nat) (st : RegFile)
    (max_file_size : Nat) (patterns : List (List Nat)) : Bool :=
  if st.st_size > max_file_size then true
  else if is_ignored fnm filepath patterns false then true
  else false

/-! ## src/fuori.c: the walk -/

/-- The file system as the walk sees it: what `lstat` reports of an entry, and
for a directory the entries `readdir` lists, in listing order. -/
inductive Node where
  | file (st : RegFile)
  | dir (entries : List (List Nat × Node))
  | symlink
  | other

/-- The fields of `AppContext` that `process_directory` reads; `temp_stat` and
`final_stat` are kept as their `(st_dev, st_ino)` pair. -/
structure AppContext where
  max_file_size : Nat
  ignore_patterns : List (List Nat)
  have_temp : Bool
  temp_stat : Nat × Nat
  have_final : Bool
  final_stat : Nat × Nat

/-- The value of `strcmp(a, b)`: the difference of the first two bytes that
differ, the end of a string counting as the byte 0. -/
def strcmp : List Nat → List Nat → Int
  | [], [] => 0
  | [], b :: _ => 0 - (b : Int)
  | a :: _, [] => (a : Int)
  | a :: as, b :: bs => if a = b then strcmp as bs else (a : Int) - (b : Int)

/-- The order `compare_names` gives to `qsort`: `strcmp(a, b) <= 0`. -/
def names_le (a b : List Nat) : Bool := decide (strcmp a b ≤ 0)

/-- The call `qsort(names, name_count, sizeof(char*), compare_names)`: the names
in ascending `strcmp` order. -/
def sort_names (names : List (List Nat)) : List (List Nat) :=
  names.insertionSort (fun a b => names_le a b = true)

/-- The first loop of `sanitize_path`: of every run of `/` one is kept. -/
def collapse_slashes : List Nat → List Nat
  | [] => []
  | c :: rest =>
    if c = 47 ∧ rest.head? = some 47 then collapse_slashes rest
    else c :: collapse_slashes rest

/-- The function `sanitize_path`. -/
def sanitize_path (path : List Nat) : List Nat :=
  let p := collapse_slashes path
  if p.length > 1 ∧ p.getLast? = some 47 then p.dropLast else p

/-- The constant `MAX_PATH_LENGTH`. -/
def MAX_PATH_LENGTH : Nat := 4096

/-- The answer of `lstat(path)` for the entry `name` of a directory: the node
listed under that name, `none` when `lstat` fails.  A listed name is a file
name (not empty, no `/`), so the sanitized `path` names that entry. -/
def lookup_entry (entries : List (List Nat × Node)) (name : List Nat) : Option Node :=
  (entries.find? (fun e => e.1 == name)).map Prod.snd

/-- One iteration of the `for` loop of `process_directory`, for the sorted name
`name`.  The loop state is the status and the sections written so far; a
section is the path given to `process_file` with the bytes that call wrote.
`recurse` is the recursive call of `process_directory`. -/
def process_entry (fnm : List Nat → List Nat → Bool) (ctx : AppContext)
    (recurse : List Nat → List (List Nat × Node) → Option (Int × List (List Nat × List Nat)))
    (base_path : List Nat) (entries : List (List Nat × Node))
    (acc : Int × List (List Nat × List Nat)) (name : List Nat) :
    Option (Int × List (List Nat × List Nat)) :=
  if acc.1 ≠ 0 then some acc
  else
    let raw := base_path ++ [47] ++ name
    if raw.length ≥ MAX_PATH_LENGTH then some acc
    else
      let path := sanitize_path raw
      match lookup_entry entries name with
      | none => some acc
      | some Node.symlink => some acc
      | some Node.other => some acc
      | some (Node.dir sub) =>
        if is_ignored fnm path ctx.ignore_patterns true then some acc
        else
          match recurse path sub with
          | none => none
          | some (st, secs) =>
            if st ≠ 0 then some (-1, acc.2 ++ secs) else some (0, acc.2 ++ secs)
      | some (Node.file st) =>
        if (ctx.have_temp && decide ((st.st_dev, st.st_ino) = ctx.temp_stat)) ||
            (ctx.have_final && decide ((st.st_dev, st.st_ino) = ctx.final_stat)) then
          some acc
        else if should_exclude_file fnm path st ctx.max_file_size ctx.ignore_patterns then
          some acc
        else
          match process_file path st ctx.max_file_size with
          | none => none
          | some (code, out) =>
            if code = 0 then some (0, acc.2 ++ [(path, out)]) else some acc

/-- The names `process_directory` iterates over: the listing without `.` and
`..`, sorted. -/
def sorted_names (entries : List (List Nat × Node)) : List (List Nat) :=
  sort_names ((entries.map Prod.fst).filter (fun n => !(n == bytes ".") && !(n == bytes "..")))

/-- The function `process_directory(base_path, output_file, ctx)` on a directory
whose listing is `entries`: the status and the sections appended to the output,
in the order they are written.  The first argument bounds the depth of the
recursion; `none` when that depth is exceeded. -/
def process_directory (fnm : List Nat → List Nat → Bool) (ctx : AppContext) :
    Nat → List Nat → List (List Nat × Node) → Option (Int × List (List Nat × List Nat))
  | 0, _, _ => none
  | fuel + 1, base_path, entries =>
    (sorted_names entries).foldlM
      (process_entry fnm ctx (process_directory fnm ctx fuel) base_path entries) (0, [])

/-- The bytes of the output stream: the sections one after the other. -/
def output_bytes (secs : List (List Nat × List Nat)) : List Nat :=
  (secs.map Prod.snd).flatten

mutual
/-- Nesting depth of a node: 0 for anything but a directory. -/
def Node.depth : Node → Nat
  | Node.dir es => entries_depth es + 1
  | _ => 0
/-- The largest depth among the entries of a listing. -/
def entries_depth : List (List Nat × Node) → Nat
  | [] => 0
  | e :: rest => max e.2.depth (entries_depth rest)
end

/-- The path `process_directory` builds for the entry reached from `base_path`
through the names of `chain`. -/
def path_of (base_path : List Nat) : List (List Nat) → List Nat
  | [] => base_path
  | name :: chain => path_of (sanitize_path (base_path ++ [47] ++ name)) chain

/-- The node reached from a listing through the names of `chain`. -/
def node_at (entries : List (List Nat × Node)) : List (List Nat) → Option Node
  | [] => none
  | [name] => lookup_entry entries name
  | name :: chain =>
    match lookup_entry entries name with
    | some (Node.dir sub) => node_at sub chain
    | _ => none

/-- The array `default_ignores` of `load_ignore_patterns`. -/
def default_ignores : List (List Nat) :=
  [".git/", "node_modules/", "build/", "dist/", "bin/", ".env", ".venv/", "__pycache__/",
   ".DS_Store", "*.o", "*.a", "*.so", "*.exe", "*.dll", "*.log"].map bytes

/-! ## Notions used to state the claims -/

/-- The listing `entries` in which the node reached through `chain` is replaced
by `new`. -/
def replace_at (new : Node) : List (List Nat) → List (List Nat × Node) → List (List Nat × Node)
  | [], es => es
  | [name], es => es.map (fun e => if e.1 == name then (e.1, new) else e)
  | name :: chain, es =>
    es.map (fun e =>
      if e.1 == name then
        match e.2 with
        | Node.dir sub => (e.1, Node.dir (replace_at new chain sub))
        | _ => e
      else e)

/-- The UTF-8 encoding of a sequence of Unicode scalar values, as bytes. -/
def utf8_bytes (s : List Char) : List Nat :=
  (s.flatMap String.utf8EncodeChar).map UInt8.toNat

/-- The encoding of one character as `is_likely_utf8` reads it: a single byte
below 0x80, or a lead byte followed by `utf8_need lead` continuation bytes. -/
def ValidBlock (b : List Nat) : Prop :=
  (∃ a, b = [a] ∧ 0 < a ∧ a < 0x80) ∨
  (∃ lead conts, b = lead :: conts ∧ 0x80 ≤ lead ∧ utf8_need lead = conts.length ∧
    conts ≠ [] ∧ ∀ x ∈ conts, x &&& 0xC0 = 0x80)

/-- The section `sec` is the export of a regular file reached from `base_path`
through `chain`, none of the directories on the way being ignored. -/
def SectionReached (fnm : List Nat → List Nat → Bool) (ctx : AppContext) (base_path : List Nat)
    (entries : List (List Nat × Node)) (sec : List Nat × List Nat) : Prop :=
  ∃ chain : List (List Nat), chain ≠ [] ∧ sec.1 = path_of base_path chain ∧
    (∃ st, node_at entries chain = some (Node.file st) ∧
      process_file sec.1 st ctx.max_file_size = some (0, sec.2) ∧
      is_ignored fnm sec.1 ctx.ignore_patterns false = false) ∧
    ∀ i, 0 < i → i < chain.length →
      is_ignored fnm (path_of base_path (chain.take i)) ctx.ignore_patterns true = false

/-- The context of a run with the default cap of 100 KB, the built-in patterns
only, and the output on stdout (no temporary and no final output file). -/
def default_ctx : AppContext :=
  { max_file_size := 100 * 1024, ignore_patterns := default_ignores,
    have_temp := false, temp_stat := (0, 0), have_final := false, final_stat := (0, 0) }

/-- The tree `a.py`, `sub/b.txt`, `sub/.git/config` of the example, listed in
an order that is not the sorted one. -/
def example_tree : List (List Nat × Node) :=
  [(bytes "sub", Node.dir
      [(bytes "b.txt", Node.file ⟨0, 2, 2, bytes "hi"⟩),
       (bytes ".git", Node.dir [(bytes "config", Node.file ⟨0, 3, 1, bytes "x"⟩)])]),
   (bytes "a.py", Node.file ⟨0, 1, 8, bytes "print(1)"⟩)]

/-- A directory `build` that holds the single file `keep.txt`. -/
def build_tree : List (List Nat × Node) :=
  [(bytes "build", Node.dir [(bytes "keep.txt", Node.file ⟨0, 1, 4, bytes "keep"⟩)])]

/-- The file name is one of the names `get_language_identifier` tests first:
`Dockerfile`, `Makefile` or `GNUmakefile`, ignoring ASCII case. -/
def special_name (base : List Nat) : Bool :=
  strcasecmp_eq base (bytes "Dockerfile") || strcasecmp_eq base (bytes "Makefile") ||
    strcasecmp_eq base (bytes "GNUmakefile")

/-- The first line of a sample as `detect_shebang` cuts it: at most 255 bytes,
up to the first LF or CR. -/
def first_line (sample : List Nat) : List Nat :=
  (sample.take 255).takeWhile (fun b => decide (b ≠ 10 ∧ b ≠ 13))

/-- The tag of the first interpreter name that occurs in `line`, in the priority
order of `detect_shebang`: `python`, `bash` or `sh`, `node`, `ruby`, `perl`, `lua`. -/
def interpreter_tag (line : List Nat) : Option (List Nat) :=
  if bytes "python" <:+: line then some (bytes "python")
  else if bytes "bash" <:+: line ∨ bytes "sh" <:+: line then some (bytes "bash")
  else if bytes "node" <:+: line then some (bytes "javascript")
  else if bytes "ruby" <:+: line then some (bytes "ruby")
  else if bytes "perl" <:+: line then some (bytes "perl")
  else if bytes "lua" <:+: line then some (bytes "lua")
  else none

/-! ## src/ignore.c: loading the patterns -/

/-- The successive results of `getline` on a stream holding `content`: the lines,
each with its terminating LF when it has one. -/
def getline_lines : List Nat → List (List Nat)
  | [] => []
  | c :: rest =>
    if c = 10 then [10] :: getline_lines rest
    else
      match getline_lines rest with
      | [] => [[c]]
      | l :: ls => (c :: l) :: ls

/-- The bytes the inner loop of `load_ignore_patterns` removes from the end of a
line: LF, CR, space and tab. -/
def is_line_space (c : Nat) : Bool := c == 10 || c == 13 || c == 32 || c == 9

/-- The line after the inner `while` loop of `load_ignore_patterns`. -/
def strip_line (line : List Nat) : List Nat := line.rdropWhile is_line_space

/-- The result of `strdup(s)`: the bytes of `s` up to its first NUL byte. -/
def strdup (s : List Nat) : List Nat := s.takeWhile (fun b => b != 0)

/-- One iteration of the `getline` loop of `load_ignore_patterns`: `none` is the
`continue`, `some p` the pattern appended. -/
def pattern_of_line (line : List Nat) : Option (List Nat) :=
  let stripped := strip_line line
  if stripped.length = 0 ∨ stripped.head? = some 35 then none
  else some (strdup stripped)

/-- The function `load_ignore_patterns(ignore_file, &patterns, &count)`: the
return code and the patterns.  The argument is the content of the ignore file,
`none` when `fopen` fails with `ENOENT`. -/
def load_ignore_patterns (ignore_file : Option (List Nat)) : Int × List (List Nat) :=
  match ignore_file with
  | none => (0, default_ignores)
  | some content => (0, default_ignores ++ (getline_lines content).filterMap pattern_of_line)

/-- The patterns a list of lines contributes: every line without its trailing
LF, CR, space and tab bytes, those kept that are then neither empty nor start
with `#`. -/
def kept_lines (lines : List (List Nat)) : List (List Nat) :=
  (lines.map strip_line).filter (fun l => decide (l ≠ [] ∧ l.head? ≠ some 35))

/-! ## Notions used to state the order and the coverage of the walk -/

/-- The names of a listing as `readdir` gives them for a directory: strings
without a NUL byte, no two of them equal. -/
def names_ok (entries : List (List Nat × Node)) : Bool :=
  decide ((entries.map Prod.fst).Nodup) && (entries.map Prod.fst).all (fun n => !n.contains 0)

mutual
/-- Every directory of the node has a listing with `names_ok`. -/
def Node.well_formed : Node → Bool
  | Node.dir es => names_ok es && entries_well_formed es
  | _ => true
/-- Every node of the listing is well formed. -/
def entries_well_formed : List (List Nat × Node) → Bool
  | [] => true
  | e :: rest => e.2.well_formed && entries_well_formed rest
end

/-- The chain `c1` comes before the chain `c2` component by component: at the
first name where they differ, the name of `c1` is the smaller one for `strcmp`. -/
def chain_lt (c1 c2 : List (List Nat)) : Prop :=
  ∃ pre n1 n2 r1 r2, c1 = pre ++ n1 :: r1 ∧ c2 = pre ++ n2 :: r2 ∧ strcmp n1 n2 < 0

/-- The walk from `base_path` over `entries` reaches the regular file at the
end of `chain` and exports it. -/
def exported_chain (fnm : List Nat → List Nat → Bool) (ctx : AppContext) :
    List Nat → List (List Nat × Node) → List (List Nat) → Prop
  | _, _, [] => False
  | base_path, entries, [name] =>
    name ≠ bytes "." ∧ name ≠ bytes ".." ∧
    (base_path ++ [47] ++ name).length < MAX_PATH_LENGTH ∧
    ∃ st, lookup_entry entries name = some (Node.file st) ∧
      ¬ (ctx.have_temp = true ∧ (st.st_dev, st.st_ino) = ctx.temp_stat) ∧
      ¬ (ctx.have_final = true ∧ (st.st_dev, st.st_ino) = ctx.final_stat) ∧
      st.st_size ≤ ctx.max_file_size ∧
      is_ignored fnm (sanitize_path (base_path ++ [47] ++ name)) ctx.ignore_patterns false
        = false ∧
      st.content.length ≤ ctx.max_file_size ∧ st.content ≠ [] ∧
      is_binary_file st.content (if st.content.length < 8192 then st.content.length else 8192)
        = some false
  | base_path, entries, name :: c2 :: chain =>
    name ≠ bytes "." ∧ name ≠ bytes ".." ∧
    (base_path ++ [47] ++ name).length < MAX_PATH_LENGTH ∧
    ∃ sub, lookup_entry entries name = some (Node.dir sub) ∧
      is_ignored fnm (sanitize_path (base_path ++ [47] ++ name)) ctx.ignore_patterns true
        = false ∧
      exported_chain fnm ctx (sanitize_path (base_path ++ [47] ++ name)) sub (c2 :: chain)

/-- A directory `a` that holds `x.txt`, next to the files `a-b` and `a.txt`. -/
def sibling_tree : List (List Nat × Node) :=
  [(bytes "a.txt", Node.file ⟨0, 3, 2, bytes "t\n"⟩),
   (bytes "a-b", Node.file ⟨0, 2, 2, bytes "b\n"⟩),
   (bytes "a", Node.dir [(bytes "x.txt", Node.file ⟨0, 1, 2, bytes "x\n"⟩)])]

/-- The section `sec` is the one of the regular file reached from `base_path`
through `chain`: its path is the one the walk builds and its bytes are the
export of the content of the file. -/
def chain_section (base_path : List Nat) (entries : List (List Nat × Node))
    (chain : List (List Nat)) (sec : List Nat × List Nat) : Prop :=
  sec.1 = path_of base_path chain ∧
    ∃ st, node_at entries chain = some (Node.file st) ∧
      sec.2 = export_section sec.1 st.content

/-- The invariant of the `for` loop of `process_directory` once the names of
`done` are processed: the status is 0 and the sections written so far are those
of the exported chains that start with a name of `done`, in component order. -/
def walk_invariant (fnm : List Nat → List Nat → Bool) (ctx : AppContext) (base_path : List Nat)
    (entries : List (List Nat × Node)) (done : List (List Nat))
    (acc : Int × List (List Nat × List Nat)) : Prop :=
  acc.1 = 0 ∧ ∃ chains : List (List (List Nat)),
    List.Forall₂ (chain_section base_path entries) chains acc.2 ∧
    chains.Pairwise chain_lt ∧
    ∀ c, c ∈ chains ↔
      exported_chain fnm ctx base_path entries c ∧ ∃ n rest, c = n :: rest ∧ n ∈ done

/-- A tree with an empty file, a file with a NUL byte, a file below the ignored
directory `.git`, and the text file `a.txt`. -/
def skipped_tree : List (List Nat × Node) :=
  [(bytes "empty.txt", Node.file ⟨0, 1, 0, []⟩),
   (bytes "bin.dat", Node.file ⟨0, 2, 3, [1, 0, 2]⟩),
   (bytes ".git", Node.dir [(bytes "config", Node.file ⟨0, 3, 2, bytes "x\n"⟩)]),
   (bytes "a.txt", Node.file ⟨0, 4, 3, bytes "hi\n"⟩)]

/-! # Lemmas -/

/-! ## Lemmas on `is_ignored` -/

theorem pattern_verdict_value (fnm : List Nat → List Nat → Bool) (rel base : List Nat)
    (is_dir : Bool) (raw : List Nat) (v : Bool)
    (h : pattern_verdict fnm rel base is_dir raw = some v) : v = !pattern_negated raw := by
  unfold pattern_verdict at h
  unfold pattern_negated
  dsimp only at h
  split_ifs at h <;> (cases h; rfl)

theorem is_ignored_snoc (fnm : List Nat → List Nat → Bool) (filepath : List Nat)
    (ps : List (List Nat)) (p : List Nat) (is_dir : Bool) :
    is_ignored fnm filepath (ps ++ [p]) is_dir =
      (pattern_verdict fnm (skip_dot_slash filepath) (after_last_slash (skip_dot_slash filepath))
        is_dir p).getD (is_ignored fnm filepath ps is_dir) := by
  simp [is_ignored, List.foldl_append]

theorem is_ignored_iff_last_match (fnm : List Nat → List Nat → Bool) (filepath : List Nat)
    (patterns : List (List Nat)) (is_dir : Bool) :
    is_ignored fnm filepath patterns is_dir = true ↔
      ∃ pre p post, patterns = pre ++ p :: post ∧
        pattern_matches fnm filepath is_dir p = true ∧ pattern_negated p = false ∧
        ∀ q ∈ post, pattern_matches fnm filepath is_dir q = false := by
  induction patterns using List.reverseRecOn with
  | nil => simp [is_ignored]
  | append_singleton xs x ih =>
    rw [is_ignored_snoc]
    cases hv : pattern_verdict fnm (skip_dot_slash filepath)
        (after_last_slash (skip_dot_slash filepath)) is_dir x with
    | none =>
      have hx : pattern_matches fnm filepath is_dir x = false := by simp [pattern_matches, hv]
      simp only [Option.getD_none]
      rw [ih]
      constructor
      · rintro ⟨pre, p, post, rfl, hm, hn, hpost⟩
        refine ⟨pre, p, post ++ [x], by simp, hm, hn, ?_⟩
        intro q hq
        rcases List.mem_append.mp hq with hq | hq
        · exact hpost q hq
        · simp at hq; subst hq; exact hx
      · rintro ⟨pre, p, post, heq, hm, hn, hpost⟩
        rcases List.eq_nil_or_concat post with rfl | ⟨post2, y, rfl⟩
        · have h2 : xs ++ [x] = pre ++ [p] := by simpa using heq
          have h3 := List.append_inj_right' h2 rfl
          simp at h3; subst h3
          rw [hx] at hm; cases hm
        · have h2 : xs ++ [x] = (pre ++ p :: post2) ++ [y] := by simpa using heq
          have h3 := List.append_inj_left' h2 rfl
          exact ⟨pre, p, post2, h3, hm, hn, fun q hq => hpost q (by simp [hq])⟩
    | some v =>
      have hx : pattern_matches fnm filepath is_dir x = true := by simp [pattern_matches, hv]
      have hval := pattern_verdict_value _ _ _ _ _ _ hv
      simp only [Option.getD_some]
      constructor
      · intro hvt
        refine ⟨xs, x, [], rfl, hx, ?_, by simp⟩
        cases hneg : pattern_negated x with
        | false => rfl
        | true => rw [hvt, hneg] at hval; cases hval
      · rintro ⟨pre, p, post, heq, hm, hn, hpost⟩
        rcases List.eq_nil_or_concat post with rfl | ⟨post2, y, rfl⟩
        · have h2 : xs ++ [x] = pre ++ [p] := by simpa using heq
          have h3 := List.append_inj_right' h2 rfl
          simp at h3; subst h3
          rw [hn] at hval; simpa using hval
        · have h2 : xs ++ [x] = (pre ++ p :: post2) ++ [y] := by simpa using heq
          have h3 := List.append_inj_right' h2 rfl
          simp at h3; subst h3
          have := hpost x (by simp)
          rw [hx] at this; cases this

theorem after_last_slash_no_slash (s : List Nat) (h : 47 ∉ s) : after_last_slash s = s := by
  cases s with
  | nil => rfl
  | cons c rest =>
    have h1 : 47 ∉ rest := fun hm => h (List.mem_cons_of_mem _ hm)
    have h2 : c ≠ 47 := fun hc => h (by simp [hc])
    simp [after_last_slash, h1, h2]

theorem after_last_slash_skip_dot_slash (p : List Nat) :
    after_last_slash (skip_dot_slash p) = after_last_slash p := by
  unfold skip_dot_slash
  split
  · rename_i rest
    by_cases h : 47 ∈ rest
    · simp [after_last_slash, h]
    · simp [after_last_slash, h, after_last_slash_no_slash rest h]
  · rfl

theorem after_last_slash_no_slash_mem (s : List Nat) : 47 ∉ after_last_slash s := by
  induction s with
  | nil => simp [after_last_slash]
  | cons c rest ih =>
    unfold after_last_slash
    split_ifs with h1 h2
    · exact ih
    · exact h1
    · simp [h1]; exact fun h => h2 h.symm

theorem pattern_verdict_dir_only_file (fnm : List Nat → List Nat → Bool) (rel base raw : List Nat)
    (h : raw.getLast? = some 47) : pattern_verdict fnm rel base false raw = none := by
  unfold pattern_verdict
  dsimp only
  cases raw with
  | nil => simp
  | cons a t =>
    cases t with
    | nil =>
      simp at h
      subst h
      simp
    | cons b t2 =>
      have h2 : (b :: t2).getLast? = some 47 := by simpa [List.getLast?_cons_cons] using h
      by_cases ha : a = 33
      · subst ha
        simp [h2]
      · simp [ha, h]

theorem foldl_verdict_filter (f : List Nat → Option Bool) (keep : List Nat → Bool)
    (hskip : ∀ p, keep p = false → f p = none) (ps : List (List Nat)) (init : Bool) :
    ps.foldl (fun ignored raw => (f raw).getD ignored) init =
      (ps.filter keep).foldl (fun ignored raw => (f raw).getD ignored) init := by
  induction ps generalizing init with
  | nil => rfl
  | cons p ps ih =>
    cases hk : keep p with
    | true => simp [List.filter, hk, ih]
    | false => simp [List.filter, hk, hskip p hk, ih]

theorem star_loop_split (k : List Nat → Bool) (s : List Nat) (h : star_loop k s = true) :
    ∃ pre post, s = pre ++ post ∧ 47 ∉ pre ∧ k post = true := by
  induction s with
  | nil => exact ⟨[], [], rfl, by simp, by simpa [star_loop] using h⟩
  | cons x xs ih =>
    simp only [star_loop, Bool.or_eq_true, Bool.and_eq_true, bne_iff_ne, ne_eq] at h
    rcases h with h | ⟨hx, h⟩
    · exact ⟨[], x :: xs, rfl, by simp, h⟩
    · obtain ⟨pre, post, rfl, hpre, hk⟩ := ih h
      refine ⟨x :: pre, post, rfl, ?_, hk⟩
      simp only [List.mem_cons, not_or]
      exact ⟨fun h47 => hx h47.symm, hpre⟩

theorem star_loop_of_split (k : List Nat → Bool) (pre post : List Nat) (hpre : 47 ∉ pre)
    (hk : k post = true) : star_loop k (pre ++ post) = true := by
  induction pre with
  | nil =>
    cases post with
    | nil => simpa [star_loop] using hk
    | cons y ys => simp [star_loop, hk]
  | cons x xs ih =>
    have hx : x ≠ 47 := fun hc => hpre (by simp [hc])
    have hxs : 47 ∉ xs := fun hm => hpre (List.mem_cons_of_mem _ hm)
    simp [star_loop, hx, ih hxs]

theorem match_toks_count (ts : List GlobTok) (s : List Nat) (h : match_toks ts s = true) :
    s.count 47 = slash_lits ts := by
  induction ts generalizing s with
  | nil =>
    cases s with
    | nil => rfl
    | cons x xs => simp [match_toks] at h
  | cons t ts ih =>
    cases t with
    | lit c =>
      cases s with
      | nil => simp [match_toks] at h
      | cons x xs =>
        simp only [match_toks, Bool.and_eq_true, beq_iff_eq] at h
        obtain ⟨rfl, h⟩ := h
        simp only [slash_lits, List.count_cons, ih xs h, beq_iff_eq]
        omega
    | any =>
      cases s with
      | nil => simp [match_toks] at h
      | cons x xs =>
        simp only [match_toks, Bool.and_eq_true, bne_iff_ne, ne_eq] at h
        simp [slash_lits, List.count_cons, ih xs h.2, h.1]
    | star =>
      simp only [match_toks] at h
      obtain ⟨pre, post, rfl, hpre, hk⟩ := star_loop_split _ _ h
      simp [slash_lits, List.count_append, ih post hk, List.count_eq_zero_of_not_mem hpre]
    | set neg items =>
      cases s with
      | nil => simp [match_toks] at h
      | cons x xs =>
        simp only [match_toks, set_matches, Bool.and_eq_true, bne_iff_ne, ne_eq] at h
        simp [slash_lits, List.count_cons, ih xs h.2, h.1.1]

theorem count_drop_le (n : Nat) (s : List Nat) : (s.drop n).count 47 ≤ s.count 47 :=
  (List.drop_sublist n s).count_le 47

theorem tokenize_slash_lits (pat : List Nat) :
    ∀ (k : Nat) (ts : List GlobTok), tokenize k pat = some ts →
      slash_lits ts ≤ (pat.drop k).count 47 := by
  induction pat with
  | nil =>
    intro k ts h
    simp [tokenize] at h
    subst h
    simp [slash_lits]
  | cons c rest ih =>
    intro k ts h
    cases k with
    | succ k =>
      simp only [tokenize] at h
      simpa using ih k ts h
    | zero =>
      simp only [tokenize] at h
      simp only [List.drop_zero, List.count_cons]
      split_ifs at h with h92 h63 h42 h91
      · cases rest with
        | nil => simp at h
        | cons e rest2 =>
          simp only [Option.map_eq_some'] at h
          obtain ⟨ts2, h2, rfl⟩ := h
          have := ih 1 ts2 h2
          simp only [List.drop_one, List.tail_cons] at this
          simp only [slash_lits, List.count_cons, beq_iff_eq]
          split_ifs <;> omega
      · simp only [Option.map_eq_some'] at h
        obtain ⟨ts2, h2, rfl⟩ := h
        have := ih 0 ts2 h2
        simp only [List.drop_zero] at this
        simp only [slash_lits]
        omega
      · simp only [Option.map_eq_some'] at h
        obtain ⟨ts2, h2, rfl⟩ := h
        have := ih 0 ts2 h2
        simp only [List.drop_zero] at this
        simp only [slash_lits]
        omega
      · split at h
        · simp only [Option.map_eq_some'] at h
          obtain ⟨ts2, h2, rfl⟩ := h
          have := ih _ ts2 h2
          have := count_drop_le ‹Nat› rest
          simp only [slash_lits]
          omega
        · simp only [Option.map_eq_some'] at h
          obtain ⟨ts2, h2, rfl⟩ := h
          have := ih 0 ts2 h2
          simp only [List.drop_zero] at this
          simp [slash_lits]
          omega
      · simp only [Option.map_eq_some'] at h
        obtain ⟨ts2, h2, rfl⟩ := h
        have := ih 0 ts2 h2
        simp only [List.drop_zero] at this
        simp only [slash_lits, beq_iff_eq]
        split_ifs <;> omega

theorem fnmatch_pathname_count (pat s : List Nat) (h : fnmatch_pathname pat s = true) :
    s.count 47 ≤ pat.count 47 := by
  unfold fnmatch_pathname at h
  cases ht : tokenize 0 pat with
  | none => simp [ht] at h
  | some ts =>
    simp only [ht] at h
    have h1 := match_toks_count ts s h
    have h2 := tokenize_slash_lits pat 0 ts ht
    simp only [List.drop_zero] at h2
    omega

theorem pattern_matches_eq (fnm : List Nat → List Nat → Bool) (path raw : List Nat)
    (is_dir : Bool) :
    pattern_matches fnm path is_dir raw =
      (let body := if raw.head? = some 33 then raw.tail else raw
       let core := if body.getLast? = some 47 then body.dropLast else body
       if body = [] ∨ (body.getLast? = some 47 ∧ is_dir = false) then false
       else if 47 ∈ core then
         fnm (if core.head? = some 47 then core.tail else core) (skip_dot_slash path)
       else fnm core (after_last_slash path)) := by
  unfold pattern_matches pattern_verdict
  rw [after_last_slash_skip_dot_slash]
  simp only [List.length_eq_zero]
  by_cases hraw : raw = []
  · subst hraw; simp
  · by_cases hneg : raw.head? = some 33
    · simp only [hraw, hneg, if_true, if_false, decide_True]
      by_cases hb : raw.tail = []
      · simp [hb]
      · by_cases hd : raw.tail.getLast? = some 47
        · cases is_dir <;> simp [hb, hd] <;> split_ifs <;> simp_all
        · simp [hb, hd]; split_ifs <;> simp_all
    · simp only [hraw, hneg, if_true, if_false, decide_False]
      by_cases hd : raw.getLast? = some 47
      · cases is_dir <;> simp [hraw, hd] <;> split_ifs <;> simp_all
      · simp [hraw, hd]; split_ifs <;> simp_all

theorem is_ignored_singleton (fnm : List Nat → List Nat → Bool) (path raw : List Nat)
    (is_dir : Bool) :
    is_ignored fnm path [raw] is_dir =
      (pattern_matches fnm path is_dir raw && !pattern_negated raw) := by
  unfold is_ignored pattern_matches
  simp only [List.foldl_cons, List.foldl_nil]
  cases hv : pattern_verdict fnm (skip_dot_slash path)
      (after_last_slash (skip_dot_slash path)) is_dir raw with
  | none => simp
  | some v => simp [pattern_verdict_value _ _ _ _ _ _ hv]

theorem fnmatch_star_iff (s : List Nat) : fnmatch_pathname (bytes "*") s = true ↔ 47 ∉ s := by
  have ht : fnmatch_pathname (bytes "*") s = star_loop (match_toks []) s := rfl
  rw [ht]
  constructor
  · intro h
    obtain ⟨pre, post, rfl, hpre, hk⟩ := star_loop_split _ _ h
    cases post with
    | nil => simpa using hpre
    | cons y ys => simp [match_toks] at hk
  · intro h
    have := star_loop_of_split (match_toks []) s [] h (by simp [match_toks])
    simpa using this

theorem fnmatch_any_iff (s : List Nat) :
    fnmatch_pathname (bytes "?") s = true ↔ ∃ c, s = [c] ∧ c ≠ 47 := by
  have ht : fnmatch_pathname (bytes "?") s = match_toks [GlobTok.any] s := rfl
  rw [ht]
  cases s with
  | nil => simp [match_toks]
  | cons x xs =>
    cases xs with
    | nil => simp [match_toks]
    | cons y ys => simp [match_toks]

/-! ## Lemmas on `process_file` -/

theorem fread_chunks_loop_flatten (size : Nat) (hsize : 0 < size) :
    ∀ (fuel : Nat) (unread : List Nat), unread.length ≤ fuel →
      (fread_chunks_loop size fuel unread).flatten = unread := by
  intro fuel
  induction fuel with
  | zero =>
    intro unread h
    have : unread = [] := List.length_eq_zero.mp (Nat.le_zero.mp h)
    subst this
    rfl
  | succ fuel ih =>
    intro unread h
    unfold fread_chunks_loop
    split_ifs with he
    · subst he; rfl
    · have hpos : 0 < unread.length := List.length_pos.mpr he
      have hdrop : (unread.drop size).length ≤ fuel := by
        rw [List.length_drop]; omega
      rw [List.flatten_cons, ih _ hdrop, List.take_append_drop]

theorem fread_chunks_flatten (unread : List Nat) : (fread_chunks 4096 unread).flatten = unread :=
  fread_chunks_loop_flatten 4096 (by decide) _ _ (Nat.le_refl _)

theorem read_extra_eq (max_file_size : Nat) (chunks : List (List Nat)) :
    ∀ buffer : List Nat, buffer.length ≤ max_file_size →
      read_extra max_file_size buffer chunks =
        if (buffer ++ chunks.flatten).length > max_file_size then none
        else some (buffer ++ chunks.flatten) := by
  induction chunks with
  | nil =>
    intro buffer h
    have : ¬ buffer.length > max_file_size := by omega
    simp [read_extra, this]
  | cons chunk chunks ih =>
    intro buffer h
    unfold read_extra
    dsimp only
    split_ifs with h1 h2 h2
    · rfl
    · exfalso; simp [List.length_append] at h2; omega
    · rw [ih _ (by rw [List.length_append]; omega)]
      simp only [List.flatten_cons, List.append_assoc] at h2 ⊢
      rw [if_pos h2]
    · rw [ih _ (by rw [List.length_append]; omega)]
      simp only [List.flatten_cons, List.append_assoc] at h2 ⊢
      rw [if_neg h2]

theorem process_file_eq (filepath : List Nat) (st : RegFile) (max_file_size : Nat) :
    process_file filepath st max_file_size =
      if st.st_size > max_file_size ∨ st.content.length > max_file_size then
        some ((1 : Int), [])
      else
        match is_binary_file st.content (if st.content.length < 8192 then st.content.length
            else 8192) with
        | none => none
        | some true => some (1, [])
        | some false =>
          if st.content.length = 0 then some (1, [])
          else some (0, export_section filepath st.content) := by
  unfold process_file
  by_cases h1 : st.st_size > max_file_size
  · simp [h1]
  · have hfirst : (st.content.take st.st_size).length ≤ max_file_size := by
      rw [List.length_take]; omega
    have hall : st.content.take st.st_size ++
        (fread_chunks 4096 (st.content.drop st.st_size)).flatten = st.content := by
      rw [fread_chunks_flatten, List.take_append_drop]
    simp only [h1, if_false, false_or]
    rw [read_extra_eq _ _ _ hfirst, hall]
    by_cases h2 : st.content.length > max_file_size
    · simp [h2]
    · simp only [h2, if_false]

/-! ## Lemmas on the classifier -/

theorem sample_read_length (s : List Nat) (n k : Nat) (hn : s.length = n) :
    sample_read s n k = s[k]? := by
  unfold sample_read
  split_ifs with h
  · rfl
  · exact (List.getElem?_eq_none (by omega)).symm

theorem is_likely_utf8_loop_end (s : List Nat) (n fuel i : Nat) (h : n ≤ i) :
    is_likely_utf8_loop s n fuel i = some true := by
  have : ¬ i < n := by omega
  cases fuel <;> simp [is_likely_utf8_loop, this]

theorem continuation_ok_true (s : List Nat) (n i : Nat) (hn : s.length = n) :
    ∀ (r k : Nat), (∀ j, j < r → ∃ b, s[i + k + j]? = some b ∧ b &&& 0xC0 = 0x80) →
      continuation_ok s n i r k = some true := by
  intro r
  induction r with
  | zero => intro k _; rfl
  | succ r ih =>
    intro k h
    obtain ⟨b, hb, hc⟩ := h 0 (by omega)
    unfold continuation_ok
    rw [sample_read_length _ _ _ hn]
    simp only [Nat.add_zero] at hb
    rw [hb]
    simp only [hc, ne_eq, not_true_eq_false, if_false]
    apply ih
    intro j hj
    have := h (j + 1) (by omega)
    have e : i + k + (j + 1) = i + (k + 1) + j := by omega
    rwa [e] at this

theorem getElem?_block (pre block post : List Nat) (k j : Nat) (hj : j < block.length)
    (hk : pre.length + j < k) :
    ((pre ++ (block ++ post)).take k)[pre.length + j]? = block[j]? := by
  rw [List.getElem?_take_of_lt hk, List.getElem?_append_right (by omega)]
  have : pre.length + j - pre.length = j := by omega
  rw [this, List.getElem?_append_left hj]

theorem utf8_blocks_prefix (blocks : List (List Nat)) :
    (∀ b ∈ blocks, ValidBlock b) → ∀ (pre : List Nat) (k fuel : Nat), pre.length ≤ k →
      k ≤ (pre ++ blocks.flatten).length → k - pre.length ≤ fuel →
      is_likely_utf8_loop ((pre ++ blocks.flatten).take k) k fuel pre.length = some true := by
  induction blocks with
  | nil =>
    intro _ pre k fuel h1 h2 _
    simp at h2
    exact is_likely_utf8_loop_end _ _ _ _ (by omega)
  | cons block blocks ih =>
    intro hv pre k fuel h1 h2 hf
    have hvb : ValidBlock block := hv block (by simp)
    have hvr : ∀ b ∈ blocks, ValidBlock b := fun b hb => hv b (by simp [hb])
    by_cases hend : k = pre.length
    · exact is_likely_utf8_loop_end _ _ _ _ (by omega)
    have hlt : pre.length < k := by omega
    have hlen : ((pre ++ (block :: blocks).flatten).take k).length = k := by
      rw [List.length_take]; omega
    obtain ⟨fuel, rfl⟩ : ∃ f, fuel = f + 1 := ⟨fuel - 1, by omega⟩
    have hbpos : 0 < block.length := by
      rcases hvb with ⟨a, rfl, _, _⟩ | ⟨lead, conts, rfl, _, _, _, _⟩ <;> simp
    have hnext : ∀ (hfull : pre.length + block.length ≤ k),
        is_likely_utf8_loop ((pre ++ (block :: blocks).flatten).take k) k fuel
          (pre.length + block.length) = some true := by
      intro hfull
      have := ih hvr (pre ++ block) k fuel (by simp; omega)
        (by simp at h2 ⊢; omega) (by simp; omega)
      simpa [List.flatten_cons, List.append_assoc] using this
    rcases hvb with ⟨a, rfl, ha0, ha⟩ | ⟨lead, conts, rfl, hlead, hneed, hne, hconts⟩
    · -- one byte below 0x80
      have hrd : ((pre ++ ([a] :: blocks).flatten).take k)[pre.length]? = some a := by
        have := getElem?_block pre [a] blocks.flatten k 0 (by simp) (by omega)
        simpa using this
      unfold is_likely_utf8_loop
      rw [if_pos hlt]
      rw [sample_read_length _ _ _ hlen, hrd]
      simp only [ha, if_true]
      exact hnext (by simp; omega)
    · -- a lead byte and its continuation bytes
      have hrd : ((pre ++ ((lead :: conts) :: blocks).flatten).take k)[pre.length]? =
          some lead := by
        have := getElem?_block pre (lead :: conts) blocks.flatten k 0 (by simp) (by omega)
        simpa using this
      have hpos : 0 < conts.length := List.length_pos.mpr hne
      unfold is_likely_utf8_loop
      rw [if_pos hlt]
      rw [sample_read_length _ _ _ hlen, hrd]
      have h80 : ¬ lead < 0x80 := by omega
      have hn0 : ¬ utf8_need lead = 0 := by omega
      simp only [h80, if_false, hn0]
      by_cases htr : pre.length + utf8_need lead ≥ k
      · rw [if_pos htr]
      · rw [if_neg htr]
        have hfull : pre.length + (lead :: conts).length ≤ k := by
          simp only [List.length_cons]; omega
        have hc : continuation_ok ((pre ++ ((lead :: conts) :: blocks).flatten).take k) k
            pre.length (utf8_need lead) 1 = some true := by
          apply continuation_ok_true _ _ _ hlen
          intro j hj
          have hj2 : j + 1 < (lead :: conts).length := by simp only [List.length_cons]; omega
          have := getElem?_block pre (lead :: conts) blocks.flatten k (j + 1) hj2 (by omega)
          have e : pre.length + 1 + j = pre.length + (j + 1) := by omega
          rw [e]
          simp only [List.flatten_cons]
          rw [this]
          have hjc : j < conts.length := by omega
          refine ⟨conts[j], by simp [hjc], hconts _ (List.getElem_mem _)⟩
        rw [hc]
        have := hnext hfull
        simp only [List.length_cons] at this
        have e : pre.length + utf8_need lead + 1 = pre.length + (conts.length + 1) := by omega
        simp only
        rw [e]
        exact this

set_option maxRecDepth 100000 in
theorem uint8_lead_classes (x : UInt8) :
    (utf8_need (x &&& 0x1f ||| 0xc0).toNat = 1 ∧ 0x80 ≤ (x &&& 0x1f ||| 0xc0).toNat) ∧
    (utf8_need (x &&& 0x0f ||| 0xe0).toNat = 2 ∧ 0x80 ≤ (x &&& 0x0f ||| 0xe0).toNat) ∧
    (utf8_need (x &&& 0x07 ||| 0xf0).toNat = 3 ∧ 0x80 ≤ (x &&& 0x07 ||| 0xf0).toNat) ∧
    (x &&& 0x3f ||| 0x80).toNat &&& 0xC0 = 0x80 := by
  have key : ∀ v : Fin 256,
      (utf8_need ((UInt8.mk (BitVec.ofFin v)) &&& 0x1f ||| 0xc0).toNat = 1 ∧
        0x80 ≤ ((UInt8.mk (BitVec.ofFin v)) &&& 0x1f ||| 0xc0).toNat) ∧
      (utf8_need ((UInt8.mk (BitVec.ofFin v)) &&& 0x0f ||| 0xe0).toNat = 2 ∧
        0x80 ≤ ((UInt8.mk (BitVec.ofFin v)) &&& 0x0f ||| 0xe0).toNat) ∧
      (utf8_need ((UInt8.mk (BitVec.ofFin v)) &&& 0x07 ||| 0xf0).toNat = 3 ∧
        0x80 ≤ ((UInt8.mk (BitVec.ofFin v)) &&& 0x07 ||| 0xf0).toNat) ∧
      ((UInt8.mk (BitVec.ofFin v)) &&& 0x3f ||| 0x80).toNat &&& 0xC0 = 0x80 := by
    decide
  obtain ⟨⟨v⟩⟩ := x
  exact key v

theorem utf8EncodeChar_valid (c : Char) (h0 : c ≠ Char.ofNat 0) :
    ValidBlock ((String.utf8EncodeChar c).map UInt8.toNat) := by
  unfold String.utf8EncodeChar
  dsimp only
  split_ifs with h1 h2 h3
  · left
    refine ⟨c.val.toNat, ?_, ?_, ?_⟩
    · have hlt : c.val.toNat < 256 := by
        have : c.val.toNat ≤ 0x7f := h1
        omega
      simp [UInt32.toUInt8, Nat.toUInt8, UInt8.toNat, UInt8.ofNat, Nat.mod_eq_of_lt hlt]
    · rcases Nat.eq_zero_or_pos c.val.toNat with hz | hp
      · exfalso
        apply h0
        apply Char.ext
        apply UInt32.ext
        simpa using hz
      · exact hp
    · have : c.val.toNat ≤ 0x7f := h1
      omega
  · right
    refine ⟨_, _, rfl, (uint8_lead_classes _).1.2, ?_, by simp, ?_⟩
    · simpa using (uint8_lead_classes _).1.1
    · intro x hx
      simp at hx
      subst hx
      exact (uint8_lead_classes _).2.2.2
  · right
    refine ⟨_, _, rfl, (uint8_lead_classes _).2.1.2, ?_, by simp, ?_⟩
    · simpa using (uint8_lead_classes _).2.1.1
    · intro x hx
      simp at hx
      rcases hx with rfl | rfl <;> exact (uint8_lead_classes _).2.2.2
  · right
    refine ⟨_, _, rfl, (uint8_lead_classes _).2.2.1.2, ?_, by simp, ?_⟩
    · simpa using (uint8_lead_classes _).2.2.1.1
    · intro x hx
      simp at hx
      rcases hx with rfl | rfl | rfl <;> exact (uint8_lead_classes _).2.2.2

theorem valid_block_no_nul (b : List Nat) (h : ValidBlock b) : ∀ x ∈ b, x ≠ 0 := by
  rcases h with ⟨a, rfl, ha0, _⟩ | ⟨lead, conts, rfl, hlead, _, _, hconts⟩
  · intro x hx
    simp at hx
    omega
  · intro x hx
    simp only [List.mem_cons] at hx
    rcases hx with rfl | hx
    · omega
    · intro h0
      have := hconts x hx
      rw [h0] at this
      simp at this

theorem utf8_bytes_blocks (s : List Char) :
    utf8_bytes s = (s.map (fun c => (String.utf8EncodeChar c).map UInt8.toNat)).flatten := by
  unfold utf8_bytes
  induction s with
  | nil => rfl
  | cons c cs ih => simp [List.flatMap_cons, ih]

theorem is_binary_file_of_utf8 (buffer : List Nat) (n : Nat)
    (hnul : ∀ x ∈ buffer.take n, x ≠ 0) (hutf : is_likely_utf8 buffer n = some true) :
    is_binary_file buffer n = some false := by
  unfold is_binary_file
  split_ifs with h0 h1
  · rfl
  · exfalso
    obtain ⟨x, hx, hz⟩ := List.any_eq_true.mp h1
    exact hnul x hx (by simpa using hz)
  · rw [hutf]

theorem sample_read_take (s : List Nat) (n k : Nat) :
    sample_read (s.take n) n k = sample_read s n k := by
  unfold sample_read
  split_ifs with h
  · exact List.getElem?_take_of_lt h
  · rfl

theorem continuation_ok_take (s : List Nat) (n i : Nat) :
    ∀ r k, continuation_ok (s.take n) n i r k = continuation_ok s n i r k := by
  intro r
  induction r with
  | zero => intro k; rfl
  | succ r ih =>
    intro k
    unfold continuation_ok
    rw [sample_read_take, ih]

theorem is_likely_utf8_loop_take (s : List Nat) (n : Nat) :
    ∀ fuel i, is_likely_utf8_loop (s.take n) n fuel i = is_likely_utf8_loop s n fuel i := by
  intro fuel
  induction fuel with
  | zero => intro i; rfl
  | succ fuel ih =>
    intro i
    unfold is_likely_utf8_loop
    simp only [sample_read_take, continuation_ok_take, ih]

theorem is_likely_utf8_take (s : List Nat) (n : Nat) :
    is_likely_utf8 (s.take n) n = is_likely_utf8 s n :=
  is_likely_utf8_loop_take s n n 0

theorem is_binary_file_take (s : List Nat) (n : Nat) :
    is_binary_file (s.take n) n = is_binary_file s n := by
  unfold is_binary_file
  rw [is_likely_utf8_take, List.take_take, Nat.min_self]

theorem is_likely_utf8_ascii (s : List Nat) (h : ∀ x ∈ s, 0 < x ∧ x < 0x80) :
    is_likely_utf8 s s.length = some true := by
  have hfl : (s.map (fun x => [x])).flatten = s := by
    induction s with
    | nil => rfl
    | cons a t ih =>
      simp only [List.map_cons, List.flatten_cons, List.singleton_append, List.cons.injEq,
        true_and]
      exact ih (fun x hx => h x (List.mem_cons_of_mem _ hx))
  have hv : ∀ b ∈ s.map (fun x => [x]), ValidBlock b := by
    intro b hb
    obtain ⟨x, hx, rfl⟩ := List.mem_map.mp hb
    exact Or.inl ⟨x, rfl, (h x hx).1, (h x hx).2⟩
  have := utf8_blocks_prefix _ hv [] s.length s.length (by simp) (by simp [hfl]) (by simp)
  simpa [is_likely_utf8, hfl] using this

theorem is_binary_file_nul (buffer : List Nat) (n i : Nat) (hi : i < n)
    (h0 : buffer[i]? = some 0) : is_binary_file buffer n = some true := by
  unfold is_binary_file
  have hn : ¬ n = 0 := by omega
  have hany : (buffer.take n).any (fun b => b == 0) = true := by
    apply List.any_eq_true.mpr
    refine ⟨0, ?_, by simp⟩
    have : (buffer.take n)[i]? = some 0 := by rw [List.getElem?_take_of_lt hi, h0]
    exact List.getElem?_mem this
  simp [hn, hany]

theorem nul_after_sample_exported (filepath : List Nat) (dev ino n max_file_size : Nat)
    (hn : 8192 ≤ n) (hmax : n + 1 ≤ max_file_size) :
    process_file filepath ⟨dev, ino, n + 1, List.replicate n 97 ++ [0]⟩ max_file_size =
      some (0, export_section filepath (List.replicate n 97 ++ [0])) := by
  have hlen : (List.replicate n 97 ++ [0] : List Nat).length = n + 1 := by
    rw [List.length_append, List.length_replicate]; rfl
  have hasc : ∀ x ∈ List.replicate 8192 97, 0 < x ∧ x < 0x80 := by
    intro x hx
    rw [List.eq_of_mem_replicate hx]
    decide
  have ht : (List.replicate n 97 ++ [0] : List Nat).take 8192 = List.replicate 8192 97 := by
    rw [List.take_append_of_le_length (by rw [List.length_replicate]; exact hn),
      List.take_replicate, Nat.min_eq_left hn]
  have hbin : is_binary_file (List.replicate n 97 ++ [0]) 8192 = some false := by
    rw [← is_binary_file_take, ht]
    apply is_binary_file_of_utf8
    · intro x hx
      have := hasc x (List.mem_of_mem_take hx)
      omega
    · have := is_likely_utf8_ascii _ hasc
      rwa [List.length_replicate] at this
  rw [process_file_eq]
  dsimp only
  rw [hlen]
  have h1 : ¬ (n + 1 > max_file_size ∨ n + 1 > max_file_size) := by omega
  have h2 : ¬ n + 1 < 8192 := by omega
  have h3 : ¬ n + 1 = 0 := by omega
  rw [if_neg h1, if_neg h2, hbin]
  dsimp only
  rw [if_neg h3]

/-! ## Lemmas on the fence width -/

theorem backtick_scan_snoc (buf : List Nat) (b : Nat) :
    backtick_scan (buf ++ [b]) =
      (if b = 96 then
        ((backtick_scan buf).1 + 1,
          if (backtick_scan buf).1 + 1 > (backtick_scan buf).2 then (backtick_scan buf).1 + 1
          else (backtick_scan buf).2)
      else (0, (backtick_scan buf).2)) := by
  simp [backtick_scan, List.foldl_append]

theorem replicate_suffix_snoc (k b : Nat) (buf : List Nat)
    (h : List.replicate k 96 <:+ buf ++ [b]) :
    k = 0 ∨ (b = 96 ∧ ∃ j, k = j + 1 ∧ List.replicate j 96 <:+ buf) := by
  rcases List.suffix_concat_iff.mp h with h0 | ⟨t, ht, hsuf⟩
  · left
    cases k with
    | zero => rfl
    | succ k => simp [List.replicate_succ] at h0
  · right
    cases k with
    | zero => simp at ht
    | succ j =>
      rw [List.replicate_succ'] at ht
      have h1 := List.append_inj_right' ht rfl
      have h2 := List.append_inj_left' ht rfl
      simp at h1
      exact ⟨h1.symm, j, rfl, h2 ▸ hsuf⟩

theorem backtick_scan_spec (buf : List Nat) :
    List.replicate (backtick_scan buf).1 96 <:+ buf ∧
    (∀ k, List.replicate k 96 <:+ buf → k ≤ (backtick_scan buf).1) ∧
    List.replicate (backtick_scan buf).2 96 <:+: buf ∧
    (∀ k, List.replicate k 96 <:+: buf → k ≤ (backtick_scan buf).2) := by
  induction buf using List.reverseRecOn with
  | nil =>
    refine ⟨by simp [backtick_scan], ?_, by simp [backtick_scan], ?_⟩
    · intro k hk
      have := List.eq_nil_of_suffix_nil hk
      cases k with
      | zero => exact Nat.zero_le _
      | succ k => simp [List.replicate_succ] at this
    · intro k hk
      have := List.eq_nil_of_infix_nil hk
      cases k with
      | zero => exact Nat.zero_le _
      | succ k => simp [List.replicate_succ] at this
  | append_singleton buf b ih =>
    obtain ⟨ha, hb, hc, hd⟩ := ih
    rw [backtick_scan_snoc]
    by_cases h96 : b = 96
    · subst h96
      simp only [if_true]
      have hsuf : List.replicate ((backtick_scan buf).1 + 1) 96 <:+ buf ++ [96] := by
        rw [List.replicate_succ']
        obtain ⟨t, ht⟩ := ha
        exact ⟨t, by rw [← List.append_assoc, ht]⟩
      have hb2 : ∀ k, List.replicate k 96 <:+ buf ++ [96] → k ≤ (backtick_scan buf).1 + 1 := by
        intro k hk
        rcases replicate_suffix_snoc k 96 buf hk with h0 | ⟨_, j, rfl, hj⟩
        · omega
        · have := hb j hj
          omega
      refine ⟨hsuf, hb2, ?_, ?_⟩
      · split_ifs with hgt
        · exact hsuf.isInfix
        · exact List.infix_concat_iff.mpr (Or.inr hc)
      · intro k hk
        rcases List.infix_concat_iff.mp hk with h1 | h1
        · have := hb2 k h1
          split_ifs <;> omega
        · have := hd k h1
          split_ifs <;> omega
    · simp only [h96, if_false]
      have hb2 : ∀ k, List.replicate k 96 <:+ buf ++ [b] → k ≤ 0 := by
        intro k hk
        rcases replicate_suffix_snoc k b buf hk with h0 | ⟨hb96, _⟩
        · omega
        · exact absurd hb96 h96
      refine ⟨by simp, hb2, List.infix_concat_iff.mpr (Or.inr hc), ?_⟩
      intro k hk
      rcases List.infix_concat_iff.mp hk with h1 | h1
      · have := hb2 k h1
        omega
      · exact hd k h1

theorem write_fence_eq (count : Nat) (lang : Option (List Nat)) :
    write_fence count lang = List.replicate count 96 ++ lang.getD [] ++ [10] := by
  unfold write_fence
  cases lang with
  | none => rfl
  | some l =>
    by_cases h : l = []
    · subst h; rfl
    · simp [h]

theorem export_section_eq (filepath buffer : List Nat) :
    export_section filepath buffer =
      bytes "## " ++ skip_dot_slash filepath ++ [10] ++ [10] ++
      List.replicate (fence_width buffer) 96 ++
        (get_language_identifier filepath buffer).getD [] ++ [10] ++
      buffer ++ (if buffer.getLast? = some 10 then [] else [10]) ++
      List.replicate (fence_width buffer) 96 ++ [10] ++ [10, 10] := by
  unfold export_section
  simp only [write_fence_eq, Option.getD_none, List.append_nil, List.append_assoc]
  have h1 : bytes "\n\n" = [10, 10] := rfl
  have h2 : bytes "\n" = [10] := rfl
  rw [h1, h2]
  by_cases h : buffer.getLast? = some 10 <;> simp [h]

theorem process_file_exported (filepath : List Nat) (st : RegFile) (max_file_size : Nat)
    (out : List Nat) (h : process_file filepath st max_file_size = some (0, out)) :
    out = export_section filepath st.content ∧ st.content ≠ [] ∧
    st.st_size ≤ max_file_size ∧ st.content.length ≤ max_file_size ∧
    is_binary_file st.content (if st.content.length < 8192 then st.content.length else 8192) =
      some false := by
  rw [process_file_eq] at h
  by_cases h1 : st.st_size > max_file_size ∨ st.content.length > max_file_size
  · rw [if_pos h1] at h; cases h
  · rw [if_neg h1] at h
    cases hb : is_binary_file st.content
        (if st.content.length < 8192 then st.content.length else 8192) with
    | none => rw [hb] at h; cases h
    | some b =>
      rw [hb] at h
      cases b with
      | true => cases h
      | false =>
        dsimp only at h
        by_cases h0 : st.content.length = 0
        · rw [if_pos h0] at h; cases h
        · rw [if_neg h0] at h
          cases h
          refine ⟨rfl, ?_, by omega, by omega, rfl⟩
          intro hc
          exact h0 (by rw [hc]; rfl)

/-! ## Totality of the classifier and of `process_file` -/

theorem continuation_ok_total (s : List Nat) (n i : Nat) (hn : n ≤ s.length) :
    ∀ r k, i + k + r ≤ n → ∃ b, continuation_ok s n i r k = some b := by
  intro r
  induction r with
  | zero => intro k _; exact ⟨true, rfl⟩
  | succ r ih =>
    intro k h
    unfold continuation_ok
    have hlt : i + k < n := by omega
    have hlen : i + k < s.length := by omega
    obtain ⟨c, hrd⟩ : ∃ c, sample_read s n (i + k) = some c := by
      unfold sample_read
      rw [if_pos hlt]
      exact ⟨s[i + k], List.getElem?_eq_getElem hlen⟩
    rw [hrd]
    dsimp only
    split_ifs
    · exact ⟨false, rfl⟩
    · exact ih (k + 1) (by omega)

theorem is_likely_utf8_loop_total (s : List Nat) (n : Nat) (hn : n ≤ s.length) :
    ∀ fuel i, n - i ≤ fuel → ∃ b, is_likely_utf8_loop s n fuel i = some b := by
  intro fuel
  induction fuel with
  | zero =>
    intro i h
    have : ¬ i < n := by omega
    exact ⟨true, by simp [is_likely_utf8_loop, this]⟩
  | succ fuel ih =>
    intro i h
    unfold is_likely_utf8_loop
    by_cases hlt : i < n
    · rw [if_pos hlt]
      have hlen : i < s.length := by omega
      obtain ⟨c, hrd⟩ : ∃ c, sample_read s n i = some c := by
        unfold sample_read
        rw [if_pos hlt]
        exact ⟨s[i], List.getElem?_eq_getElem hlen⟩
      rw [hrd]
      dsimp only
      split_ifs with h1 h2 h3
      · exact ih (i + 1) (by omega)
      · exact ⟨false, rfl⟩
      · exact ⟨true, rfl⟩
      · obtain ⟨b, hb⟩ := continuation_ok_total s n i hn (utf8_need c) 1 (by omega)
        rw [hb]
        cases b with
        | false => exact ⟨false, rfl⟩
        | true => exact ih _ (by omega)
    · rw [if_neg hlt]
      exact ⟨true, rfl⟩

theorem is_likely_utf8_total (s : List Nat) (n : Nat) (hn : n ≤ s.length) :
    ∃ b, is_likely_utf8 s n = some b :=
  is_likely_utf8_loop_total s n hn n 0 (by omega)

theorem is_binary_file_total (s : List Nat) (n : Nat) (hn : n ≤ s.length) :
    ∃ b, is_binary_file s n = some b := by
  unfold is_binary_file
  split_ifs
  · exact ⟨false, rfl⟩
  · exact ⟨true, rfl⟩
  · obtain ⟨b, hb⟩ := is_likely_utf8_total s n hn
    rw [hb]
    cases b with
    | true => exact ⟨false, rfl⟩
    | false => exact ⟨_, rfl⟩

theorem process_file_total (filepath : List Nat) (st : RegFile) (max_file_size : Nat) :
    ∃ code out, process_file filepath st max_file_size = some (code, out) ∧
      (code = 0 ∨ code = 1) := by
  rw [process_file_eq]
  by_cases h : st.st_size > max_file_size ∨ st.content.length > max_file_size
  · rw [if_pos h]
    exact ⟨1, [], rfl, Or.inr rfl⟩
  · rw [if_neg h]
    obtain ⟨b, hb⟩ := is_binary_file_total st.content
      (if st.content.length < 8192 then st.content.length else 8192) (by split_ifs <;> omega)
    rw [hb]
    cases b with
    | true => exact ⟨1, [], rfl, Or.inr rfl⟩
    | false =>
      dsimp only
      by_cases h0 : st.content.length = 0
      · rw [if_pos h0]
        exact ⟨1, [], rfl, Or.inr rfl⟩
      · rw [if_neg h0]
        exact ⟨0, _, rfl, Or.inl rfl⟩

/-! ## Lemmas on the walk -/

theorem foldlM_option_total {α β : Type} (f : β → α → Option β) (P : β → Prop) (xs : List α) :
    ∀ init, P init → (∀ acc x, x ∈ xs → P acc → ∃ r, f acc x = some r ∧ P r) →
      ∃ r, xs.foldlM f init = some r ∧ P r := by
  induction xs with
  | nil => intro init h _; exact ⟨init, rfl, h⟩
  | cons x xs ih =>
    intro init hinit hstep
    obtain ⟨r, hr, hPr⟩ := hstep init x (by simp) hinit
    obtain ⟨r2, hr2, hP2⟩ := ih r hPr (fun acc y hy hP => hstep acc y (by simp [hy]) hP)
    refine ⟨r2, ?_, hP2⟩
    simp [List.foldlM_cons, hr, hr2]

theorem foldlM_option_invariant {α β : Type} (f : β → α → Option β) (P : β → Prop)
    (xs : List α) :
    ∀ init r, P init → (∀ acc x r, x ∈ xs → P acc → f acc x = some r → P r) →
      xs.foldlM f init = some r → P r := by
  induction xs with
  | nil =>
    intro init r h _ hr
    simp at hr
    subst hr
    exact h
  | cons x xs ih =>
    intro init r hinit hstep hr
    rw [List.foldlM_cons] at hr
    cases hfx : f init x with
    | none => rw [hfx] at hr; simp at hr
    | some a =>
      rw [hfx] at hr
      exact ih a r (hstep init x a (by simp) hinit hfx)
        (fun acc y r hy hP h => hstep acc y r (by simp [hy]) hP h) hr

theorem foldlM_option_congr {α β : Type} (f g : β → α → Option β) (xs : List α)
    (h : ∀ acc x, x ∈ xs → f acc x = g acc x) (init : β) :
    xs.foldlM f init = xs.foldlM g init := by
  induction xs generalizing init with
  | nil => rfl
  | cons x xs ih =>
    rw [List.foldlM_cons, List.foldlM_cons, h init x (by simp)]
    cases g init x with
    | none => rfl
    | some a => exact ih (fun acc y hy => h acc y (by simp [hy])) a

theorem lookup_entry_depth (es : List (List Nat × Node)) (name : List Nat) (n : Node)
    (h : lookup_entry es name = some n) : n.depth ≤ entries_depth es := by
  induction es with
  | nil => simp [lookup_entry] at h
  | cons e rest ih =>
    unfold lookup_entry at h
    rw [List.find?_cons] at h
    cases he : (e.1 == name) with
    | true =>
      rw [he] at h
      simp at h
      subst h
      simp [entries_depth]
    | false =>
      rw [he] at h
      have := ih h
      simp only [entries_depth]
      omega

theorem process_directory_total (fnm : List Nat → List Nat → Bool) (ctx : AppContext) :
    ∀ (fuel : Nat) (base_path : List Nat) (entries : List (List Nat × Node)),
      entries_depth entries < fuel →
      ∃ secs, process_directory fnm ctx fuel base_path entries = some (0, secs) := by
  intro fuel
  induction fuel with
  | zero => intro _ _ h; omega
  | succ fuel ih =>
    intro base_path entries hd
    unfold process_directory
    obtain ⟨r, hr, hP⟩ := foldlM_option_total
      (process_entry fnm ctx (process_directory fnm ctx fuel) base_path entries)
      (fun acc => acc.1 = 0) (sorted_names entries) (0, []) rfl (by
        intro acc name _ hacc
        unfold process_entry
        rw [if_neg (by simpa using hacc)]
        dsimp only
        by_cases hlen : (base_path ++ [47] ++ name).length ≥ MAX_PATH_LENGTH
        · rw [if_pos hlen]
          exact ⟨acc, rfl, hacc⟩
        · rw [if_neg hlen]
          cases hl : lookup_entry entries name with
          | none => exact ⟨acc, rfl, hacc⟩
          | some node =>
            cases node with
            | symlink => exact ⟨acc, rfl, hacc⟩
            | other => exact ⟨acc, rfl, hacc⟩
            | dir sub =>
              dsimp only
              by_cases hig : is_ignored fnm (sanitize_path (base_path ++ [47] ++ name))
                  ctx.ignore_patterns true = true
              · rw [if_pos hig]
                exact ⟨acc, rfl, hacc⟩
              · rw [if_neg hig]
                have hdep := lookup_entry_depth entries name _ hl
                simp only [Node.depth] at hdep
                obtain ⟨secs, hs⟩ := ih (sanitize_path (base_path ++ [47] ++ name)) sub
                  (by omega)
                rw [hs]
                exact ⟨_, rfl, rfl⟩
            | file st =>
              dsimp only
              split_ifs
              · exact ⟨acc, rfl, hacc⟩
              · exact ⟨acc, rfl, hacc⟩
              · obtain ⟨code, out, hpf, hcode⟩ := process_file_total
                  (sanitize_path (base_path ++ [47] ++ name)) st ctx.max_file_size
                rw [hpf]
                dsimp only
                split_ifs
                · exact ⟨_, rfl, rfl⟩
                · exact ⟨acc, rfl, hacc⟩)
    obtain ⟨st, secs⟩ := r
    simp only at hP
    subst hP
    exact ⟨secs, hr⟩

theorem lookup_entry_map (es : List (List Nat × Node)) (name : List Nat) (h : Node → Node)
    (n2 : List Nat) :
    lookup_entry (es.map (fun e => if e.1 == name then (e.1, h e.2) else e)) n2 =
      (lookup_entry es n2).map (fun node => if n2 == name then h node else node) := by
  induction es with
  | nil => rfl
  | cons e rest ih =>
    unfold lookup_entry at ih ⊢
    rw [List.map_cons, List.find?_cons, List.find?_cons]
    have hfst : (if e.1 == name then (e.1, h e.2) else e).1 = e.1 := by
      split_ifs <;> rfl
    rw [hfst]
    cases he : (e.1 == n2) with
    | false => exact ih
    | true =>
      have : e.1 = n2 := by simpa using he
      subst this
      simp only [Option.map_some']
      split_ifs <;> rfl

theorem sorted_names_map (es : List (List Nat × Node)) (g : List Nat × Node → List Nat × Node)
    (hg : ∀ e, (g e).1 = e.1) : sorted_names (es.map g) = sorted_names es := by
  unfold sorted_names
  have : (es.map g).map Prod.fst = es.map Prod.fst := by
    rw [List.map_map]
    apply List.map_congr_left
    intro e _
    exact hg e
  rw [this]

theorem replace_at_single (new : Node) (name : List Nat) (es : List (List Nat × Node)) :
    replace_at new [name] es =
      es.map (fun e => if e.1 == name then (e.1, new) else e) := rfl

theorem replace_at_cons (new : Node) (name c2 : List Nat) (rest : List (List Nat))
    (es : List (List Nat × Node)) :
    replace_at new (name :: c2 :: rest) es =
      es.map (fun e => if e.1 == name then
        (e.1, match e.2 with
          | Node.dir sub => Node.dir (replace_at new (c2 :: rest) sub)
          | n => n) else e) := by
  simp only [replace_at]
  apply List.map_congr_left
  intro e _
  split_ifs
  · obtain ⟨n, node⟩ := e
    cases node <;> rfl
  · rfl

theorem process_entry_congr (fnm : List Nat → List Nat → Bool) (ctx : AppContext)
    (rec1 rec2 : List Nat → List (List Nat × Node) → Option (Int × List (List Nat × List Nat)))
    (base_path : List Nat) (es1 es2 : List (List Nat × Node))
    (acc : Int × List (List Nat × List Nat)) (name : List Nat)
    (hfile : ∀ n, (∀ sub, n ≠ Node.dir sub) →
      (lookup_entry es1 name = some n ↔ lookup_entry es2 name = some n))
    (hnone : lookup_entry es1 name = none ↔ lookup_entry es2 name = none)
    (hdir : ∀ sub1, lookup_entry es1 name = some (Node.dir sub1) →
      ∃ sub2, lookup_entry es2 name = some (Node.dir sub2) ∧
        (is_ignored fnm (sanitize_path (base_path ++ [47] ++ name)) ctx.ignore_patterns true
            = false →
          rec1 (sanitize_path (base_path ++ [47] ++ name)) sub1 =
            rec2 (sanitize_path (base_path ++ [47] ++ name)) sub2)) :
    process_entry fnm ctx rec1 base_path es1 acc name =
      process_entry fnm ctx rec2 base_path es2 acc name := by
  unfold process_entry
  by_cases hacc : acc.1 ≠ 0
  · rw [if_pos hacc, if_pos hacc]
  · rw [if_neg hacc, if_neg hacc]
    dsimp only
    by_cases hlen : (base_path ++ [47] ++ name).length ≥ MAX_PATH_LENGTH
    · rw [if_pos hlen, if_pos hlen]
    · rw [if_neg hlen, if_neg hlen]
      cases hl : lookup_entry es1 name with
      | none => rw [hnone.mp hl]
      | some node =>
        cases node with
        | symlink => rw [(hfile _ (fun _ h => by cases h)).mp hl]
        | other => rw [(hfile _ (fun _ h => by cases h)).mp hl]
        | file st => rw [(hfile _ (fun _ h => by cases h)).mp hl]
        | dir sub1 =>
          obtain ⟨sub2, h2, hrec⟩ := hdir sub1 hl
          rw [h2]
          dsimp only
          by_cases hig : is_ignored fnm (sanitize_path (base_path ++ [47] ++ name))
              ctx.ignore_patterns true = true
          · rw [if_pos hig, if_pos hig]
          · rw [if_neg hig, if_neg hig, hrec (by simpa using hig)]

theorem process_directory_replace_ignored (fnm : List Nat → List Nat → Bool) (ctx : AppContext)
    (sub2 : List (List Nat × Node)) :
    ∀ (chain : List (List Nat)) (fuel : Nat) (base_path : List Nat)
      (entries sub : List (List Nat × Node)),
      node_at entries chain = some (Node.dir sub) →
      is_ignored fnm (path_of base_path chain) ctx.ignore_patterns true = true →
      process_directory fnm ctx fuel base_path (replace_at (Node.dir sub2) chain entries) =
        process_directory fnm ctx fuel base_path entries := by
  intro chain
  induction chain with
  | nil => intro _ _ _ _ h; simp [node_at] at h
  | cons name rest ih =>
    intro fuel base_path entries sub hnode hign
    cases fuel with
    | zero => rfl
    | succ fuel =>
      cases rest with
      | nil =>
        simp only [node_at] at hnode
        simp only [path_of] at hign
        rw [replace_at_single]
        unfold process_directory
        rw [sorted_names_map _ _ (by intro e; split_ifs <;> rfl)]
        apply foldlM_option_congr
        intro acc n2 _
        apply process_entry_congr
        · intro n hn
          rw [lookup_entry_map entries name (fun _ => Node.dir sub2) n2]
          by_cases hnn : n2 = name
          · subst hnn
            rw [hnode]
            simp only [Option.map_some', beq_self_eq_true, if_true]
            constructor
            · intro h; cases h; exact absurd rfl (hn _)
            · intro h; cases h; exact absurd rfl (hn _)
          · have : (n2 == name) = false := by simpa using hnn
            simp [this]
        · rw [lookup_entry_map entries name (fun _ => Node.dir sub2) n2]
          simp
        · intro sub1 h1
          rw [lookup_entry_map entries name (fun _ => Node.dir sub2) n2] at h1
          by_cases hnn : n2 = name
          · subst hnn
            refine ⟨sub, hnode, ?_⟩
            intro hfalse
            rw [hign] at hfalse
            cases hfalse
          · have : (n2 == name) = false := by simpa using hnn
            simp only [this] at h1
            refine ⟨sub1, by simpa using h1, fun _ => rfl⟩
      | cons c2 rest2 =>
        simp only [node_at] at hnode
        simp only [path_of] at hign
        cases hl : lookup_entry entries name with
        | none => rw [hl] at hnode; simp at hnode
        | some node =>
          rw [hl] at hnode
          cases node with
          | symlink => simp at hnode
          | other => simp at hnode
          | file st => simp at hnode
          | dir s =>
            simp only at hnode
            rw [replace_at_cons]
            unfold process_directory
            rw [sorted_names_map _ _ (by intro e; split_ifs <;> rfl)]
            apply foldlM_option_congr
            intro acc n2 _
            apply process_entry_congr
            · intro n hn
              rw [lookup_entry_map entries name (fun n => match n with
                | Node.dir sub => Node.dir (replace_at (Node.dir sub2) (c2 :: rest2) sub)
                | n => n) n2]
              by_cases hnn : n2 = name
              · subst hnn
                rw [hl]
                simp only [Option.map_some', beq_self_eq_true, if_true]
                constructor
                · intro h; cases h; exact absurd rfl (hn _)
                · intro h; cases h; exact absurd rfl (hn _)
              · have : (n2 == name) = false := by simpa using hnn
                simp [this]
            · rw [lookup_entry_map entries name (fun n => match n with
                | Node.dir sub => Node.dir (replace_at (Node.dir sub2) (c2 :: rest2) sub)
                | n => n) n2]
              simp
            · intro sub1 h1
              rw [lookup_entry_map entries name (fun n => match n with
                | Node.dir sub => Node.dir (replace_at (Node.dir sub2) (c2 :: rest2) sub)
                | n => n) n2] at h1
              by_cases hnn : n2 = name
              · subst hnn
                rw [hl] at h1
                simp only [Option.map_some', beq_self_eq_true, if_true, Option.some.injEq,
                  Node.dir.injEq] at h1
                subst h1
                refine ⟨s, hl, fun _ => ?_⟩
                exact ih fuel _ s sub hnode (by simpa [path_of] using hign)
              · have : (n2 == name) = false := by simpa using hnn
                simp only [this] at h1
                refine ⟨sub1, by simpa using h1, fun _ => rfl⟩

theorem section_reached_lift (fnm : List Nat → List Nat → Bool) (ctx : AppContext)
    (base_path name : List Nat) (entries sub : List (List Nat × Node))
    (sec : List Nat × List Nat)
    (hl : lookup_entry entries name = some (Node.dir sub))
    (hig : is_ignored fnm (sanitize_path (base_path ++ [47] ++ name)) ctx.ignore_patterns true
      = false)
    (h : SectionReached fnm ctx (sanitize_path (base_path ++ [47] ++ name)) sub sec) :
    SectionReached fnm ctx base_path entries sec := by
  obtain ⟨chain, hne, hpath, ⟨st, hnode, hpf, hnign⟩, hpre⟩ := h
  refine ⟨name :: chain, by simp, ?_, ⟨st, ?_, hpf, hnign⟩, ?_⟩
  · rw [hpath]; rfl
  · cases chain with
    | nil => exact absurd rfl hne
    | cons c cs => simp only [node_at, hl]; exact hnode
  · intro i hi hlt
    cases i with
    | zero => omega
    | succ j =>
      simp only [List.take_succ_cons, path_of]
      cases j with
      | zero => simpa [path_of] using hig
      | succ j2 =>
        apply hpre
        · omega
        · simp only [List.length_cons] at hlt; omega

theorem process_directory_sections (fnm : List Nat → List Nat → Bool) (ctx : AppContext) :
    ∀ (fuel : Nat) (base_path : List Nat) (entries : List (List Nat × Node))
      (r : Int × List (List Nat × List Nat)),
      process_directory fnm ctx fuel base_path entries = some r →
      ∀ sec ∈ r.2, SectionReached fnm ctx base_path entries sec := by
  intro fuel
  induction fuel with
  | zero => intro _ _ r h; simp [process_directory] at h
  | succ fuel ih =>
    intro base_path entries r h
    unfold process_directory at h
    refine foldlM_option_invariant
      (process_entry fnm ctx (process_directory fnm ctx fuel) base_path entries)
      (fun acc => ∀ sec ∈ acc.2, SectionReached fnm ctx base_path entries sec)
      (sorted_names entries) (0, []) r (by simp) ?_ h
    intro acc name r2 _ hacc hstep
    unfold process_entry at hstep
    by_cases h0 : acc.1 ≠ 0
    · rw [if_pos h0] at hstep; cases hstep; exact hacc
    rw [if_neg h0] at hstep
    dsimp only at hstep
    by_cases hlen : (base_path ++ [47] ++ name).length ≥ MAX_PATH_LENGTH
    · rw [if_pos hlen] at hstep; cases hstep; exact hacc
    rw [if_neg hlen] at hstep
    cases hl : lookup_entry entries name with
    | none => rw [hl] at hstep; cases hstep; exact hacc
    | some node =>
      rw [hl] at hstep
      cases node with
      | symlink => cases hstep; exact hacc
      | other => cases hstep; exact hacc
      | dir sub =>
        dsimp only at hstep
        by_cases hig : is_ignored fnm (sanitize_path (base_path ++ [47] ++ name))
            ctx.ignore_patterns true = true
        · rw [if_pos hig] at hstep; cases hstep; exact hacc
        rw [if_neg hig] at hstep
        cases hrec : process_directory fnm ctx fuel (sanitize_path (base_path ++ [47] ++ name))
            sub with
        | none => rw [hrec] at hstep; cases hstep
        | some res =>
          rw [hrec] at hstep
          have hsub := ih _ _ res hrec
          have hall : ∀ sec ∈ acc.2 ++ res.2, SectionReached fnm ctx base_path entries sec := by
            intro sec hsec
            rcases List.mem_append.mp hsec with hs | hs
            · exact hacc sec hs
            · exact section_reached_lift fnm ctx base_path name entries sub sec hl
                (by simpa using hig) (hsub sec hs)
          obtain ⟨st, secs⟩ := res
          dsimp only at hstep
          split_ifs at hstep <;> (cases hstep; exact hall)
      | file st =>
        dsimp only at hstep
        by_cases hself : (ctx.have_temp && decide ((st.st_dev, st.st_ino) = ctx.temp_stat) ||
            ctx.have_final && decide ((st.st_dev, st.st_ino) = ctx.final_stat)) = true
        · rw [if_pos hself] at hstep; cases hstep; exact hacc
        rw [if_neg hself] at hstep
        by_cases hex : should_exclude_file fnm (sanitize_path (base_path ++ [47] ++ name)) st
            ctx.max_file_size ctx.ignore_patterns = true
        · rw [if_pos hex] at hstep; cases hstep; exact hacc
        rw [if_neg hex] at hstep
        cases hpf : process_file (sanitize_path (base_path ++ [47] ++ name)) st
            ctx.max_file_size with
        | none => rw [hpf] at hstep; cases hstep
        | some res =>
          rw [hpf] at hstep
          obtain ⟨code, out⟩ := res
          dsimp only at hstep
          by_cases hcode : code = 0
          · rw [if_pos hcode] at hstep
            cases hstep
            intro sec hsec
            rcases List.mem_append.mp hsec with hs | hs
            · exact hacc sec hs
            · simp only [List.mem_singleton] at hs
              subst hs
              subst hcode
              refine ⟨[name], by simp, rfl, ⟨st, by simpa [node_at] using hl, hpf, ?_⟩, ?_⟩
              · show is_ignored fnm (sanitize_path (base_path ++ [47] ++ name))
                  ctx.ignore_patterns false = false
                cases hv : is_ignored fnm (sanitize_path (base_path ++ [47] ++ name))
                    ctx.ignore_patterns false with
                | false => rfl
                | true =>
                  exfalso
                  apply hex
                  unfold should_exclude_file
                  rw [hv]
                  by_cases hsz : st.st_size > ctx.max_file_size
                  · rw [if_pos hsz]
                  · rw [if_neg hsz, if_pos rfl]
              · intro i hi hlt
                simp at hlt
                omega
          · rw [if_neg hcode] at hstep; cases hstep; exact hacc

/-! ## Lemmas on the language tag -/

theorem strrchr_eq_none (s : List Nat) (c : Nat) : strrchr s c = none ↔ c ∉ s := by
  induction s with
  | nil => simp [strrchr]
  | cons x rest ih =>
    unfold strrchr
    cases h : strrchr rest c with
    | some r =>
      have : c ∈ rest := by
        by_contra hc
        rw [ih.mpr hc] at h
        cases h
      simp [this]
    | none =>
      have hn := ih.mp h
      by_cases hx : x = c
      · simp [hx]
      · simp [hx, hn, Ne.symm hx]

theorem strrchr_append (pre s : List Nat) (c : Nat) (dot : List Nat)
    (h : strrchr s c = some dot) : strrchr (pre ++ s) c = some dot := by
  induction pre with
  | nil => exact h
  | cons x pre ih =>
    rw [List.cons_append]
    unfold strrchr
    rw [ih]

theorem strrchr_length_le (s : List Nat) (c : Nat) (dot : List Nat)
    (h : strrchr s c = some dot) : dot.length ≤ s.length := by
  induction s with
  | nil => simp [strrchr] at h
  | cons x rest ih =>
    unfold strrchr at h
    cases hr : strrchr rest c with
    | some r =>
      rw [hr] at h
      cases h
      have := ih hr
      simp only [List.length_cons]
      omega
    | none =>
      rw [hr] at h
      dsimp only at h
      split_ifs at h
      cases h
      exact Nat.le_refl _

theorem after_last_slash_append (dir name : List Nat) (h : 47 ∉ name) :
    after_last_slash (dir ++ 47 :: name) = name := by
  induction dir with
  | nil => simp [after_last_slash, h]
  | cons x dir ih =>
    rw [List.cons_append]
    unfold after_last_slash
    rw [if_pos (by simp), ih]

set_option maxRecDepth 100000 in
theorem lang_map_extensions_distinct :
    ∀ e ∈ lang_map, ∀ e2 ∈ lang_map, e.1.map to_lower = e2.1.map to_lower → e = e2 := by
  decide

theorem get_language_identifier_not_special (filepath buffer : List Nat)
    (h : special_name (after_last_slash filepath) = false) :
    get_language_identifier filepath buffer =
      match strrchr filepath 46 with
      | none => detect_shebang buffer
      | some dot =>
        if dot.length = filepath.length then detect_shebang buffer
        else
          match lang_map.find? (fun e => strcasecmp_eq dot.tail e.1) with
          | some e => some e.2
          | none => none := by
  unfold special_name at h
  simp only [Bool.or_eq_false_iff] at h
  unfold get_language_identifier
  simp only [h.1.1, h.1.2, h.2, Bool.false_eq_true, if_false, Bool.or_self]

theorem get_language_identifier_no_dot (filepath buffer : List Nat)
    (hs : special_name (after_last_slash filepath) = false) (hdot : 46 ∉ filepath.tail) :
    get_language_identifier filepath buffer = detect_shebang buffer := by
  rw [get_language_identifier_not_special _ _ hs]
  cases hr : strrchr filepath 46 with
  | none => rfl
  | some dot =>
    have hlen : dot.length = filepath.length := by
      cases filepath with
      | nil => simp [strrchr] at hr
      | cons x rest =>
        have hn : strrchr rest 46 = none := (strrchr_eq_none rest 46).mpr hdot
        unfold strrchr at hr
        rw [hn] at hr
        dsimp only at hr
        split_ifs at hr
        cases hr
        rfl
    simp only [hlen, if_true]

theorem get_language_identifier_extension (dir name buffer dot : List Nat) (hname : 47 ∉ name)
    (hs : special_name name = false) (hdot : strrchr name 46 = some dot) :
    get_language_identifier (dir ++ 47 :: name) buffer =
      match lang_map.find? (fun e => strcasecmp_eq dot.tail e.1) with
      | some e => some e.2
      | none => none := by
  rw [get_language_identifier_not_special _ _ (by rw [after_last_slash_append _ _ hname]; exact hs)]
  have h1 : strrchr (dir ++ 47 :: name) 46 = some dot := by
    have := strrchr_append (dir ++ [47]) name 46 dot hdot
    simpa using this
  rw [h1]
  have hlen := strrchr_length_le name 46 dot hdot
  have hne : ¬ dot.length = (dir ++ 47 :: name).length := by
    simp only [List.length_append, List.length_cons]
    omega
  simp only [hne, if_false]

theorem strstr_found_iff (hay needle : List Nat) :
    strstr_found hay needle = true ↔ needle <:+: hay := by
  unfold strstr_found
  rw [List.any_eq_true]
  constructor
  · rintro ⟨t, ht, hp⟩
    have h1 : t <:+ hay := (List.mem_tails _ _).mp ht
    have h2 : needle <+: t := List.isPrefixOf_iff_prefix.mp hp
    exact List.infix_iff_prefix_suffix.mpr ⟨t, h2, h1⟩
  · intro h
    obtain ⟨t, h2, h1⟩ := List.infix_iff_prefix_suffix.mp h
    exact ⟨t, (List.mem_tails _ _).mpr h1, List.isPrefixOf_iff_prefix.mpr h2⟩

theorem shebang_line_len_eq (s : List Nat) :
    ∀ k, k ≤ 255 → shebang_line_len s k =
      k + ((s.take (255 - k)).takeWhile (fun b => decide (b ≠ 10 ∧ b ≠ 13))).length := by
  induction s with
  | nil => intro k _; simp [shebang_line_len]
  | cons b rest ih =>
    intro k hk
    unfold shebang_line_len
    by_cases hc : k < 255 ∧ b ≠ 10 ∧ b ≠ 13
    · rw [if_pos hc, ih (k + 1) (by omega)]
      obtain ⟨m, hm⟩ : ∃ m, 255 - k = m + 1 := ⟨254 - k, by omega⟩
      have hm2 : 255 - (k + 1) = m := by omega
      rw [hm, hm2, List.take_succ_cons, List.takeWhile_cons]
      simp only [hc.2.1, hc.2.2, ne_eq, not_false_eq_true, and_self, decide_True, if_true,
        List.length_cons]
      omega
    · rw [if_neg hc]
      by_cases hk2 : k < 255
      · obtain ⟨m, hm⟩ : ∃ m, 255 - k = m + 1 := ⟨254 - k, by omega⟩
        rw [hm, List.take_succ_cons, List.takeWhile_cons]
        have : ¬ (b ≠ 10 ∧ b ≠ 13) := fun h => hc ⟨hk2, h⟩
        simp [this]
      · have : 255 - k = 0 := by omega
        simp [this]

theorem take_shebang_line_len (s : List Nat) :
    s.take (shebang_line_len s 0) = first_line s := by
  rw [shebang_line_len_eq s 0 (by omega)]
  unfold first_line
  simp only [Nat.zero_add, Nat.sub_zero]
  have hpre : (s.take 255).takeWhile (fun b => decide (b ≠ 10 ∧ b ≠ 13)) <+: s :=
    (List.takeWhile_prefix _).trans (List.take_prefix _ _)
  exact (List.prefix_iff_eq_take.mp hpre).symm

theorem detect_shebang_eq (sample : List Nat) :
    detect_shebang sample =
      if sample.length < 2 ∨ ¬ (bytes "#!" <+: sample) then none
      else interpreter_tag ((first_line sample).takeWhile (fun b => b != 0)) := by
  unfold detect_shebang
  by_cases hlen : sample.length < 2
  · simp [hlen]
  · rw [if_neg hlen]
    have hpre : (bytes "#!" <+: sample) ↔ ¬ (sample[0]? ≠ some 35 ∨ sample[1]? ≠ some 33) := by
      match sample, hlen with
      | a :: b :: rest, _ =>
        have hb : bytes "#!" = [35, 33] := rfl
        rw [hb]
        simp only [List.cons_prefix_cons, List.nil_prefix, and_true, List.getElem?_cons_zero,
          List.getElem?_cons_succ, ne_eq, Option.some.injEq, not_or, not_not]
        constructor
        · rintro ⟨h1, h2⟩; exact ⟨h1.symm, h2.symm⟩
        · rintro ⟨h1, h2⟩; exact ⟨h1.symm, h2.symm⟩
      | [], h => simp at h
      | [a], h => simp at h
    by_cases hp : bytes "#!" <+: sample
    · have h1 := hpre.mp hp
      have h2 : ¬ (sample.length < 2 ∨ ¬ (bytes "#!" <+: sample)) := by
        rintro (h | h)
        · exact hlen h
        · exact h hp
      rw [if_neg h1, if_neg h2]
      simp only []
      rw [take_shebang_line_len]
      unfold interpreter_tag
      simp only [← strstr_found_iff, Bool.or_eq_true]
    · have h1 : sample[0]? ≠ some 35 ∨ sample[1]? ≠ some 33 := by
        by_contra hc
        exact hp (hpre.mpr hc)
      rw [if_pos h1, if_pos (Or.inr hp)]

theorem first_line_prefix (sample : List Nat) (h : bytes "#!" <+: sample) :
    bytes "#!" <+: first_line sample := by
  obtain ⟨rest, rfl⟩ := h
  exact ⟨(first_line (bytes "#!" ++ rest)).drop 2, by
    unfold first_line
    have hb : bytes "#!" = [35, 33] := rfl
    rw [hb]
    simp [List.takeWhile_cons]⟩

set_option maxRecDepth 100000 in
theorem detect_shebang_examples :
    detect_shebang (bytes "#!/bin/true\nexec python \"$0\"\n") = none ∧
    detect_shebang (bytes "#!" ++ List.replicate 253 32 ++ bytes "python\n") = none ∧
    detect_shebang (bytes "#!" ++ List.replicate 247 32 ++ bytes "python\n") =
      some (bytes "python") := by
  decide

/-! ## Lemmas on `load_ignore_patterns` -/

theorem getline_lines_mem (content : List Nat) :
    ∀ l ∈ getline_lines content, ∀ x ∈ l, x ∈ content := by
  induction content with
  | nil => intro l hl; simp [getline_lines] at hl
  | cons c rest ih =>
    intro l hl x hx
    unfold getline_lines at hl
    split_ifs at hl with hc
    · simp only [List.mem_cons] at hl
      rcases hl with rfl | hl
      · simp only [List.mem_singleton] at hx
        simp [hx, hc]
      · exact List.mem_cons_of_mem _ (ih l hl x hx)
    · cases hg : getline_lines rest with
      | nil =>
        rw [hg] at hl
        simp only [List.mem_singleton] at hl
        subst hl
        simp only [List.mem_singleton] at hx
        simp [hx]
      | cons g gs =>
        rw [hg] at hl
        simp only [List.mem_cons] at hl
        rcases hl with rfl | hl
        · simp only [List.mem_cons] at hx
          rcases hx with rfl | hx
          · simp
          · exact List.mem_cons_of_mem _ (ih g (by rw [hg]; simp) x hx)
        · exact List.mem_cons_of_mem _ (ih l (by rw [hg]; simp [hl]) x hx)

theorem strip_line_sublist (line : List Nat) : ∀ x ∈ strip_line line, x ∈ line := by
  intro x hx
  unfold strip_line at hx
  exact (List.rdropWhile_prefix _ _).subset hx

theorem pattern_of_line_text (line : List Nat) (h : 0 ∉ line) :
    pattern_of_line line =
      if strip_line line ≠ [] ∧ (strip_line line).head? ≠ some 35 then some (strip_line line)
      else none := by
  unfold pattern_of_line
  have hdup : strdup (strip_line line) = strip_line line := by
    unfold strdup
    apply List.takeWhile_eq_self_iff.mpr
    intro b hb
    have : b ≠ 0 := fun hz => h (hz ▸ strip_line_sublist line b hb)
    simpa using this
  simp only [hdup, List.length_eq_zero]
  by_cases h1 : strip_line line = []
  · simp [h1]
  · by_cases h2 : (strip_line line).head? = some 35
    · simp [h1, h2]
    · simp [h1, h2]

theorem filterMap_pattern_of_line (lines : List (List Nat)) (h : ∀ l ∈ lines, 0 ∉ l) :
    lines.filterMap pattern_of_line = kept_lines lines := by
  unfold kept_lines
  induction lines with
  | nil => rfl
  | cons l ls ih =>
    have hl : 0 ∉ l := h l (by simp)
    have ih2 := ih (fun l2 h2 => h l2 (by simp [h2]))
    rw [List.filterMap_cons, pattern_of_line_text l hl, List.map_cons, List.filter_cons]
    by_cases hk : strip_line l ≠ [] ∧ (strip_line l).head? ≠ some 35
    · simp only [hk, ne_eq, not_false_eq_true, and_self, if_true, decide_True, ih2]
    · simp only [hk, if_false, decide_False, ih2]
      rfl

theorem strip_line_lf (s : List Nat) : strip_line (s ++ [10]) = strip_line s := by
  unfold strip_line
  exact List.rdropWhile_concat_pos _ _ _ (by decide)

theorem kept_lines_cons (l : List Nat) (ls : List (List Nat)) :
    kept_lines (l :: ls) = kept_lines [l] ++ kept_lines ls := by
  unfold kept_lines
  simp only [List.map_cons, List.map_nil, List.filter_cons, List.filter_nil]
  split_ifs <;> simp

theorem getline_lines_splitOn (content : List Nat) :
    (getline_lines content = [] ∧ content.splitOn 10 = [[]]) ∨
    ∃ g gs s ss, getline_lines content = g :: gs ∧ content.splitOn 10 = s :: ss ∧
      ((g = s ++ [10] ∧ kept_lines gs = kept_lines ss) ∨ (g = s ∧ gs = [] ∧ ss = [])) := by
  induction content with
  | nil => left; exact ⟨rfl, rfl⟩
  | cons c rest ih =>
    right
    have hsplit : (c :: rest).splitOn 10 =
        if c = 10 then [] :: rest.splitOn 10 else (rest.splitOn 10).modifyHead (List.cons c) := by
      unfold List.splitOn
      rw [List.splitOnP_cons]
      simp
    rw [hsplit]
    unfold getline_lines
    by_cases hc : c = 10
    · rw [if_pos hc, if_pos hc]
      refine ⟨[10], getline_lines rest, [], rest.splitOn 10, rfl, rfl, Or.inl ⟨rfl, ?_⟩⟩
      rcases ih with ⟨h1, h2⟩ | ⟨g, gs, s, ss, h1, h2, h3⟩
      · rw [h1, h2]; decide
      · rw [h1, h2, kept_lines_cons g, kept_lines_cons s]
        rcases h3 with ⟨hg, hk⟩ | ⟨hg, hgs, hss⟩
        · rw [hk]
          congr 1
          unfold kept_lines
          simp only [List.map_cons, List.map_nil, hg, strip_line_lf]
        · rw [hg, hgs, hss]
    · rw [if_neg hc, if_neg hc]
      rcases ih with ⟨h1, h2⟩ | ⟨g, gs, s, ss, h1, h2, h3⟩
      · rw [h1, h2]
        exact ⟨[c], [], [c], [], rfl, rfl, Or.inr ⟨rfl, rfl, rfl⟩⟩
      · rw [h1, h2]
        refine ⟨c :: g, gs, c :: s, ss, rfl, rfl, ?_⟩
        rcases h3 with ⟨hg, hk⟩ | ⟨hg, hgs, hss⟩
        · exact Or.inl ⟨by rw [hg]; rfl, hk⟩
        · exact Or.inr ⟨by rw [hg], hgs, hss⟩

theorem kept_lines_getline (content : List Nat) :
    kept_lines (getline_lines content) = kept_lines (content.splitOn 10) := by
  rcases getline_lines_splitOn content with ⟨h1, h2⟩ | ⟨g, gs, s, ss, h1, h2, h3⟩
  · rw [h1, h2]; decide
  · rw [h1, h2, kept_lines_cons g, kept_lines_cons s]
    rcases h3 with ⟨hg, hk⟩ | ⟨hg, hgs, hss⟩
    · rw [hk]
      congr 1
      unfold kept_lines
      simp only [List.map_cons, List.map_nil, hg, strip_line_lf]
    · rw [hg, hgs, hss]

theorem strcmp_self (a : List Nat) : strcmp a a = 0 := by
  induction a with
  | nil => rfl
  | cons x xs ih => simp [strcmp, ih]

theorem strcmp_neg (a : List Nat) : ∀ b, strcmp b a = - strcmp a b := by
  induction a with
  | nil =>
    intro b
    cases b with
    | nil => simp [strcmp]
    | cons y ys => simp [strcmp]
  | cons x xs ih =>
    intro b
    cases b with
    | nil => simp [strcmp]
    | cons y ys =>
      by_cases h : x = y
      · subst h; simp [strcmp, ih]
      · have h2 : ¬ y = x := fun e => h e.symm
        simp [strcmp, h, h2]

theorem strcmp_eq_zero (a : List Nat) : ∀ b, 0 ∉ a → 0 ∉ b → strcmp a b = 0 → a = b := by
  induction a with
  | nil =>
    intro b _ hb h
    cases b with
    | nil => rfl
    | cons y ys =>
      simp only [strcmp] at h
      have : y ≠ 0 := fun e => hb (by simp [e])
      omega
  | cons x xs ih =>
    intro b ha hb h
    have hx : x ≠ 0 := fun e => ha (by simp [e])
    cases b with
    | nil => simp only [strcmp] at h; omega
    | cons y ys =>
      by_cases hxy : x = y
      · subst hxy
        simp only [strcmp, if_true] at h
        rw [ih ys (fun m => ha (List.mem_cons_of_mem _ m))
          (fun m => hb (List.mem_cons_of_mem _ m)) h]
      · simp only [strcmp, hxy, if_false] at h; omega

theorem strcmp_trans (a : List Nat) : ∀ b c, 0 ∉ a → 0 ∉ b →
    strcmp a b ≤ 0 → strcmp b c ≤ 0 → strcmp a c ≤ 0 := by
  induction a with
  | nil =>
    intro b c _ _ _ _
    cases c with
    | nil => simp [strcmp]
    | cons z zs => simp only [strcmp]; omega
  | cons x xs ih =>
    intro b c ha hb h1 h2
    have hx : x ≠ 0 := fun e => ha (by simp [e])
    cases b with
    | nil => simp only [strcmp] at h1; omega
    | cons y ys =>
      have hy : y ≠ 0 := fun e => hb (by simp [e])
      cases c with
      | nil => simp only [strcmp] at h2; omega
      | cons z zs =>
        by_cases hxy : x = y
        · subst hxy
          simp only [strcmp, if_true] at h1
          by_cases hxz : x = z
          · subst hxz
            simp only [strcmp, if_true] at h2 ⊢
            exact ih ys zs (fun m => ha (List.mem_cons_of_mem _ m))
              (fun m => hb (List.mem_cons_of_mem _ m)) h1 h2
          · simp only [strcmp, hxz, if_false] at h2 ⊢; exact h2
        · simp only [strcmp, hxy, if_false] at h1
          by_cases hyz : y = z
          · subst hyz
            simp only [strcmp, hxy, if_false]; exact h1
          · simp only [strcmp, hyz, if_false] at h2
            have hxz : ¬ x = z := by omega
            simp only [strcmp, hxz, if_false]; omega

theorem orderedInsert_pairwise {α : Type} (r : α → α → Prop) [DecidableRel r] (a : α) :
    ∀ l : List α, (∀ x ∈ a :: l, ∀ y ∈ a :: l, r x y ∨ r y x) →
      (∀ x ∈ a :: l, ∀ y ∈ a :: l, ∀ z ∈ a :: l, r x y → r y z → r x z) →
      l.Pairwise r → (l.orderedInsert r a).Pairwise r := by
  intro l
  induction l with
  | nil => intro _ _ _; simp
  | cons b l ih =>
    intro htot htr hp
    rw [List.orderedInsert]
    have hb := List.pairwise_cons.mp hp
    by_cases hab : r a b
    · rw [if_pos hab]
      refine List.pairwise_cons.mpr ⟨?_, hp⟩
      intro x hx
      rcases List.mem_cons.mp hx with rfl | hx
      · exact hab
      · exact htr a (by simp) b (by simp) x (by simp [hx]) hab (hb.1 x hx)
    · rw [if_neg hab]
      have hba : r b a := by
        rcases htot a (by simp) b (by simp) with h | h
        · exact absurd h hab
        · exact h
      refine List.pairwise_cons.mpr ⟨?_, ?_⟩
      · intro x hx
        rcases (List.mem_orderedInsert r).mp hx with rfl | hx
        · exact hba
        · exact hb.1 x hx
      · apply ih
        · intro x hx y hy
          exact htot x (by rcases List.mem_cons.mp hx with h | h <;> simp [h])
            y (by rcases List.mem_cons.mp hy with h | h <;> simp [h])
        · intro x hx y hy z hz
          exact htr x (by rcases List.mem_cons.mp hx with h | h <;> simp [h])
            y (by rcases List.mem_cons.mp hy with h | h <;> simp [h])
            z (by rcases List.mem_cons.mp hz with h | h <;> simp [h])
        · exact hb.2

theorem insertionSort_pairwise {α : Type} (r : α → α → Prop) [DecidableRel r] :
    ∀ l : List α, (∀ x ∈ l, ∀ y ∈ l, r x y ∨ r y x) →
      (∀ x ∈ l, ∀ y ∈ l, ∀ z ∈ l, r x y → r y z → r x z) →
      (l.insertionSort r).Pairwise r := by
  intro l
  induction l with
  | nil => intro _ _; simp
  | cons a l ih =>
    intro htot htr
    rw [List.insertionSort]
    have hmem : ∀ x, x ∈ a :: l.insertionSort r → x ∈ a :: l := by
      intro x hx
      rcases List.mem_cons.mp hx with h | h
      · simp [h]
      · exact List.mem_cons_of_mem _ ((List.perm_insertionSort r l).subset h)
    apply orderedInsert_pairwise
    · intro x hx y hy
      exact htot x (hmem x hx) y (hmem y hy)
    · intro x hx y hy z hz
      exact htr x (hmem x hx) y (hmem y hy) z (hmem z hz)
    · apply ih
      · intro x hx y hy
        exact htot x (List.mem_cons_of_mem _ hx) y (List.mem_cons_of_mem _ hy)
      · intro x hx y hy z hz
        exact htr x (List.mem_cons_of_mem _ hx) y (List.mem_cons_of_mem _ hy)
          z (List.mem_cons_of_mem _ hz)

theorem sort_names_perm (names : List (List Nat)) : (sort_names names).Perm names :=
  List.perm_insertionSort _ names

theorem sort_names_sorted (names : List (List Nat)) (h0 : ∀ n ∈ names, 0 ∉ n) :
    (sort_names names).Pairwise (fun a b => strcmp a b ≤ 0) := by
  have h := insertionSort_pairwise (fun a b => names_le a b = true) names
    (by
      intro x _ y _
      simp only [names_le, decide_eq_true_eq]
      rw [strcmp_neg x y]; omega)
    (by
      intro x hx y hy z _
      simp only [names_le, decide_eq_true_eq]
      exact strcmp_trans x y z (h0 x hx) (h0 y hy))
  unfold sort_names
  refine h.imp ?_
  intro a b hab
  simpa [names_le] using hab

theorem sort_names_strict (names : List (List Nat)) (h0 : ∀ n ∈ names, 0 ∉ n)
    (hnd : names.Nodup) : (sort_names names).Pairwise (fun a b => strcmp a b < 0) := by
  have h1 := sort_names_sorted names h0
  have h2 : (sort_names names).Pairwise (fun a b => a ≠ b) :=
    (sort_names_perm names).nodup_iff.mpr hnd
  have h3 := h1.and h2
  refine List.Pairwise.imp_of_mem ?_ h3
  intro a b ha hb hab
  have ha0 := h0 a ((sort_names_perm names).subset ha)
  have hb0 := h0 b ((sort_names_perm names).subset hb)
  have : strcmp a b ≠ 0 := fun e => hab.2 (strcmp_eq_zero a b ha0 hb0 e)
  omega

theorem sort_names_of_perm (l1 l2 : List (List Nat)) (hp : l1.Perm l2)
    (h0 : ∀ n ∈ l1, 0 ∉ n) : sort_names l1 = sort_names l2 := by
  have h02 : ∀ n ∈ l2, 0 ∉ n := fun n hn => h0 n (hp.symm.subset hn)
  have hanti : ∀ a b, a ∈ sort_names l1 → b ∈ sort_names l2 → strcmp a b ≤ 0 →
      strcmp b a ≤ 0 → a = b := by
    intro a b ha hb hab hba
    have ha0 := h0 a ((sort_names_perm l1).subset ha)
    have hb0 := h02 b ((sort_names_perm l2).subset hb)
    apply strcmp_eq_zero a b ha0 hb0
    rw [strcmp_neg a b] at hba
    omega
  exact List.Perm.eq_of_sorted hanti (sort_names_sorted l1 h0) (sort_names_sorted l2 h02)
    ((sort_names_perm l1).trans (hp.trans (sort_names_perm l2).symm))

theorem names_ok_iff (es : List (List Nat × Node)) :
    names_ok es = true ↔ (es.map Prod.fst).Nodup ∧ ∀ n ∈ es.map Prod.fst, 0 ∉ n := by
  unfold names_ok
  simp

theorem well_formed_dir (es : List (List Nat × Node)) :
    (Node.dir es).well_formed = true ↔ names_ok es = true ∧ entries_well_formed es = true := by
  rw [Node.well_formed, Bool.and_eq_true]

theorem lookup_entry_well_formed (es : List (List Nat × Node)) (name : List Nat) (n : Node)
    (hw : entries_well_formed es = true) (h : lookup_entry es name = some n) :
    n.well_formed = true := by
  induction es with
  | nil => simp [lookup_entry] at h
  | cons e rest ih =>
    rw [entries_well_formed, Bool.and_eq_true] at hw
    unfold lookup_entry at h
    rw [List.find?_cons] at h
    by_cases he : (e.1 == name) = true
    · rw [he] at h
      simp only [Option.map_some', Option.some.injEq] at h
      rw [← h]; exact hw.1
    · simp only [he] at h
      exact ih hw.2 h

theorem lookup_entry_eq_some_iff (es : List (List Nat × Node)) (name : List Nat) (n : Node)
    (hnd : (es.map Prod.fst).Nodup) : lookup_entry es name = some n ↔ (name, n) ∈ es := by
  induction es with
  | nil => simp [lookup_entry]
  | cons e rest ih =>
    rw [List.map_cons, List.nodup_cons] at hnd
    have ih2 := ih hnd.2
    unfold lookup_entry at ih2 ⊢
    rw [List.find?_cons]
    by_cases he : (e.1 == name) = true
    · rw [he]
      have he2 : e.1 = name := by simpa using he
      simp only [Option.map_some', Option.some.injEq, List.mem_cons]
      constructor
      · intro h; left; rw [← h, ← he2]
      · intro h
        rcases h with h | h
        · rw [← h]
        · exfalso
          apply hnd.1
          rw [he2]
          exact List.mem_map.mpr ⟨(name, n), h, rfl⟩
    · simp only [he]
      rw [ih2, List.mem_cons]
      constructor
      · intro h; right; exact h
      · intro h
        rcases h with h | h
        · exfalso; apply he; rw [← h]; simp
        · exact h

theorem lookup_entry_perm (es es2 : List (List Nat × Node)) (name : List Nat)
    (hp : es.Perm es2) (hnd : (es.map Prod.fst).Nodup) :
    lookup_entry es2 name = lookup_entry es name := by
  have hnd2 : (es2.map Prod.fst).Nodup := (hp.map Prod.fst).nodup_iff.mp hnd
  apply Option.ext
  intro n
  simp only [Option.mem_def]
  rw [lookup_entry_eq_some_iff es2 name n hnd2, lookup_entry_eq_some_iff es name n hnd]
  exact hp.symm.mem_iff

theorem mem_sorted_names (es : List (List Nat × Node)) (name : List Nat) :
    name ∈ sorted_names es ↔
      name ∈ es.map Prod.fst ∧ name ≠ bytes "." ∧ name ≠ bytes ".." := by
  unfold sorted_names
  rw [(sort_names_perm _).mem_iff, List.mem_filter]
  simp

theorem sorted_names_strict (es : List (List Nat × Node)) (h : names_ok es = true) :
    (sorted_names es).Pairwise (fun a b => strcmp a b < 0) := by
  rw [names_ok_iff] at h
  unfold sorted_names
  apply sort_names_strict
  · intro n hn
    exact h.2 n (List.mem_of_mem_filter hn)
  · exact h.1.filter _

theorem names_ok_perm (es es2 : List (List Nat × Node)) (hp : es.Perm es2)
    (h : names_ok es = true) : names_ok es2 = true := by
  rw [names_ok_iff] at h ⊢
  exact ⟨(hp.map Prod.fst).nodup_iff.mp h.1,
    fun n hn => h.2 n ((hp.map Prod.fst).symm.subset hn)⟩

theorem sorted_names_perm (es es2 : List (List Nat × Node)) (hp : es.Perm es2)
    (h : names_ok es = true) : sorted_names es2 = sorted_names es := by
  rw [names_ok_iff] at h
  unfold sorted_names
  apply sort_names_of_perm
  · exact ((hp.map Prod.fst).filter _).symm
  · intro n hn
    exact h.2 n ((hp.map Prod.fst).symm.subset (List.mem_of_mem_filter hn))

theorem lookup_entry_mem_names (es : List (List Nat × Node)) (name : List Nat) (n : Node)
    (h : lookup_entry es name = some n) : name ∈ es.map Prod.fst := by
  unfold lookup_entry at h
  obtain ⟨e, he, _⟩ := Option.map_eq_some'.mp h
  have h1 := List.mem_of_find?_eq_some he
  have h2 := List.find?_some he
  have h3 : e.1 = name := by simpa using h2
  rw [← h3]
  exact List.mem_map.mpr ⟨e, h1, rfl⟩

theorem process_directory_lookup_congr (fnm : List Nat → List Nat → Bool) (ctx : AppContext)
    (fuel : Nat) (base_path : List Nat) (es es2 : List (List Nat × Node))
    (hs : sorted_names es2 = sorted_names es)
    (hl : ∀ name, lookup_entry es2 name = lookup_entry es name) :
    process_directory fnm ctx fuel base_path es2 = process_directory fnm ctx fuel base_path es := by
  cases fuel with
  | zero => rfl
  | succ fuel =>
    unfold process_directory
    rw [hs]
    apply foldlM_option_congr
    intro acc name _
    unfold process_entry
    rw [hl name]

theorem process_directory_perm (fnm : List Nat → List Nat → Bool) (ctx : AppContext)
    (fuel : Nat) (base_path : List Nat) (es es2 : List (List Nat × Node))
    (hp : es.Perm es2) (hok : names_ok es = true) :
    process_directory fnm ctx fuel base_path es2 = process_directory fnm ctx fuel base_path es :=
  process_directory_lookup_congr fnm ctx fuel base_path es es2 (sorted_names_perm es es2 hp hok)
    (fun name => lookup_entry_perm es es2 name hp ((names_ok_iff es).mp hok).1)

theorem process_directory_replace_congr (fnm : List Nat → List Nat → Bool) (ctx : AppContext)
    (sub2 : List (List Nat × Node)) :
    ∀ (chain : List (List Nat)) (fuel : Nat) (base_path : List Nat)
      (entries sub : List (List Nat × Node)),
      node_at entries chain = some (Node.dir sub) →
      (∀ fuel2, process_directory fnm ctx fuel2 (path_of base_path chain) sub2 =
        process_directory fnm ctx fuel2 (path_of base_path chain) sub) →
      process_directory fnm ctx fuel base_path (replace_at (Node.dir sub2) chain entries) =
        process_directory fnm ctx fuel base_path entries := by
  intro chain
  induction chain with
  | nil => intro _ _ _ _ h; simp [node_at] at h
  | cons name rest ih =>
    intro fuel base_path entries sub hnode hsame
    cases fuel with
    | zero => rfl
    | succ fuel =>
      cases rest with
      | nil =>
        simp only [node_at] at hnode
        simp only [path_of] at hsame
        rw [replace_at_single]
        unfold process_directory
        rw [sorted_names_map _ _ (by intro e; split_ifs <;> rfl)]
        apply foldlM_option_congr
        intro acc n2 _
        apply process_entry_congr
        · intro n hn
          rw [lookup_entry_map entries name (fun _ => Node.dir sub2) n2]
          by_cases hnn : n2 = name
          · subst hnn
            rw [hnode]
            simp only [Option.map_some', beq_self_eq_true, if_true]
            constructor
            · intro h; cases h; exact absurd rfl (hn _)
            · intro h; cases h; exact absurd rfl (hn _)
          · have : (n2 == name) = false := by simpa using hnn
            simp [this]
        · rw [lookup_entry_map entries name (fun _ => Node.dir sub2) n2]
          simp
        · intro sub1 h1
          rw [lookup_entry_map entries name (fun _ => Node.dir sub2) n2] at h1
          by_cases hnn : n2 = name
          · subst hnn
            rw [hnode] at h1
            simp only [Option.map_some', beq_self_eq_true, if_true, Option.some.injEq,
              Node.dir.injEq] at h1
            subst h1
            exact ⟨sub, hnode, fun _ => hsame fuel⟩
          · have : (n2 == name) = false := by simpa using hnn
            simp only [this] at h1
            refine ⟨sub1, by simpa using h1, fun _ => rfl⟩
      | cons c2 rest2 =>
        simp only [node_at] at hnode
        simp only [path_of] at hsame
        cases hl : lookup_entry entries name with
        | none => rw [hl] at hnode; simp at hnode
        | some node =>
          rw [hl] at hnode
          cases node with
          | symlink => simp at hnode
          | other => simp at hnode
          | file st => simp at hnode
          | dir s =>
            simp only at hnode
            rw [replace_at_cons]
            unfold process_directory
            rw [sorted_names_map _ _ (by intro e; split_ifs <;> rfl)]
            apply foldlM_option_congr
            intro acc n2 _
            apply process_entry_congr
            · intro n hn
              rw [lookup_entry_map entries name (fun n => match n with
                | Node.dir sub => Node.dir (replace_at (Node.dir sub2) (c2 :: rest2) sub)
                | n => n) n2]
              by_cases hnn : n2 = name
              · subst hnn
                rw [hl]
                simp only [Option.map_some', beq_self_eq_true, if_true]
                constructor
                · intro h; cases h; exact absurd rfl (hn _)
                · intro h; cases h; exact absurd rfl (hn _)
              · have : (n2 == name) = false := by simpa using hnn
                simp [this]
            · rw [lookup_entry_map entries name (fun n => match n with
                | Node.dir sub => Node.dir (replace_at (Node.dir sub2) (c2 :: rest2) sub)
                | n => n) n2]
              simp
            · intro sub1 h1
              rw [lookup_entry_map entries name (fun n => match n with
                | Node.dir sub => Node.dir (replace_at (Node.dir sub2) (c2 :: rest2) sub)
                | n => n) n2] at h1
              by_cases hnn : n2 = name
              · subst hnn
                rw [hl] at h1
                simp only [Option.map_some', beq_self_eq_true, if_true, Option.some.injEq,
                  Node.dir.injEq] at h1
                subst h1
                refine ⟨s, hl, fun _ => ?_⟩
                exact ih fuel _ s sub hnode (by simpa [path_of] using hsame)
              · have : (n2 == name) = false := by simpa using hnn
                simp only [this] at h1
                refine ⟨sub1, by simpa using h1, fun _ => rfl⟩

theorem process_directory_perm_at (fnm : List Nat → List Nat → Bool) (ctx : AppContext)
    (chain : List (List Nat)) (fuel : Nat) (base_path : List Nat)
    (entries sub sub2 : List (List Nat × Node))
    (hnode : node_at entries chain = some (Node.dir sub)) (hp : sub.Perm sub2)
    (hok : names_ok sub = true) :
    process_directory fnm ctx fuel base_path (replace_at (Node.dir sub2) chain entries) =
      process_directory fnm ctx fuel base_path entries :=
  process_directory_replace_congr fnm ctx sub2 chain fuel base_path entries sub hnode
    (fun fuel2 => process_directory_perm fnm ctx fuel2 _ sub sub2 hp hok)

theorem foldlM_option_prefix {α β : Type} (f : β → α → Option β) (P : List α → β → Prop)
    (all : List α)
    (hstep : ∀ d x rest acc r, all = d ++ x :: rest → P d acc → f acc x = some r →
      P (d ++ [x]) r) :
    ∀ (xs d : List α) (init r : β), all = d ++ xs → P d init → xs.foldlM f init = some r →
      P all r := by
  intro xs
  induction xs with
  | nil =>
    intro d init r hall hP h
    simp only [List.foldlM_nil, pure, Option.some.injEq] at h
    rw [hall, List.append_nil, ← h]; exact hP
  | cons x xs ih =>
    intro d init r hall hP h
    rw [List.foldlM_cons] at h
    cases hf : f init x with
    | none => rw [hf] at h; simp at h
    | some a =>
      rw [hf] at h
      exact ih (d ++ [x]) a r (by rw [hall]; simp) (hstep d x xs init a hall hP hf) h

theorem exported_chain_single (fnm : List Nat → List Nat → Bool) (ctx : AppContext)
    (base_path : List Nat) (entries : List (List Nat × Node)) (name : List Nat) :
    exported_chain fnm ctx base_path entries [name] ↔
      name ≠ bytes "." ∧ name ≠ bytes ".." ∧
      (base_path ++ [47] ++ name).length < MAX_PATH_LENGTH ∧
      ∃ st, lookup_entry entries name = some (Node.file st) ∧
        ¬ (ctx.have_temp = true ∧ (st.st_dev, st.st_ino) = ctx.temp_stat) ∧
        ¬ (ctx.have_final = true ∧ (st.st_dev, st.st_ino) = ctx.final_stat) ∧
        st.st_size ≤ ctx.max_file_size ∧
        is_ignored fnm (sanitize_path (base_path ++ [47] ++ name)) ctx.ignore_patterns false
          = false ∧
        st.content.length ≤ ctx.max_file_size ∧ st.content ≠ [] ∧
        is_binary_file st.content
          (if st.content.length < 8192 then st.content.length else 8192) = some false := by
  rw [exported_chain]

theorem exported_chain_cons (fnm : List Nat → List Nat → Bool) (ctx : AppContext)
    (base_path : List Nat) (entries : List (List Nat × Node)) (name c2 : List Nat)
    (chain : List (List Nat)) :
    exported_chain fnm ctx base_path entries (name :: c2 :: chain) ↔
      name ≠ bytes "." ∧ name ≠ bytes ".." ∧
      (base_path ++ [47] ++ name).length < MAX_PATH_LENGTH ∧
      ∃ sub, lookup_entry entries name = some (Node.dir sub) ∧
        is_ignored fnm (sanitize_path (base_path ++ [47] ++ name)) ctx.ignore_patterns true
          = false ∧
        exported_chain fnm ctx (sanitize_path (base_path ++ [47] ++ name)) sub
          (c2 :: chain) := by
  rw [exported_chain]

theorem exported_chain_nil (fnm : List Nat → List Nat → Bool) (ctx : AppContext)
    (base_path : List Nat) (entries : List (List Nat × Node)) :
    ¬ exported_chain fnm ctx base_path entries [] := by
  rw [exported_chain]; exact fun h => h

theorem exported_chain_head (fnm : List Nat → List Nat → Bool) (ctx : AppContext)
    (base_path : List Nat) (entries : List (List Nat × Node)) (name : List Nat)
    (rest : List (List Nat)) (h : exported_chain fnm ctx base_path entries (name :: rest)) :
    name ∈ sorted_names entries ∧ (base_path ++ [47] ++ name).length < MAX_PATH_LENGTH := by
  cases rest with
  | nil =>
    rw [exported_chain_single] at h
    obtain ⟨h1, h2, h3, st, hl, _⟩ := h
    exact ⟨(mem_sorted_names _ _).mpr ⟨lookup_entry_mem_names _ _ _ hl, h1, h2⟩, h3⟩
  | cons c2 chain =>
    rw [exported_chain_cons] at h
    obtain ⟨h1, h2, h3, sub, hl, _⟩ := h
    exact ⟨(mem_sorted_names _ _).mpr ⟨lookup_entry_mem_names _ _ _ hl, h1, h2⟩, h3⟩

theorem process_file_zero_iff (filepath : List Nat) (st : RegFile) (max_file_size : Nat) :
    (∃ code out, process_file filepath st max_file_size = some (code, out) ∧ code = 0) ↔
      st.st_size ≤ max_file_size ∧ st.content.length ≤ max_file_size ∧ st.content ≠ [] ∧
      is_binary_file st.content
        (if st.content.length < 8192 then st.content.length else 8192) = some false := by
  constructor
  · rintro ⟨code, out, h, rfl⟩
    obtain ⟨_, h2, h3, h4, h5⟩ := process_file_exported _ _ _ _ h
    exact ⟨h3, h4, h2, h5⟩
  · rintro ⟨h1, h2, h3, h4⟩
    refine ⟨0, export_section filepath st.content, ?_, rfl⟩
    rw [process_file_eq]
    have hc : ¬ (st.st_size > max_file_size ∨ st.content.length > max_file_size) := by omega
    have hl : ¬ st.content.length = 0 := fun h => h3 (List.length_eq_zero.mp h)
    rw [if_neg hc, h4]
    dsimp only
    rw [if_neg hl]

theorem walk_invariant_skip (fnm : List Nat → List Nat → Bool) (ctx : AppContext)
    (base_path : List Nat) (entries : List (List Nat × Node)) (done : List (List Nat))
    (acc : Int × List (List Nat × List Nat)) (name : List Nat)
    (h : walk_invariant fnm ctx base_path entries done acc)
    (hno : ∀ rest, ¬ exported_chain fnm ctx base_path entries (name :: rest)) :
    walk_invariant fnm ctx base_path entries (done ++ [name]) acc := by
  obtain ⟨h0, chains, hf, hp, hm⟩ := h
  refine ⟨h0, chains, hf, hp, ?_⟩
  intro c
  rw [hm c]
  constructor
  · rintro ⟨he, n, rest, hc, hn⟩
    exact ⟨he, n, rest, hc, List.mem_append_left _ hn⟩
  · rintro ⟨he, n, rest, hc, hn⟩
    rcases List.mem_append.mp hn with hn | hn
    · exact ⟨he, n, rest, hc, hn⟩
    · exfalso
      have : n = name := by simpa using hn
      subst this
      subst hc
      exact hno rest he

theorem chain_lt_cons (n : List Nat) (c1 c2 : List (List Nat)) (h : chain_lt c1 c2) :
    chain_lt (n :: c1) (n :: c2) := by
  obtain ⟨pre, n1, n2, r1, r2, h1, h2, h3⟩ := h
  exact ⟨n :: pre, n1, n2, r1, r2, by rw [h1]; rfl, by rw [h2]; rfl, h3⟩

theorem chain_lt_head (n1 n2 : List Nat) (r1 r2 : List (List Nat)) (h : strcmp n1 n2 < 0) :
    chain_lt (n1 :: r1) (n2 :: r2) :=
  ⟨[], n1, n2, r1, r2, rfl, rfl, h⟩

theorem chain_section_cons (base_path : List Nat) (entries sub : List (List Nat × Node))
    (name : List Nat) (c : List (List Nat)) (sec : List Nat × List Nat)
    (hl : lookup_entry entries name = some (Node.dir sub))
    (h : chain_section (sanitize_path (base_path ++ [47] ++ name)) sub c sec) :
    chain_section base_path entries (name :: c) sec := by
  obtain ⟨hp, st, hn, hs⟩ := h
  cases c with
  | nil => simp [node_at] at hn
  | cons c2 rest =>
    refine ⟨by rw [hp]; rfl, st, ?_, hs⟩
    simp only [node_at, hl]
    exact hn

theorem walk_invariant_dir (fnm : List Nat → List Nat → Bool) (ctx : AppContext)
    (base_path : List Nat) (entries sub : List (List Nat × Node)) (done : List (List Nat))
    (acc : Int × List (List Nat × List Nat)) (name : List Nat)
    (secs : List (List Nat × List Nat)) (chains2 : List (List (List Nat)))
    (h : walk_invariant fnm ctx base_path entries done acc)
    (hlt : ∀ y ∈ done, strcmp y name < 0)
    (hname : name ∈ sorted_names entries)
    (hlen : (base_path ++ [47] ++ name).length < MAX_PATH_LENGTH)
    (hl : lookup_entry entries name = some (Node.dir sub))
    (hig : is_ignored fnm (sanitize_path (base_path ++ [47] ++ name)) ctx.ignore_patterns true
      = false)
    (hf2 : List.Forall₂ (chain_section (sanitize_path (base_path ++ [47] ++ name)) sub)
      chains2 secs)
    (hp2 : chains2.Pairwise chain_lt)
    (hm2 : ∀ c, c ∈ chains2 ↔
      exported_chain fnm ctx (sanitize_path (base_path ++ [47] ++ name)) sub c) :
    walk_invariant fnm ctx base_path entries (done ++ [name]) (0, acc.2 ++ secs) := by
  obtain ⟨h0, chains, hf, hp, hm⟩ := h
  have hnm := (mem_sorted_names entries name).mp hname
  refine ⟨rfl, chains ++ chains2.map (fun c => name :: c), ?_, ?_, ?_⟩
  · apply List.rel_append hf
    rw [List.forall₂_map_left_iff]
    exact hf2.imp (fun c sec hcs => chain_section_cons base_path entries sub name c sec hl hcs)
  · rw [List.pairwise_append]
    refine ⟨hp, ?_, ?_⟩
    · rw [List.pairwise_map]
      exact hp2.imp (fun {a b} hab => chain_lt_cons name a b hab)
    · intro a ha b hb
      obtain ⟨_, n, rest, hc, hn⟩ := (hm a).mp ha
      obtain ⟨c, _, hbc⟩ := List.mem_map.mp hb
      rw [hc, ← hbc]
      exact chain_lt_head n name rest c (hlt n hn)
  · intro c
    rw [List.mem_append, hm c, List.mem_map]
    constructor
    · intro h
      rcases h with ⟨he, n, rest, hc, hn⟩ | ⟨c2, hc2, hcc⟩
      · exact ⟨he, n, rest, hc, List.mem_append_left _ hn⟩
      · have he2 := (hm2 c2).mp hc2
        cases c2 with
        | nil => exact absurd he2 (exported_chain_nil _ _ _ _)
        | cons m rest2 =>
          refine ⟨?_, name, m :: rest2, hcc.symm, by simp⟩
          rw [← hcc, exported_chain_cons]
          exact ⟨hnm.2.1, hnm.2.2, hlen, sub, hl, hig, he2⟩
    · rintro ⟨he, n, rest, hc, hn⟩
      rcases List.mem_append.mp hn with hn | hn
      · exact Or.inl ⟨he, n, rest, hc, hn⟩
      · right
        have hnn : n = name := by simpa using hn
        subst hnn
        subst hc
        cases rest with
        | nil =>
          rw [exported_chain_single] at he
          obtain ⟨_, _, _, st, hl2, _⟩ := he
          rw [hl] at hl2; cases hl2
        | cons m rest2 =>
          rw [exported_chain_cons] at he
          obtain ⟨_, _, _, sub2, hl2, _, he2⟩ := he
          rw [hl] at hl2
          cases hl2
          exact ⟨m :: rest2, (hm2 _).mpr he2, rfl⟩

theorem walk_invariant_file (fnm : List Nat → List Nat → Bool) (ctx : AppContext)
    (base_path : List Nat) (entries : List (List Nat × Node)) (done : List (List Nat))
    (acc : Int × List (List Nat × List Nat)) (name : List Nat) (st : RegFile) (out : List Nat)
    (h : walk_invariant fnm ctx base_path entries done acc)
    (hlt : ∀ y ∈ done, strcmp y name < 0)
    (hname : name ∈ sorted_names entries)
    (hlen : (base_path ++ [47] ++ name).length < MAX_PATH_LENGTH)
    (hl : lookup_entry entries name = some (Node.file st))
    (hself : ¬ ((ctx.have_temp && decide ((st.st_dev, st.st_ino) = ctx.temp_stat) ||
            ctx.have_final && decide ((st.st_dev, st.st_ino) = ctx.final_stat)) = true))
    (hex : ¬ should_exclude_file fnm (sanitize_path (base_path ++ [47] ++ name)) st
            ctx.max_file_size ctx.ignore_patterns = true)
    (hpf : process_file (sanitize_path (base_path ++ [47] ++ name)) st ctx.max_file_size =
      some (0, out)) :
    walk_invariant fnm ctx base_path entries (done ++ [name])
      (0, acc.2 ++ [(sanitize_path (base_path ++ [47] ++ name), out)]) := by
  obtain ⟨h0, chains, hf, hp, hm⟩ := h
  have hnm := (mem_sorted_names entries name).mp hname
  obtain ⟨hout, h3, h4, h5, h6⟩ := process_file_exported _ _ _ _ hpf
  have hthis : exported_chain fnm ctx base_path entries [name] := by
    rw [exported_chain_single]
    refine ⟨hnm.2.1, hnm.2.2, hlen, st, hl, ?_, ?_, h4, ?_, h5, h3, h6⟩
    · intro hc; apply hself; simp [hc.1, hc.2]
    · intro hc; apply hself; simp [hc.1, hc.2]
    · unfold should_exclude_file at hex
      have h41 : ¬ st.st_size > ctx.max_file_size := by omega
      rw [if_neg h41] at hex
      cases hig : is_ignored fnm (sanitize_path (base_path ++ [47] ++ name))
          ctx.ignore_patterns false with
      | false => rfl
      | true => rw [hig] at hex; simp at hex
  refine ⟨rfl, chains ++ [[name]], ?_, ?_, ?_⟩
  · apply List.rel_append hf
    refine List.Forall₂.cons ?_ List.Forall₂.nil
    exact ⟨rfl, st, by simp only [node_at]; exact hl, hout⟩
  · rw [List.pairwise_append]
    refine ⟨hp, List.pairwise_singleton _ _, ?_⟩
    intro a ha b hb
    obtain ⟨_, n, rest, hc, hn⟩ := (hm a).mp ha
    have hb2 : b = [name] := by simpa using hb
    rw [hc, hb2]
    exact chain_lt_head n name rest [] (hlt n hn)
  · intro c
    rw [List.mem_append, hm c]
    constructor
    · intro h
      rcases h with ⟨he, n, rest, hc, hn⟩ | hc
      · exact ⟨he, n, rest, hc, List.mem_append_left _ hn⟩
      · have hc2 : c = [name] := by simpa using hc
        rw [hc2]
        exact ⟨hthis, name, [], rfl, by simp⟩
    · rintro ⟨he, n, rest, hc, hn⟩
      rcases List.mem_append.mp hn with hn | hn
      · exact Or.inl ⟨he, n, rest, hc, hn⟩
      · right
        have hnn : n = name := by simpa using hn
        subst hnn
        subst hc
        cases rest with
        | nil => simp
        | cons m rest2 =>
          rw [exported_chain_cons] at he
          obtain ⟨_, _, _, sub2, hl2, _⟩ := he
          rw [hl] at hl2; cases hl2

theorem process_directory_chains (fnm : List Nat → List Nat → Bool) (ctx : AppContext) :
    ∀ (fuel : Nat) (base_path : List Nat) (entries : List (List Nat × Node))
      (r : Int × List (List Nat × List Nat)),
      (Node.dir entries).well_formed = true →
      process_directory fnm ctx fuel base_path entries = some r →
      r.1 = 0 ∧ ∃ chains : List (List (List Nat)),
        List.Forall₂ (chain_section base_path entries) chains r.2 ∧
        chains.Pairwise chain_lt ∧
        ∀ c, c ∈ chains ↔ exported_chain fnm ctx base_path entries c := by
  intro fuel
  induction fuel with
  | zero => intro _ _ r _ h; simp [process_directory] at h
  | succ fuel ih =>
    intro base_path entries r hw h
    rw [well_formed_dir] at hw
    have hstrict := sorted_names_strict entries hw.1
    unfold process_directory at h
    have hinv : walk_invariant fnm ctx base_path entries (sorted_names entries) r := by
      refine foldlM_option_prefix
        (process_entry fnm ctx (process_directory fnm ctx fuel) base_path entries)
        (walk_invariant fnm ctx base_path entries) (sorted_names entries) ?_
        (sorted_names entries) [] (0, []) r rfl ?_ h
      · intro d name rest acc r2 hall hacc hstep
        have hname : name ∈ sorted_names entries := by rw [hall]; simp
        have hlt : ∀ y ∈ d, strcmp y name < 0 := by
          rw [hall, List.pairwise_append] at hstrict
          intro y hy
          exact hstrict.2.2 y hy name (by simp)
        have h0 : ¬ acc.1 ≠ 0 := by simp [hacc.1]
        unfold process_entry at hstep
        rw [if_neg h0] at hstep
        dsimp only at hstep
        by_cases hlen : (base_path ++ [47] ++ name).length ≥ MAX_PATH_LENGTH
        · rw [if_pos hlen] at hstep; cases hstep
          apply walk_invariant_skip _ _ _ _ _ _ _ hacc
          intro rest2 he
          have := (exported_chain_head _ _ _ _ _ _ he).2
          omega
        rw [if_neg hlen] at hstep
        have hlen2 : (base_path ++ [47] ++ name).length < MAX_PATH_LENGTH := by omega
        have hnolookup : ∀ node, lookup_entry entries name = node →
            (∀ st, node ≠ some (Node.file st)) → (∀ sub, node ≠ some (Node.dir sub)) →
            ∀ rest2, ¬ exported_chain fnm ctx base_path entries (name :: rest2) := by
          intro node hnode hnf hnd rest2 he
          cases rest2 with
          | nil =>
            rw [exported_chain_single] at he
            obtain ⟨_, _, _, st, hl2, _⟩ := he
            rw [hnode] at hl2
            exact hnf st hl2
          | cons m rest3 =>
            rw [exported_chain_cons] at he
            obtain ⟨_, _, _, sub, hl2, _⟩ := he
            rw [hnode] at hl2
            exact hnd sub hl2
        cases hl : lookup_entry entries name with
        | none =>
          rw [hl] at hstep; cases hstep
          exact walk_invariant_skip _ _ _ _ _ _ _ hacc
            (hnolookup none hl (fun _ h => by cases h) (fun _ h => by cases h))
        | some node =>
          rw [hl] at hstep
          cases node with
          | symlink =>
            cases hstep
            exact walk_invariant_skip _ _ _ _ _ _ _ hacc
              (hnolookup _ hl (fun _ h => by cases h) (fun _ h => by cases h))
          | other =>
            cases hstep
            exact walk_invariant_skip _ _ _ _ _ _ _ hacc
              (hnolookup _ hl (fun _ h => by cases h) (fun _ h => by cases h))
          | dir sub =>
            dsimp only at hstep
            by_cases hig : is_ignored fnm (sanitize_path (base_path ++ [47] ++ name))
                ctx.ignore_patterns true = true
            · rw [if_pos hig] at hstep; cases hstep
              apply walk_invariant_skip _ _ _ _ _ _ _ hacc
              intro rest2 he
              cases rest2 with
              | nil =>
                rw [exported_chain_single] at he
                obtain ⟨_, _, _, st, hl2, _⟩ := he
                rw [hl] at hl2; cases hl2
              | cons m rest3 =>
                rw [exported_chain_cons] at he
                obtain ⟨_, _, _, sub2, _, hig2, _⟩ := he
                rw [hig] at hig2; cases hig2
            rw [if_neg hig] at hstep
            have hig2 : is_ignored fnm (sanitize_path (base_path ++ [47] ++ name))
                ctx.ignore_patterns true = false := by simpa using hig
            cases hrec : process_directory fnm ctx fuel
                (sanitize_path (base_path ++ [47] ++ name)) sub with
            | none => rw [hrec] at hstep; cases hstep
            | some res =>
              rw [hrec] at hstep
              have hwsub := lookup_entry_well_formed entries name _ hw.2 hl
              obtain ⟨hres0, chains2, hf2, hp2, hm2⟩ := ih _ _ res hwsub hrec
              obtain ⟨st, secs⟩ := res
              dsimp only at hstep hres0 hf2
              have hst : ¬ st ≠ 0 := by simp [hres0]
              rw [if_neg hst] at hstep
              cases hstep
              exact walk_invariant_dir fnm ctx base_path entries sub d acc name secs chains2
                hacc hlt hname hlen2 hl hig2 hf2 hp2 hm2
          | file st =>
            dsimp only at hstep
            by_cases hself : (ctx.have_temp && decide ((st.st_dev, st.st_ino) = ctx.temp_stat) ||
                ctx.have_final && decide ((st.st_dev, st.st_ino) = ctx.final_stat)) = true
            · rw [if_pos hself] at hstep; cases hstep
              apply walk_invariant_skip _ _ _ _ _ _ _ hacc
              intro rest2 he
              cases rest2 with
              | nil =>
                rw [exported_chain_single] at he
                obtain ⟨_, _, _, st2, hl2, ht, hfin, _⟩ := he
                rw [hl] at hl2
                cases hl2
                simp only [Bool.or_eq_true, Bool.and_eq_true, decide_eq_true_eq] at hself
                rcases hself with hs | hs
                · exact ht hs
                · exact hfin hs
              | cons m rest3 =>
                rw [exported_chain_cons] at he
                obtain ⟨_, _, _, sub2, hl2, _⟩ := he
                rw [hl] at hl2; cases hl2
            rw [if_neg hself] at hstep
            by_cases hex : should_exclude_file fnm (sanitize_path (base_path ++ [47] ++ name)) st
                ctx.max_file_size ctx.ignore_patterns = true
            · rw [if_pos hex] at hstep; cases hstep
              apply walk_invariant_skip _ _ _ _ _ _ _ hacc
              intro rest2 he
              cases rest2 with
              | nil =>
                rw [exported_chain_single] at he
                obtain ⟨_, _, _, st2, hl2, _, _, hsz, hign, _⟩ := he
                rw [hl] at hl2
                cases hl2
                unfold should_exclude_file at hex
                have : ¬ st.st_size > ctx.max_file_size := by omega
                rw [if_neg this, hign] at hex
                simp at hex
              | cons m rest3 =>
                rw [exported_chain_cons] at he
                obtain ⟨_, _, _, sub2, hl2, _⟩ := he
                rw [hl] at hl2; cases hl2
            rw [if_neg hex] at hstep
            cases hpf : process_file (sanitize_path (base_path ++ [47] ++ name)) st
                ctx.max_file_size with
            | none => rw [hpf] at hstep; cases hstep
            | some res =>
              rw [hpf] at hstep
              obtain ⟨code, out⟩ := res
              dsimp only at hstep
              by_cases hcode : code = 0
              · rw [if_pos hcode] at hstep
                cases hstep
                subst hcode
                exact walk_invariant_file fnm ctx base_path entries d acc name st out
                  hacc hlt hname hlen2 hl hself hex hpf
              · rw [if_neg hcode] at hstep
                cases hstep
                apply walk_invariant_skip _ _ _ _ _ _ _ hacc
                intro rest2 he
                cases rest2 with
                | nil =>
                  rw [exported_chain_single] at he
                  obtain ⟨_, _, _, st2, hl2, _, _, hsz, _, hcl, hne, hbin⟩ := he
                  rw [hl] at hl2
                  cases hl2
                  obtain ⟨code2, out2, hpf2, hc2⟩ :=
                    (process_file_zero_iff (sanitize_path (base_path ++ [47] ++ name)) st
                      ctx.max_file_size).mpr ⟨hsz, hcl, hne, hbin⟩
                  rw [hpf] at hpf2
                  cases hpf2
                  exact hcode hc2
                | cons m rest3 =>
                  rw [exported_chain_cons] at he
                  obtain ⟨_, _, _, sub2, hl2, _⟩ := he
                  rw [hl] at hl2; cases hl2
      · refine ⟨rfl, [], List.Forall₂.nil, List.Pairwise.nil, ?_⟩
        intro c
        constructor
        · intro hc; cases hc
        · rintro ⟨_, n, rest, _, hn⟩; cases hn
    obtain ⟨h0, chains, hf, hp, hm⟩ := hinv
    refine ⟨h0, chains, hf, hp, ?_⟩
    intro c
    rw [hm c]
    constructor
    · exact fun hc => hc.1
    · intro he
      refine ⟨he, ?_⟩
      cases c with
      | nil => exact absurd he (exported_chain_nil _ _ _ _)
      | cons n rest => exact ⟨n, rest, rfl, (exported_chain_head _ _ _ _ _ _ he).1⟩

theorem chain_lt_cons_iff (a b : List Nat) (s t : List (List Nat)) :
    chain_lt (a :: s) (b :: t) ↔ strcmp a b < 0 ∨ (a = b ∧ chain_lt s t) := by
  constructor
  · rintro ⟨pre, n1, n2, r1, r2, h1, h2, h3⟩
    cases pre with
    | nil =>
      simp only [List.nil_append, List.cons.injEq] at h1 h2
      left; rw [h1.1, h2.1]; exact h3
    | cons p pre =>
      simp only [List.cons_append, List.cons.injEq] at h1 h2
      right
      exact ⟨h1.1.trans h2.1.symm, pre, n1, n2, r1, r2, h1.2, h2.2, h3⟩
  · intro h
    rcases h with h | ⟨hab, h⟩
    · exact chain_lt_head a b s t h
    · rw [hab]; exact chain_lt_cons b s t h

theorem chain_lt_asymm : ∀ c1 c2 : List (List Nat), chain_lt c1 c2 → ¬ chain_lt c2 c1 := by
  intro c1
  induction c1 with
  | nil =>
    rintro c2 ⟨pre, n1, n2, r1, r2, h1, _, _⟩
    simp at h1
  | cons a s ih =>
    intro c2 h12 h21
    cases c2 with
    | nil =>
      obtain ⟨pre, n1, n2, r1, r2, _, h2, _⟩ := h12
      simp at h2
    | cons b t =>
      rw [chain_lt_cons_iff] at h12 h21
      rcases h12 with h | ⟨hab, h⟩
      · rcases h21 with h2 | ⟨hba, _⟩
        · rw [strcmp_neg a b] at h2; omega
        · rw [hba, strcmp_self] at h; omega
      · rcases h21 with h2 | ⟨_, h2⟩
        · rw [hab, strcmp_self] at h2; omega
        · exact ih t h h2

theorem chain_lt_irrefl (c : List (List Nat)) : ¬ chain_lt c c :=
  fun h => chain_lt_asymm c c h h

theorem pairwise_chain_lt_nodup (chains : List (List (List Nat)))
    (h : chains.Pairwise chain_lt) : chains.Nodup := by
  unfold List.Nodup
  refine h.imp ?_
  intro a b hab e
  rw [← e] at hab
  exact chain_lt_irrefl a hab

theorem pairwise_chain_lt_sublist : ∀ chains : List (List (List Nat)),
    chains.Pairwise chain_lt → ∀ c1 c2, c1 ∈ chains → c2 ∈ chains → chain_lt c1 c2 →
      List.Sublist [c1, c2] chains := by
  intro chains
  induction chains with
  | nil => intro _ c1 _ h; cases h
  | cons x l ih =>
    intro hp c1 c2 h1 h2 hlt
    rw [List.pairwise_cons] at hp
    rcases List.mem_cons.mp h1 with e1 | m1
    · rcases List.mem_cons.mp h2 with e2 | m2
      · rw [e1, e2] at hlt; exact absurd hlt (chain_lt_irrefl x)
      · rw [e1]
        exact List.Sublist.cons₂ x (List.singleton_sublist.mpr m2)
    · rcases List.mem_cons.mp h2 with e2 | m2
      · rw [e2] at hlt
        exact absurd hlt (chain_lt_asymm x c1 (hp.1 c1 m1))
      · exact List.Sublist.cons x (ih hp.2 c1 c2 m1 m2 hlt)

theorem process_directory_chains_total (fnm : List Nat → List Nat → Bool) (ctx : AppContext)
    (fuel : Nat) (base_path : List Nat) (entries : List (List Nat × Node))
    (hw : (Node.dir entries).well_formed = true) (hfuel : entries_depth entries < fuel) :
    ∃ secs, process_directory fnm ctx fuel base_path entries = some (0, secs) ∧
      ∃ chains : List (List (List Nat)),
        List.Forall₂ (chain_section base_path entries) chains secs ∧
        chains.Pairwise chain_lt ∧
        ∀ c, c ∈ chains ↔ exported_chain fnm ctx base_path entries c := by
  obtain ⟨secs, hs⟩ := process_directory_total fnm ctx fuel base_path entries hfuel
  exact ⟨secs, hs, (process_directory_chains fnm ctx fuel base_path entries _ hw hs).2⟩

set_option maxRecDepth 100000 in
theorem sibling_tree_walk :
    (process_directory fnmatch_pathname default_ctx 3 (bytes ".") sibling_tree).map
      (fun r => (r.1, r.2.map Prod.fst)) =
      some (0, [bytes "./a/x.txt", bytes "./a-b", bytes "./a.txt"]) := by decide

set_option maxRecDepth 100000 in
theorem skipped_tree_walk :
    (process_directory fnmatch_pathname default_ctx 3 (bytes ".") skipped_tree).map
      (fun r => (r.1, r.2.map Prod.fst)) = some (0, [bytes "./a.txt"]) ∧
    is_ignored fnmatch_pathname (bytes "./empty.txt") default_ignores false = false ∧
    is_ignored fnmatch_pathname (bytes "./bin.dat") default_ignores false = false ∧
    is_ignored fnmatch_pathname (bytes "./.git/config") default_ignores false = false := by
  decide

theorem sorted_names_sorted (es : List (List Nat × Node))
    (h0 : ∀ n ∈ es.map Prod.fst, 0 ∉ n) :
    (sorted_names es).Pairwise (fun a b => strcmp a b ≤ 0) := by
  unfold sorted_names
  apply sort_names_sorted
  intro n hn
  exact h0 n (List.mem_of_mem_filter hn)

theorem process_entry_dir (fnm : List Nat → List Nat → Bool) (ctx : AppContext)
    (recurse : List Nat → List (List Nat × Node) → Option (Int × List (List Nat × List Nat)))
    (base_path name : List Nat) (entries sub : List (List Nat × Node))
    (acc secs : List (List Nat × List Nat))
    (hlen : (base_path ++ [47] ++ name).length < MAX_PATH_LENGTH)
    (hl : lookup_entry entries name = some (Node.dir sub))
    (hig : is_ignored fnm (sanitize_path (base_path ++ [47] ++ name)) ctx.ignore_patterns true
      = false)
    (hrec : recurse (sanitize_path (base_path ++ [47] ++ name)) sub = some (0, secs)) :
    process_entry fnm ctx recurse base_path entries (0, acc) name = some (0, acc ++ secs) := by
  unfold process_entry
  have hlen2 : ¬ (base_path ++ [47] ++ name).length ≥ MAX_PATH_LENGTH := by omega
  simp only [ne_eq, not_true_eq_false, if_false, hlen2, hl, hig, hrec, Bool.false_eq_true]

/-! # Claims -/

/-- C1: `is_ignored` is last-match-wins.  For every matcher, path, `is_dir` flag
and ordered pattern list the result is true iff the list splits as
`pre ++ p :: post` where `p` matches the path, `p` is not `!`-prefixed and no
pattern of `post` matches; when no pattern matches the result is false.  With
`*.log` then `!keep.log` the file `./keep.log` is not ignored, and with the
reversed order it is. -/
theorem is_ignored_last_match_wins :
    (∀ (fnm : List Nat → List Nat → Bool) (filepath : List Nat) (patterns : List (List Nat))
        (is_dir : Bool),
      (is_ignored fnm filepath patterns is_dir = true ↔
        ∃ pre p post, patterns = pre ++ p :: post ∧
          pattern_matches fnm filepath is_dir p = true ∧ pattern_negated p = false ∧
          ∀ q ∈ post, pattern_matches fnm filepath is_dir q = false) ∧
      ((∀ q ∈ patterns, pattern_matches fnm filepath is_dir q = false) →
        is_ignored fnm filepath patterns is_dir = false)) ∧
    is_ignored fnmatch_pathname (bytes "./keep.log") [bytes "*.log", bytes "!keep.log"] false
      = false ∧
    is_ignored fnmatch_pathname (bytes "./keep.log") [bytes "!keep.log", bytes "*.log"] false
      = true := by
  refine ⟨fun fnm filepath patterns is_dir => ⟨is_ignored_iff_last_match _ _ _ _, ?_⟩,
    by decide, by decide⟩
  intro hnone
  cases hres : is_ignored fnm filepath patterns is_dir with
  | false => rfl
  | true =>
    obtain ⟨pre, p, post, rfl, hm, _, _⟩ := (is_ignored_iff_last_match _ _ _ _).mp hres
    have := hnone p (by simp)
    rw [hm] at this; cases this

/-- No built-in pattern matches the file `./src/main.c`, so it is not ignored. -/
theorem is_ignored_last_match_wins_witness :
    (∀ q ∈ default_ignores,
      pattern_matches fnmatch_pathname (bytes "./src/main.c") false q = false) ∧
    is_ignored fnmatch_pathname (bytes "./src/main.c") default_ignores false = false :=
  ⟨by decide,
    (is_ignored_last_match_wins.1 fnmatch_pathname (bytes "./src/main.c") default_ignores
      false).2 (by decide)⟩

/-- C2: a directory-only pattern applies to directories and never to files.
For every path whose final segment is `build`, the pattern list `build/` ignores
it as a directory and does not ignore it as a file; and for a file every
pattern ending in `/` is skipped: dropping all of them, or any one of them,
leaves the verdict unchanged. -/
theorem dir_only_pattern_never_applies_to_files :
    (∀ path : List Nat, after_last_slash path = bytes "build" →
      is_ignored fnmatch_pathname path [bytes "build/"] true = true ∧
      is_ignored fnmatch_pathname path [bytes "build/"] false = false) ∧
    (∀ (fnm : List Nat → List Nat → Bool) (path : List Nat) (patterns : List (List Nat)),
      is_ignored fnm path patterns false =
        is_ignored fnm path (patterns.filter (fun p => !decide (p.getLast? = some 47))) false) ∧
    (∀ (fnm : List Nat → List Nat → Bool) (path : List Nat) (pre post : List (List Nat))
        (p : List Nat), p.getLast? = some 47 →
      pattern_matches fnm path false p = false ∧
      is_ignored fnm path (pre ++ p :: post) false = is_ignored fnm path (pre ++ post) false) := by
  have hfilter : ∀ (fnm : List Nat → List Nat → Bool) (path : List Nat)
      (patterns : List (List Nat)),
      is_ignored fnm path patterns false =
        is_ignored fnm path (patterns.filter (fun p => !decide (p.getLast? = some 47))) false := by
    intro fnm path patterns
    unfold is_ignored
    apply foldl_verdict_filter
    intro p hp
    apply pattern_verdict_dir_only_file
    simpa using hp
  refine ⟨?_, hfilter, ?_⟩
  · intro path hseg
    have hbase : after_last_slash (skip_dot_slash path) = bytes "build" := by
      rw [after_last_slash_skip_dot_slash, hseg]
    unfold is_ignored
    dsimp only
    rw [hbase]
    exact ⟨rfl, rfl⟩
  · intro fnm path pre post p hp
    constructor
    · simp [pattern_matches, pattern_verdict_dir_only_file _ _ _ _ hp]
    · rw [hfilter fnm path (pre ++ p :: post), hfilter fnm path (pre ++ post)]
      simp [List.filter_append, List.filter, hp]

/-- A path with final segment `build`: `./src/build`. -/
theorem dir_only_pattern_never_applies_to_files_witness :
    after_last_slash (bytes "./src/build") = bytes "build" ∧
    is_ignored fnmatch_pathname (bytes "./src/build") [bytes "build/"] true = true ∧
    is_ignored fnmatch_pathname (bytes "./src/build") [bytes "build/"] false = false :=
  ⟨by decide, dir_only_pattern_never_applies_to_files.1 (bytes "./src/build") (by decide)⟩

/-- C3: how one pattern is matched.  With `body` the pattern without its `!` and
`core` the body without its trailing `/`, a pattern whose core contains a `/` is
matched, one leading `/` removed, against the path without its leading `./`, and
a slash-free core is matched against the final path segment only.  Under
`FNM_PATHNAME` a matched string has no more `/` than the pattern, `*` matches
exactly the strings without `/` and `?` exactly the one-byte strings other than
`/`.  So `/foo` matches `./foo` but not `./sub/foo`, `docs/*.md` matches
`./docs/a.md` but neither `./x/docs/a.md` nor `./docs/sub/a.md`, and `*.o`
matches every path whose final segment is `x.o`. -/
theorem slash_pattern_matches_whole_path :
    (∀ (fnm : List Nat → List Nat → Bool) (path raw : List Nat) (is_dir : Bool),
      pattern_matches fnm path is_dir raw =
        (let body := if raw.head? = some 33 then raw.tail else raw
         let core := if body.getLast? = some 47 then body.dropLast else body
         if body = [] ∨ (body.getLast? = some 47 ∧ is_dir = false) then false
         else if 47 ∈ core then
           fnm (if core.head? = some 47 then core.tail else core) (skip_dot_slash path)
         else fnm core (after_last_slash path)) ∧
      is_ignored fnm path [raw] is_dir =
        (pattern_matches fnm path is_dir raw && !pattern_negated raw)) ∧
    (∀ pat s : List Nat, fnmatch_pathname pat s = true → s.count 47 ≤ pat.count 47) ∧
    (∀ s : List Nat, fnmatch_pathname (bytes "*") s = true ↔ 47 ∉ s) ∧
    (∀ s : List Nat, fnmatch_pathname (bytes "?") s = true ↔ ∃ c, s = [c] ∧ c ≠ 47) ∧
    is_ignored fnmatch_pathname (bytes "./foo") [bytes "/foo"] false = true ∧
    is_ignored fnmatch_pathname (bytes "./sub/foo") [bytes "/foo"] false = false ∧
    is_ignored fnmatch_pathname (bytes "./docs/a.md") [bytes "docs/*.md"] false = true ∧
    is_ignored fnmatch_pathname (bytes "./x/docs/a.md") [bytes "docs/*.md"] false = false ∧
    is_ignored fnmatch_pathname (bytes "./docs/sub/a.md") [bytes "docs/*.md"] false = false ∧
    (∀ path : List Nat, after_last_slash path = bytes "x.o" →
      is_ignored fnmatch_pathname path [bytes "*.o"] false = true) := by
  refine ⟨fun fnm path raw is_dir => ⟨pattern_matches_eq _ _ _ _, is_ignored_singleton _ _ _ _⟩,
    fnmatch_pathname_count, fnmatch_star_iff, fnmatch_any_iff,
    by decide, by decide, by decide, by decide, by decide, ?_⟩
  intro path hseg
  have hbase : after_last_slash (skip_dot_slash path) = bytes "x.o" := by
    rw [after_last_slash_skip_dot_slash, hseg]
  unfold is_ignored
  dsimp only
  rw [hbase]
  rfl

/-- A file `x.o` three directories deep. -/
theorem slash_pattern_matches_whole_path_witness :
    after_last_slash (bytes "./a/b/c/x.o") = bytes "x.o" ∧
    is_ignored fnmatch_pathname (bytes "./a/b/c/x.o") [bytes "*.o"] false = true :=
  ⟨by decide, slash_pattern_matches_whole_path.2.2.2.2.2.2.2.2.2 (bytes "./a/b/c/x.o") (by decide)⟩

/-- C4: the walk prunes ignored directories.  (a) When the directory reached
through `chain` is ignored (`is_ignored` on its path with `is_dir = 1`),
replacing what it holds by any other listing leaves the result of
`process_directory` unchanged, status and sections: nothing beneath it is
visited.  (b) Every section of the output is the export of a regular file
reached from the root through directories none of which is ignored.  (c) With
a depth bound above the depth of the tree the walk returns, with status 0.
(d) With the patterns `build/`, `!build/keep.txt` the file `build/keep.txt` is
not ignored as a file, yet the walk writes no section.  (e) With the default
patterns the tree `a.py`, `sub/b.txt`, `sub/.git/config` gives the sections of
`a.py` and `sub/b.txt` only.  The root itself is never tested. -/
theorem ignored_directories_are_pruned :
    (∀ (fnm : List Nat → List Nat → Bool) (ctx : AppContext) (fuel : Nat) (base_path : List Nat)
        (entries : List (List Nat × Node)) (chain : List (List Nat))
        (sub sub2 : List (List Nat × Node)),
      node_at entries chain = some (Node.dir sub) →
      is_ignored fnm (path_of base_path chain) ctx.ignore_patterns true = true →
      process_directory fnm ctx fuel base_path (replace_at (Node.dir sub2) chain entries) =
        process_directory fnm ctx fuel base_path entries) ∧
    (∀ (fnm : List Nat → List Nat → Bool) (ctx : AppContext) (fuel : Nat) (base_path : List Nat)
        (entries : List (List Nat × Node)) (r : Int × List (List Nat × List Nat)),
      process_directory fnm ctx fuel base_path entries = some r →
      ∀ sec ∈ r.2, SectionReached fnm ctx base_path entries sec) ∧
    (∀ (fnm : List Nat → List Nat → Bool) (ctx : AppContext) (fuel : Nat) (base_path : List Nat)
        (entries : List (List Nat × Node)), entries_depth entries < fuel →
      ∃ secs, process_directory fnm ctx fuel base_path entries = some (0, secs)) ∧
    (is_ignored fnmatch_pathname (bytes "./build/keep.txt")
        [bytes "build/", bytes "!build/keep.txt"] false = false ∧
      process_directory fnmatch_pathname
        { default_ctx with ignore_patterns := [bytes "build/", bytes "!build/keep.txt"] }
        2 (bytes ".") build_tree = some (0, []) ∧
      process_directory fnmatch_pathname { default_ctx with ignore_patterns := [] }
        2 (bytes ".") build_tree =
        some (0, [(bytes "./build/keep.txt", bytes "## build/keep.txt\n\n```\nkeep\n```\n\n\n")])) ∧
    process_directory fnmatch_pathname default_ctx 3 (bytes ".") example_tree =
      some (0, [(bytes "./a.py", bytes "## a.py\n\n```python\nprint(1)\n```\n\n\n"),
                (bytes "./sub/b.txt", bytes "## sub/b.txt\n\n```\nhi\n```\n\n\n")]) :=
  ⟨fun fnm ctx fuel base_path entries chain sub sub2 h1 h2 =>
      process_directory_replace_ignored fnm ctx sub2 chain fuel base_path entries sub h1 h2,
    fun fnm ctx fuel base_path entries r h => process_directory_sections fnm ctx fuel base_path
      entries r h,
    fun fnm ctx fuel base_path entries h => process_directory_total fnm ctx fuel base_path
      entries h,
    ⟨by decide, by decide, by decide⟩, by decide⟩

/-- On the example tree the listing of `sub/.git`, which `.git/` ignores, can be
emptied without changing the result. -/
theorem ignored_directories_are_pruned_witness :
    node_at example_tree [bytes "sub", bytes ".git"] =
      some (Node.dir [(bytes "config", Node.file ⟨0, 3, 1, bytes "x"⟩)]) ∧
    is_ignored fnmatch_pathname (path_of (bytes ".") [bytes "sub", bytes ".git"])
      default_ctx.ignore_patterns true = true ∧
    process_directory fnmatch_pathname default_ctx 3 (bytes ".")
        (replace_at (Node.dir []) [bytes "sub", bytes ".git"] example_tree) =
      process_directory fnmatch_pathname default_ctx 3 (bytes ".") example_tree :=
  ⟨rfl, by decide,
    ignored_directories_are_pruned.1 fnmatch_pathname default_ctx 3 (bytes ".") example_tree
      [bytes "sub", bytes ".git"] [(bytes "config", Node.file ⟨0, 3, 1, bytes "x"⟩)] [] rfl
      (by decide)⟩

/-- C5 as stated fails: a file of 8192 bytes `a` followed by one NUL byte is
within the cap of 102400 bytes, contains a NUL byte, and `process_file` exports
it (return code 0, with its section written). -/
theorem nul_beyond_sample_is_exported :
    0 ∈ List.replicate 8192 97 ++ [0] ∧
    (List.replicate 8192 97 ++ [0]).length ≤ 102400 ∧
    process_file (bytes "./f.txt") ⟨0, 1, 8193, List.replicate 8192 97 ++ [0]⟩ 102400 =
      some (0, export_section (bytes "./f.txt") (List.replicate 8192 97 ++ [0])) := by
  refine ⟨List.mem_append_right _ (List.mem_singleton_self 0), ?_, ?_⟩
  · rw [List.length_append, List.length_replicate]; decide
  · exact nul_after_sample_exported (bytes "./f.txt") 0 1 8192 102400 (by decide) (by decide)

/-- C5, amended: for every file whose content has a NUL byte among its first
8192 bytes, `process_file` returns Skipped (1) and writes nothing, whatever the
other bytes, the path and the size cap are. -/
theorem nul_in_sample_is_skipped (filepath : List Nat) (st : RegFile) (max_file_size i : Nat)
    (hi : i < 8192) (h0 : st.content[i]? = some 0) :
    process_file filepath st max_file_size = some (1, []) := by
  have hlen : i < st.content.length := by
    by_contra hc
    rw [List.getElem?_eq_none (by omega)] at h0
    cases h0
  have hs : i < (if st.content.length < 8192 then st.content.length else 8192) := by
    split_ifs <;> omega
  rw [process_file_eq]
  by_cases h : st.st_size > max_file_size ∨ st.content.length > max_file_size
  · rw [if_pos h]
  · rw [if_neg h, is_binary_file_nul st.content _ i hs h0]

/-- A five-byte file with a NUL byte at index 2. -/
theorem nul_in_sample_is_skipped_witness :
    (bytes "ab\x00cd")[2]? = some 0 ∧
    process_file (bytes "./bin.dat") ⟨0, 1, 5, bytes "ab\x00cd"⟩ 102400 = some (1, []) :=
  ⟨by decide, nul_in_sample_is_skipped (bytes "./bin.dat") ⟨0, 1, 5, bytes "ab\x00cd"⟩ 102400 2
    (by decide) (by decide)⟩

/-- C6 as stated fails: the 40-byte sample `0xFF, 0x01` followed by 38 bytes `a`
is non-empty, NUL-free and fails the UTF-8 scan; its single control byte is more
than 2% of 40 bytes (`1 * 100 > 2 * 40`), and `is_binary_file` returns text. -/
theorem control_share_between_two_and_three_percent :
    (∀ x ∈ [255, 1] ++ List.replicate 38 97, x ≠ 0) ∧
    is_likely_utf8 ([255, 1] ++ List.replicate 38 97) 40 = some false ∧
    ([255, 1] ++ List.replicate 38 97).countP is_ctrl = 1 ∧
    1 * 100 > 2 * 40 ∧
    is_binary_file ([255, 1] ++ List.replicate 38 97) 40 = some false := by
  decide

/-- C6, amended: for every non-empty, NUL-free sample that fails the UTF-8 scan,
`is_binary_file` returns binary iff the integer quotient `ctrl * 100 / n` is
greater than 2, that is iff `ctrl * 100 >= 3 * n`, where `ctrl` counts the bytes
below 0x20 other than tab, LF and CR among the `n` sampled bytes. -/
theorem control_byte_threshold (buffer : List Nat) (n : Nat) (hn : n ≠ 0)
    (hnul : ∀ x ∈ buffer.take n, x ≠ 0) (hutf : is_likely_utf8 buffer n = some false) :
    (is_binary_file buffer n = some true ∨ is_binary_file buffer n = some false) ∧
    (is_binary_file buffer n = some true ↔ (buffer.take n).countP is_ctrl * 100 / n > 2) ∧
    (is_binary_file buffer n = some true ↔ (buffer.take n).countP is_ctrl * 100 ≥ 3 * n) ∧
    (buffer.take n).countP is_ctrl =
      ((buffer.take n).filter (fun c => decide (c < 0x20 ∧ c ≠ 10 ∧ c ≠ 13 ∧ c ≠ 9))).length := by
  have hany : (buffer.take n).any (fun b => b == 0) = false := by
    apply Bool.eq_false_iff.mpr
    intro h
    obtain ⟨x, hx, hz⟩ := List.any_eq_true.mp h
    exact hnul x hx (by simpa using hz)
  have hval : is_binary_file buffer n =
      some (decide ((buffer.take n).countP is_ctrl * 100 / n > 2)) := by
    unfold is_binary_file
    rw [if_neg hn, hany, hutf]
    rfl
  have hpos : 0 < n := Nat.pos_of_ne_zero hn
  have hdiv : (buffer.take n).countP is_ctrl * 100 / n > 2 ↔
      (buffer.take n).countP is_ctrl * 100 ≥ 3 * n := by
    rw [gt_iff_lt, ← Nat.succ_le_iff, Nat.le_div_iff_mul_le hpos]
  have h1 : is_binary_file buffer n = some true ↔
      (buffer.take n).countP is_ctrl * 100 / n > 2 := by
    rw [hval]; simp
  refine ⟨?_, h1, h1.trans hdiv, ?_⟩
  · rw [hval]
    by_cases h : (buffer.take n).countP is_ctrl * 100 / n > 2 <;> simp [h]
  · rw [List.countP_eq_length_filter]
    rfl

/-- Three control bytes in a 100-byte sample that starts with the byte 0xFF. -/
theorem control_byte_threshold_witness :
    is_binary_file ([255, 1, 2, 3] ++ List.replicate 96 97) 100 = some true ∧
    (([255, 1, 2, 3] ++ List.replicate 96 97).take 100).countP is_ctrl * 100 ≥ 3 * 100 := by
  have h := control_byte_threshold ([255, 1, 2, 3] ++ List.replicate 96 97) 100 (by decide)
    (by decide) (by decide)
  have hc : (([255, 1, 2, 3] ++ List.replicate 96 97).take 100).countP is_ctrl * 100 ≥ 3 * 100 := by
    decide
  exact ⟨h.2.2.1.mpr hc, hc⟩

/-- C7: valid UTF-8 text is never classified as binary, also when the sample
cuts a character.  For every sequence of Unicode scalar values without U+0000
and every length `k` up to the length of its UTF-8 encoding, `is_likely_utf8`
on the first `k` bytes returns 1 without reading an index that is not below `k`
(such a read makes the model return `none`), and `is_binary_file` returns 0,
whatever control characters the text holds; the same holds when the `k` bytes
are the sample of a longer buffer, whatever bytes follow. -/
theorem valid_utf8_prefix_is_text (s : List Char) (k : Nat)
    (h0 : ∀ c ∈ s, c ≠ Char.ofNat 0) (hk : k ≤ (utf8_bytes s).length) :
    is_likely_utf8 ((utf8_bytes s).take k) k = some true ∧
    is_binary_file ((utf8_bytes s).take k) k = some false ∧
    ∀ rest : List Nat,
      is_likely_utf8 (utf8_bytes s ++ rest) k = some true ∧
      is_binary_file (utf8_bytes s ++ rest) k = some false := by
  have hvalid : ∀ b ∈ s.map (fun c => (String.utf8EncodeChar c).map UInt8.toNat),
      ValidBlock b := by
    intro b hb
    obtain ⟨c, hc, rfl⟩ := List.mem_map.mp hb
    exact utf8EncodeChar_valid c (h0 c hc)
  have hutf : is_likely_utf8 ((utf8_bytes s).take k) k = some true := by
    have := utf8_blocks_prefix _ hvalid [] k k (by simp)
      (by rw [utf8_bytes_blocks] at hk; simpa using hk) (by simp)
    rw [utf8_bytes_blocks]
    simpa [is_likely_utf8] using this
  have hbin : is_binary_file ((utf8_bytes s).take k) k = some false := by
    refine is_binary_file_of_utf8 _ _ ?_ hutf
    intro x hx
    have hx2 : x ∈ utf8_bytes s := List.mem_of_mem_take (List.mem_of_mem_take hx)
    rw [utf8_bytes_blocks] at hx2
    obtain ⟨b, hb, hxb⟩ := List.mem_flatten.mp hx2
    exact valid_block_no_nul b (hvalid b hb) x hxb
  refine ⟨hutf, hbin, fun rest => ?_⟩
  have htake : (utf8_bytes s ++ rest).take k = (utf8_bytes s).take k :=
    List.take_append_of_le_length hk
  rw [← is_likely_utf8_take, ← is_binary_file_take, htake]
  exact ⟨hutf, hbin⟩

/-- The text `a`, U+20AC, U+0001, cut after the second of the three bytes of
U+20AC. -/
theorem valid_utf8_prefix_is_text_witness :
    utf8_bytes ['a', Char.ofNat 8364, Char.ofNat 1] = [97, 0xE2, 0x82, 0xAC, 1] ∧
    is_likely_utf8 ((utf8_bytes ['a', Char.ofNat 8364, Char.ofNat 1]).take 3) 3 = some true ∧
    is_binary_file ((utf8_bytes ['a', Char.ofNat 8364, Char.ofNat 1]).take 3) 3 = some false :=
  ⟨by decide,
    (valid_utf8_prefix_is_text ['a', Char.ofNat 8364, Char.ofNat 1] 3 (by decide) (by decide)).1,
    (valid_utf8_prefix_is_text ['a', Char.ofNat 8364, Char.ofNat 1] 3 (by decide)
      (by decide)).2.1⟩

/-- C8: the fence width.  For every content the width computed by `process_file`
is `max 3 (L + 1)`, `L` being the length of the longest run of consecutive
backtick bytes of the whole content (a run of `L` backticks occurs and no longer
one does); so the width is at least 3 and greater than every backtick run, and
for every exported file the opening and the closing fence are written with that
same width. -/
theorem fence_width_exceeds_backtick_runs :
    (∀ buffer : List Nat,
      (∃ L, List.replicate L 96 <:+: buffer ∧ (∀ k, List.replicate k 96 <:+: buffer → k ≤ L) ∧
        fence_width buffer = max 3 (L + 1)) ∧
      3 ≤ fence_width buffer ∧
      ∀ k, List.replicate k 96 <:+: buffer → k < fence_width buffer) ∧
    (∀ (filepath : List Nat) (st : RegFile) (max_file_size : Nat) (out : List Nat),
      process_file filepath st max_file_size = some (0, out) →
      out = bytes "## " ++ skip_dot_slash filepath ++ [10] ++ [10] ++
        List.replicate (fence_width st.content) 96 ++
          (get_language_identifier filepath st.content).getD [] ++ [10] ++
        st.content ++ (if st.content.getLast? = some 10 then [] else [10]) ++
        List.replicate (fence_width st.content) 96 ++ [10] ++ [10, 10]) := by
  constructor
  · intro buffer
    obtain ⟨_, _, hc, hd⟩ := backtick_scan_spec buffer
    have hw : fence_width buffer = max 3 ((backtick_scan buffer).2 + 1) := by
      unfold fence_width
      dsimp only
      split_ifs with h <;> omega
    refine ⟨⟨(backtick_scan buffer).2, hc, hd, hw⟩, by omega, ?_⟩
    intro k hk
    have := hd k hk
    omega
  · intro filepath st max_file_size out h
    rw [(process_file_exported _ _ _ _ h).1, export_section_eq]

/-- A file with a run of four backticks gets fences of five. -/
theorem fence_width_exceeds_backtick_runs_witness :
    fence_width (bytes "a````b``\n") = 5 ∧
    process_file (bytes "./r.md") ⟨0, 1, 9, bytes "a````b``\n"⟩ 102400 =
      some (0, bytes "## r.md\n\n`````markdown\na````b``\n`````\n\n\n") ∧
    bytes "## r.md\n\n`````markdown\na````b``\n`````\n\n\n" =
      bytes "## " ++ skip_dot_slash (bytes "./r.md") ++ [10] ++ [10] ++
        List.replicate (fence_width (bytes "a````b``\n")) 96 ++
          (get_language_identifier (bytes "./r.md") (bytes "a````b``\n")).getD [] ++ [10] ++
        bytes "a````b``\n" ++ (if (bytes "a````b``\n").getLast? = some 10 then [] else [10]) ++
        List.replicate (fence_width (bytes "a````b``\n")) 96 ++ [10] ++ [10, 10] :=
  ⟨by decide, by decide,
    fence_width_exceeds_backtick_runs.2 (bytes "./r.md") ⟨0, 1, 9, bytes "a````b``\n"⟩ 102400 _
      (by decide)⟩

/-- C9 as stated fails: for the content `hi` at `./sub/b.txt` the claimed bytes
end in the closing fence line and a single `\n`, while `process_file` writes the
closing fence line followed by `\n\n`. -/
theorem closing_fence_followed_by_two_newlines :
    process_file (bytes "./sub/b.txt") ⟨0, 2, 2, bytes "hi"⟩ 102400 =
      some (0, bytes "## sub/b.txt\n\n```\nhi\n```\n\n\n") ∧
    bytes "## sub/b.txt\n\n```\nhi\n```\n\n\n" ≠
      bytes "## " ++ bytes "sub/b.txt" ++ bytes "\n" ++ bytes "\n" ++ List.replicate 3 96 ++ [] ++
        bytes "\n" ++ bytes "hi" ++ bytes "\n" ++ List.replicate 3 96 ++ bytes "\n" ++
        bytes "\n" := by
  decide

/-- C9, amended: for every exported file (path `p`, content `c`) the bytes
`process_file` appends are exactly `"## "`, the path without one leading `./`,
`"\n"`, an empty line, `w` backticks, the tag if any, `"\n"`, `c` verbatim, a
`"\n"` iff `c` does not end in one, `w` backticks, `"\n"`, and then two empty
lines (`"\n\n"`), `w` being the fence width of `c`; and every non-empty content
within the cap that `is_binary_file` classifies as text is exported so. -/
theorem export_section_format (filepath : List Nat) (st : RegFile) (max_file_size : Nat) :
    (∀ out, process_file filepath st max_file_size = some (0, out) →
      out = bytes "## " ++ skip_dot_slash filepath ++ [10] ++ [10] ++
        List.replicate (fence_width st.content) 96 ++
          (get_language_identifier filepath st.content).getD [] ++ [10] ++
        st.content ++ (if st.content.getLast? = some 10 then [] else [10]) ++
        List.replicate (fence_width st.content) 96 ++ [10] ++ [10, 10]) ∧
    (st.st_size ≤ max_file_size → st.content.length ≤ max_file_size → st.content ≠ [] →
      is_binary_file st.content (if st.content.length < 8192 then st.content.length else 8192) =
        some false →
      ∃ out, process_file filepath st max_file_size = some (0, out)) := by
  constructor
  · intro out h
    rw [(process_file_exported _ _ _ _ h).1, export_section_eq]
  · intro h1 h2 h3 h4
    refine ⟨export_section filepath st.content, ?_⟩
    rw [process_file_eq]
    have hc : ¬ (st.st_size > max_file_size ∨ st.content.length > max_file_size) := by omega
    have hl : ¬ st.content.length = 0 := fun h => h3 (List.length_eq_zero.mp h)
    rw [if_neg hc, h4]
    dsimp only
    rw [if_neg hl]

/-- The file `./a.py` with content `print(1)`. -/
theorem export_section_format_witness :
    process_file (bytes "./a.py") ⟨0, 1, 8, bytes "print(1)"⟩ 102400 =
      some (0, bytes "## a.py\n\n```python\nprint(1)\n```\n\n\n") ∧
    bytes "## a.py\n\n```python\nprint(1)\n```\n\n\n" =
      bytes "## " ++ skip_dot_slash (bytes "./a.py") ++ [10] ++ [10] ++
        List.replicate (fence_width (bytes "print(1)")) 96 ++
          (get_language_identifier (bytes "./a.py") (bytes "print(1)")).getD [] ++ [10] ++
        bytes "print(1)" ++ (if (bytes "print(1)").getLast? = some 10 then [] else [10]) ++
        List.replicate (fence_width (bytes "print(1)")) 96 ++ [10] ++ [10, 10] :=
  ⟨by decide,
    (export_section_format (bytes "./a.py") ⟨0, 1, 8, bytes "print(1)"⟩ 102400).1 _ (by decide)⟩

/-- C10: the size cap is inclusive.  For every regular file that no pattern
ignores and every cap `m`, `should_exclude_file` returns 0 iff `st_size <= m`;
`process_file` takes a size exit (Skipped) when `st_size` or the length read
exceeds `m`, and otherwise returns what it returns under any larger cap; so a
non-empty text file whose size is its content length is exported iff that size
is at most `m`: exported at exactly `m` bytes, skipped at `m + 1`. -/
theorem size_cap_is_inclusive :
    (∀ (fnm : List Nat → List Nat → Bool) (filepath : List Nat) (st : RegFile) (m : Nat)
        (patterns : List (List Nat)), is_ignored fnm filepath patterns false = false →
      (should_exclude_file fnm filepath st m patterns = false ↔ st.st_size ≤ m)) ∧
    (∀ (filepath : List Nat) (st : RegFile) (m : Nat),
      (st.st_size > m ∨ st.content.length > m → process_file filepath st m = some (1, [])) ∧
      (st.st_size ≤ m → st.content.length ≤ m →
        ∀ m2, m ≤ m2 → process_file filepath st m = process_file filepath st m2)) ∧
    (∀ (filepath : List Nat) (st : RegFile) (m : Nat), st.st_size = st.content.length →
      st.content ≠ [] →
      is_binary_file st.content (if st.content.length < 8192 then st.content.length else 8192) =
        some false →
      ((process_file filepath st m = some (0, export_section filepath st.content) ↔
          st.st_size ≤ m) ∧
       (st.st_size = m → process_file filepath st m =
          some (0, export_section filepath st.content)) ∧
       (st.st_size = m + 1 → process_file filepath st m = some (1, [])))) := by
  refine ⟨?_, ?_, ?_⟩
  · intro fnm filepath st m patterns hign
    unfold should_exclude_file
    rw [hign]
    by_cases h : st.st_size > m
    · simp [h]
    · simp [h]; omega
  · intro filepath st m
    constructor
    · intro h
      rw [process_file_eq, if_pos h]
    · intro h1 h2 m2 hm
      rw [process_file_eq, process_file_eq]
      have hc : ¬ (st.st_size > m ∨ st.content.length > m) := by omega
      have hc2 : ¬ (st.st_size > m2 ∨ st.content.length > m2) := by omega
      rw [if_neg hc, if_neg hc2]
  · intro filepath st m hcons hne htext
    have hl : ¬ st.content.length = 0 := fun h => hne (List.length_eq_zero.mp h)
    have hin : st.st_size ≤ m →
        process_file filepath st m = some (0, export_section filepath st.content) := by
      intro h
      have hc : ¬ (st.st_size > m ∨ st.content.length > m) := by omega
      rw [process_file_eq, if_neg hc, htext]
      dsimp only
      rw [if_neg hl]
    have hout : st.st_size > m → process_file filepath st m = some (1, []) := by
      intro h
      rw [process_file_eq, if_pos (Or.inl h)]
    refine ⟨⟨?_, hin⟩, fun h => hin (by omega), fun h => hout (by omega)⟩
    intro h
    by_contra hgt
    rw [hout (by omega)] at h
    cases h

/-- A two-byte text file under the caps 2 and 1. -/
theorem size_cap_is_inclusive_witness :
    should_exclude_file fnmatch_pathname (bytes "./n.txt") ⟨0, 1, 2, bytes "hi"⟩ 2 [] = false ∧
    process_file (bytes "./n.txt") ⟨0, 1, 2, bytes "hi"⟩ 2 =
      some (0, export_section (bytes "./n.txt") (bytes "hi")) ∧
    process_file (bytes "./n.txt") ⟨0, 1, 2, bytes "hi"⟩ 1 = some (1, []) :=
  ⟨(size_cap_is_inclusive.1 fnmatch_pathname (bytes "./n.txt") ⟨0, 1, 2, bytes "hi"⟩ 2 []
      (by decide)).mpr (by decide),
    (size_cap_is_inclusive.2.2 (bytes "./n.txt") ⟨0, 1, 2, bytes "hi"⟩ 2 (by decide) (by decide)
      (by decide)).2.1 (by decide),
    (size_cap_is_inclusive.2.2 (bytes "./n.txt") ⟨0, 1, 2, bytes "hi"⟩ 1 (by decide) (by decide)
      (by decide)).2.2 (by decide)⟩

/-- C11 as stated fails: the sample `#!/bin/bash` is sniffed as `bash`, the file
names `run.xyz` and `script` are not special-case names and `xyz` is in no entry
of the table, yet `./run.xyz` and `./my.dir/script` with that sample get no tag. -/
theorem unknown_extension_gets_no_shebang_tag :
    detect_shebang (bytes "#!/bin/bash\n") = some (bytes "bash") ∧
    special_name (bytes "run.xyz") = false ∧
    (∀ e ∈ lang_map, strcasecmp_eq (bytes "xyz") e.1 = false) ∧
    get_language_identifier (bytes "./run.xyz") (bytes "#!/bin/bash\n") = none ∧
    special_name (bytes "script") = false ∧
    get_language_identifier (bytes "./my.dir/script") (bytes "#!/bin/bash\n") = none := by
  decide

/-- C11, amended: `get_language_identifier` falls back to shebang sniffing when
the path has no `.` after its first byte: for every such path whose file name is
not a special-case name, and every sample, the result is `detect_shebang` of the
sample (`./script` starting with `#!/bin/bash` is tagged `bash`).  When the file
name has an extension that is in no entry of the table, the result is no tag,
whatever the sample. -/
theorem shebang_fallback_only_without_dot :
    (∀ path sample : List Nat, special_name (after_last_slash path) = false →
      46 ∉ path.tail → get_language_identifier path sample = detect_shebang sample) ∧
    (∀ dir name sample dot : List Nat, 47 ∉ name → special_name name = false →
      strrchr name 46 = some dot → (∀ e ∈ lang_map, strcasecmp_eq dot.tail e.1 = false) →
      get_language_identifier (dir ++ 47 :: name) sample = none) ∧
    get_language_identifier (bytes "./script") (bytes "#!/bin/bash\n") = some (bytes "bash") ∧
    get_language_identifier (bytes "./bin/run") (bytes "#!/usr/bin/env python3\n") =
      some (bytes "python") := by
  refine ⟨get_language_identifier_no_dot, ?_, by decide, by decide⟩
  intro dir name sample dot hname hs hdot hmiss
  rw [get_language_identifier_extension dir name sample dot hname hs hdot]
  have : lang_map.find? (fun e => strcasecmp_eq dot.tail e.1) = none := by
    apply List.find?_eq_none.mpr
    intro e he
    simp [hmiss e he]
  rw [this]

/-- The path `./tools/deploy` with a perl shebang. -/
theorem shebang_fallback_only_without_dot_witness :
    special_name (after_last_slash (bytes "./tools/deploy")) = false ∧
    46 ∉ (bytes "./tools/deploy").tail ∧
    get_language_identifier (bytes "./tools/deploy") (bytes "#!/usr/bin/perl -w\n") =
      detect_shebang (bytes "#!/usr/bin/perl -w\n") ∧
    detect_shebang (bytes "#!/usr/bin/perl -w\n") = some (bytes "perl") :=
  ⟨by decide, by decide,
    shebang_fallback_only_without_dot.1 (bytes "./tools/deploy") (bytes "#!/usr/bin/perl -w\n")
      (by decide) (by decide),
    by decide⟩

/-- C12: `get_language_identifier` maps names case-insensitively.  For every
path whose final segment is `Dockerfile` ignoring ASCII case the tag is
`dockerfile`, and for `Makefile` or `GNUmakefile` it is `makefile`, whatever the
extension lookup would give.  Otherwise, for a path `dir/name` (as the walk
builds them), when what follows the last `.` of `name` equals, ignoring ASCII
case, the extension of an entry of the table, the tag is that entry's language:
`./a.py` and `./A.PY` give `python`; and `./sub/b.txt` with content `hi` gives
no tag. -/
theorem language_tag_by_name_and_extension :
    (∀ path sample : List Nat,
      (strcasecmp_eq (after_last_slash path) (bytes "Dockerfile") = true →
        get_language_identifier path sample = some (bytes "dockerfile")) ∧
      (strcasecmp_eq (after_last_slash path) (bytes "Makefile") = true ∨
        strcasecmp_eq (after_last_slash path) (bytes "GNUmakefile") = true →
        get_language_identifier path sample = some (bytes "makefile"))) ∧
    (∀ (dir name sample dot : List Nat) (e : List Nat × List Nat), 47 ∉ name →
      special_name name = false → strrchr name 46 = some dot → e ∈ lang_map →
      strcasecmp_eq dot.tail e.1 = true →
      get_language_identifier (dir ++ 47 :: name) sample = some e.2) ∧
    (∀ sample : List Nat,
      get_language_identifier (bytes "./a.py") sample = some (bytes "python") ∧
      get_language_identifier (bytes "./A.PY") sample = some (bytes "python")) ∧
    get_language_identifier (bytes "./sub/b.txt") (bytes "hi") = none := by
  refine ⟨?_, ?_, ?_, by decide⟩
  · intro path sample
    constructor
    · intro h
      unfold get_language_identifier
      simp only [h, if_true]
    · intro h
      unfold get_language_identifier
      have hd : strcasecmp_eq (after_last_slash path) (bytes "Dockerfile") = false := by
        rcases h with h | h
        · unfold strcasecmp_eq at h ⊢
          simp only [beq_iff_eq] at h
          rw [beq_eq_false_iff_ne, h]
          decide
        · unfold strcasecmp_eq at h ⊢
          simp only [beq_iff_eq] at h
          rw [beq_eq_false_iff_ne, h]
          decide
      have hm : (strcasecmp_eq (after_last_slash path) (bytes "Makefile") ||
          strcasecmp_eq (after_last_slash path) (bytes "GNUmakefile")) = true := by
        simpa using h
      simp only [hd, Bool.false_eq_true, if_false, hm, if_true]
  · intro dir name sample dot e hname hs hdot he hmatch
    rw [get_language_identifier_extension dir name sample dot hname hs hdot]
    cases hf : lang_map.find? (fun e => strcasecmp_eq dot.tail e.1) with
    | none =>
      have := List.find?_eq_none.mp hf e he
      simp [hmatch] at this
    | some e2 =>
      have h2 : strcasecmp_eq dot.tail e2.1 = true := by
        have := List.find?_some hf
        simpa using this
      have he2 : e2 ∈ lang_map := List.mem_of_find?_eq_some hf
      unfold strcasecmp_eq at hmatch h2
      simp only [beq_iff_eq] at hmatch h2
      have := lang_map_extensions_distinct e he e2 he2 (by rw [← hmatch, h2])
      rw [this]
  · intro sample
    constructor
    · have := get_language_identifier_extension (bytes ".") (bytes "a.py") sample (bytes ".py")
        (by decide) (by decide) (by decide)
      exact this
    · have := get_language_identifier_extension (bytes ".") (bytes "A.PY") sample (bytes ".PY")
        (by decide) (by decide) (by decide)
      exact this

/-- The paths `./src/Main.RS` and `./docker/DOCKERFILE`. -/
theorem language_tag_by_name_and_extension_witness :
    get_language_identifier (bytes "./src/Main.RS") (bytes "fn main() {}") = some (bytes "rust") ∧
    get_language_identifier (bytes "./docker/DOCKERFILE") (bytes "FROM x") =
      some (bytes "dockerfile") :=
  ⟨language_tag_by_name_and_extension.2.1 (bytes "./src") (bytes "Main.RS")
      (bytes "fn main() {}") (bytes ".RS") (bytes "rs", bytes "rust") (by decide) (by decide)
      (by decide) (by decide) (by decide),
    (language_tag_by_name_and_extension.1 (bytes "./docker/DOCKERFILE") (bytes "FROM x")).1
      (by decide)⟩

/-- C13 as stated fails: in the tree with the directory `a` (holding `x.txt`)
and the sibling files `a-b` and `a.txt`, the section of `a/x.txt` is written
first, although `a-b` and `a.txt` are the byte-wise smaller root-relative
paths. -/
theorem directory_precedes_bytewise_smaller_sibling :
    (process_directory fnmatch_pathname default_ctx 3 (bytes ".") sibling_tree).map
      (fun r => (r.1, r.2.map Prod.fst)) =
      some (0, [bytes "./a/x.txt", bytes "./a-b", bytes "./a.txt"]) ∧
    strcmp (bytes "a-b") (bytes "a/x.txt") < 0 ∧
    strcmp (bytes "a.txt") (bytes "a/x.txt") < 0 ∧
    bytes "a-b" < bytes "a/x.txt" ∧ bytes "a.txt" < bytes "a/x.txt" :=
  ⟨sibling_tree_walk, by decide, by decide, by decide, by decide⟩

/-- C13, amended: the order of the exported sections is lexicographic by path
component.  For every tree whose listings hold distinct names and every depth
bound above the depth of the tree, the walk returns status 0 and its sections
are, in output order, those of the exported files, and of any two exported
files the one whose chain of names is the smaller one at the first name where
the two chains differ (by `strcmp`) has its section first. -/
theorem sections_in_component_order (fnm : List Nat → List Nat → Bool) (ctx : AppContext)
    (fuel : Nat) (base_path : List Nat) (entries : List (List Nat × Node))
    (hw : (Node.dir entries).well_formed = true) (hfuel : entries_depth entries < fuel) :
    ∃ (secs : List (List Nat × List Nat)) (chains : List (List (List Nat))),
      process_directory fnm ctx fuel base_path entries = some (0, secs) ∧
      List.Forall₂ (chain_section base_path entries) chains secs ∧
      (∀ c, c ∈ chains ↔ exported_chain fnm ctx base_path entries c) ∧
      chains.Pairwise chain_lt ∧
      ∀ c1 c2, c1 ∈ chains → c2 ∈ chains → chain_lt c1 c2 → List.Sublist [c1, c2] chains := by
  obtain ⟨secs, hs, chains, hf, hp, hm⟩ :=
    process_directory_chains_total fnm ctx fuel base_path entries hw hfuel
  exact ⟨secs, chains, hs, hf, hm, hp, pairwise_chain_lt_sublist chains hp⟩

/-- The tree with the directory `a` and its siblings `a-b` and `a.txt`. -/
theorem sections_in_component_order_witness :
    (Node.dir sibling_tree).well_formed = true ∧ entries_depth sibling_tree < 3 ∧
    ∃ (secs : List (List Nat × List Nat)) (chains : List (List (List Nat))),
      process_directory fnmatch_pathname default_ctx 3 (bytes ".") sibling_tree =
        some (0, secs) ∧
      List.Forall₂ (chain_section (bytes ".") sibling_tree) chains secs ∧
      (∀ c, c ∈ chains ↔ exported_chain fnmatch_pathname default_ctx (bytes ".") sibling_tree c) ∧
      chains.Pairwise chain_lt ∧
      ∀ c1 c2, c1 ∈ chains → c2 ∈ chains → chain_lt c1 c2 → List.Sublist [c1, c2] chains :=
  ⟨by decide, by decide,
    sections_in_component_order fnmatch_pathname default_ctx 3 (bytes ".") sibling_tree
      (by decide) (by decide)⟩

/-- C14 as stated fails: the empty file `empty.txt`, the file `bin.dat` with a
NUL byte and the file `config` below the ignored directory `.git` are regular
files within the size cap that the pattern list does not match as files, and
the walk writes the section of `a.txt` only. -/
theorem unignored_small_files_without_section :
    ((process_directory fnmatch_pathname default_ctx 3 (bytes ".") skipped_tree).map
      (fun r => (r.1, r.2.map Prod.fst)) = some (0, [bytes "./a.txt"]) ∧
    is_ignored fnmatch_pathname (bytes "./empty.txt") default_ignores false = false ∧
    is_ignored fnmatch_pathname (bytes "./bin.dat") default_ignores false = false ∧
    is_ignored fnmatch_pathname (bytes "./.git/config") default_ignores false = false) ∧
    (∃ st, node_at skipped_tree [bytes "empty.txt"] = some (Node.file st) ∧
      st.st_size ≤ default_ctx.max_file_size) ∧
    (∃ st, node_at skipped_tree [bytes "bin.dat"] = some (Node.file st) ∧
      st.st_size ≤ default_ctx.max_file_size) ∧
    (∃ st, node_at skipped_tree [bytes ".git", bytes "config"] = some (Node.file st) ∧
      st.st_size ≤ default_ctx.max_file_size) :=
  ⟨skipped_tree_walk, ⟨_, rfl, by decide⟩, ⟨_, rfl, by decide⟩, ⟨_, rfl, by decide⟩⟩

/-- C14, amended: the walk emits exactly one section for each exported file and
no other section.  A file is exported when it is a regular file reached through
directories that are not ignored, no name on the way is `.` or `..`, every
path built on the way is shorter than `MAX_PATH_LENGTH`, the file is not the
temporary or final output file, its size is within the cap, the pattern list
does not match it as ignored, and its content is not empty and not classified
as binary.  For every tree whose listings hold distinct names and every depth
bound above the depth of the tree, the walk returns status 0 and its sections
correspond one to one, in order, to a list without repetition of exactly the
chains of the exported files, each section being the export of that file under
the path the walk builds for it. -/
theorem exported_files_appear_exactly_once (fnm : List Nat → List Nat → Bool)
    (ctx : AppContext) (fuel : Nat) (base_path : List Nat) (entries : List (List Nat × Node))
    (hw : (Node.dir entries).well_formed = true) (hfuel : entries_depth entries < fuel) :
    ∃ (secs : List (List Nat × List Nat)) (chains : List (List (List Nat))),
      process_directory fnm ctx fuel base_path entries = some (0, secs) ∧
      List.Forall₂ (chain_section base_path entries) chains secs ∧
      chains.Nodup ∧
      ∀ c, c ∈ chains ↔ exported_chain fnm ctx base_path entries c := by
  obtain ⟨secs, hs, chains, hf, hp, hm⟩ :=
    process_directory_chains_total fnm ctx fuel base_path entries hw hfuel
  exact ⟨secs, chains, hs, hf, pairwise_chain_lt_nodup chains hp, hm⟩

/-- The tree with an empty file, a binary file and an ignored directory. -/
theorem exported_files_appear_exactly_once_witness :
    (Node.dir skipped_tree).well_formed = true ∧ entries_depth skipped_tree < 3 ∧
    ∃ (secs : List (List Nat × List Nat)) (chains : List (List (List Nat))),
      process_directory fnmatch_pathname default_ctx 3 (bytes ".") skipped_tree =
        some (0, secs) ∧
      List.Forall₂ (chain_section (bytes ".") skipped_tree) chains secs ∧
      chains.Nodup ∧
      ∀ c, c ∈ chains ↔ exported_chain fnmatch_pathname default_ctx (bytes ".") skipped_tree c :=
  ⟨by decide, by decide,
    exported_files_appear_exactly_once fnmatch_pathname default_ctx 3 (bytes ".") skipped_tree
      (by decide) (by decide)⟩

/-- C15: the result of the walk does not depend on the order of a listing.
`process_directory` visits the names of a listing, without `.` and `..`, in
ascending `strcmp` order, and appends the sections of a subdirectory as one
block at the position of its name; so for every listing of distinct names,
replacing the listing of the start directory, or of a directory at any depth,
by a permutation of it leaves status and sections, hence the output bytes,
unchanged. -/
theorem walk_independent_of_listing_order (fnm : List Nat → List Nat → Bool)
    (ctx : AppContext) (base_path : List Nat) (entries : List (List Nat × Node)) :
    (∀ fuel entries2, entries.Perm entries2 → names_ok entries = true →
      process_directory fnm ctx fuel base_path entries2 =
        process_directory fnm ctx fuel base_path entries) ∧
    (∀ fuel chain sub sub2, node_at entries chain = some (Node.dir sub) → sub.Perm sub2 →
      names_ok sub = true →
      process_directory fnm ctx fuel base_path (replace_at (Node.dir sub2) chain entries) =
        process_directory fnm ctx fuel base_path entries ∧
      (process_directory fnm ctx fuel base_path
          (replace_at (Node.dir sub2) chain entries)).map (fun r => output_bytes r.2) =
        (process_directory fnm ctx fuel base_path entries).map (fun r => output_bytes r.2)) ∧
    (∀ name, name ∈ sorted_names entries ↔
      name ∈ entries.map Prod.fst ∧ name ≠ bytes "." ∧ name ≠ bytes "..") ∧
    ((∀ n ∈ entries.map Prod.fst, 0 ∉ n) →
      (sorted_names entries).Pairwise (fun a b => strcmp a b ≤ 0)) ∧
    (names_ok entries = true →
      (sorted_names entries).Pairwise (fun a b => strcmp a b < 0)) ∧
    (∀ fuel, process_directory fnm ctx (fuel + 1) base_path entries =
      (sorted_names entries).foldlM
        (process_entry fnm ctx (process_directory fnm ctx fuel) base_path entries) (0, [])) ∧
    (∀ fuel name sub acc secs, (base_path ++ [47] ++ name).length < MAX_PATH_LENGTH →
      lookup_entry entries name = some (Node.dir sub) →
      is_ignored fnm (sanitize_path (base_path ++ [47] ++ name)) ctx.ignore_patterns true
        = false →
      process_directory fnm ctx fuel (sanitize_path (base_path ++ [47] ++ name)) sub =
        some (0, secs) →
      process_entry fnm ctx (process_directory fnm ctx fuel) base_path entries (0, acc) name =
        some (0, acc ++ secs)) := by
  refine ⟨?_, ?_, mem_sorted_names entries, sorted_names_sorted entries,
    sorted_names_strict entries, fun _ => rfl, ?_⟩
  · intro fuel entries2 hp hok
    exact process_directory_perm fnm ctx fuel base_path entries entries2 hp hok
  · intro fuel chain sub sub2 hnode hp hok
    have h := process_directory_perm_at fnm ctx chain fuel base_path entries sub sub2 hnode hp hok
    exact ⟨h, by rw [h]⟩
  · intro fuel name sub acc secs hlen hl hig hrec
    exact process_entry_dir fnm ctx _ base_path name entries sub acc secs hlen hl hig hrec

/-- The example tree with its listing, and the listing of `sub`, in reverse
order. -/
theorem walk_independent_of_listing_order_witness :
    (example_tree.Perm example_tree.reverse ∧ names_ok example_tree = true ∧
      process_directory fnmatch_pathname default_ctx 3 (bytes ".") example_tree.reverse =
        process_directory fnmatch_pathname default_ctx 3 (bytes ".") example_tree) ∧
    process_directory fnmatch_pathname default_ctx 3 (bytes ".")
        (replace_at (Node.dir
          [(bytes ".git", Node.dir [(bytes "config", Node.file ⟨0, 3, 1, bytes "x"⟩)]),
           (bytes "b.txt", Node.file ⟨0, 2, 2, bytes "hi"⟩)]) [bytes "sub"] example_tree) =
      process_directory fnmatch_pathname default_ctx 3 (bytes ".") example_tree :=
  ⟨⟨(List.reverse_perm example_tree).symm, by decide,
    (walk_independent_of_listing_order fnmatch_pathname default_ctx (bytes ".") example_tree).1
      3 example_tree.reverse (List.reverse_perm example_tree).symm (by decide)⟩,
    ((walk_independent_of_listing_order fnmatch_pathname default_ctx (bytes ".")
      example_tree).2.1 3 [bytes "sub"]
      [(bytes "b.txt", Node.file ⟨0, 2, 2, bytes "hi"⟩),
       (bytes ".git", Node.dir [(bytes "config", Node.file ⟨0, 3, 1, bytes "x"⟩)])]
      [(bytes ".git", Node.dir [(bytes "config", Node.file ⟨0, 3, 1, bytes "x"⟩)]),
       (bytes "b.txt", Node.file ⟨0, 2, 2, bytes "hi"⟩)]
      rfl (List.Perm.swap _ _ []) (by decide)).1⟩

/-- C16: `load_ignore_patterns` always succeeds with a list that starts with the
15 built-in patterns in the documented order.  For every ignore-file content
that is text (no NUL byte) the list is the built-ins followed, in file order and
without deduplication, by the lines (the content split at LF) with their
trailing space, tab, CR and LF bytes removed, those kept that are then
non-empty and do not start with `#`; when the file does not exist the list is
exactly the 15 built-ins. -/
theorem load_ignore_patterns_defaults_then_lines :
    (∀ ignore_file : Option (List Nat),
      (load_ignore_patterns ignore_file).1 = 0 ∧
      default_ignores <+: (load_ignore_patterns ignore_file).2) ∧
    (∀ content : List Nat, 0 ∉ content →
      load_ignore_patterns (some content) =
        (0, default_ignores ++
          ((content.splitOn 10).map (fun l => l.rdropWhile is_line_space)).filter
            (fun l => decide (l ≠ [] ∧ l.head? ≠ some 35)))) ∧
    load_ignore_patterns none = (0, default_ignores) ∧
    default_ignores =
      [bytes ".git/", bytes "node_modules/", bytes "build/", bytes "dist/", bytes "bin/",
       bytes ".env", bytes ".venv/", bytes "__pycache__/", bytes ".DS_Store", bytes "*.o",
       bytes "*.a", bytes "*.so", bytes "*.exe", bytes "*.dll", bytes "*.log"] ∧
    (∀ c : Nat, is_line_space c = true ↔ c = 32 ∨ c = 9 ∨ c = 13 ∨ c = 10) ∧
    load_ignore_patterns (some (bytes "# local\n\n*.log \t\r\nbuild/\n*.log")) =
      (0, default_ignores ++ [bytes "*.log", bytes "build/", bytes "*.log"]) := by
  refine ⟨?_, ?_, rfl, by decide, ?_, by decide⟩
  · intro ignore_file
    cases ignore_file with
    | none => exact ⟨rfl, List.prefix_refl _⟩
    | some content => exact ⟨rfl, List.prefix_append _ _⟩
  · intro content h0
    have hlines : ∀ l ∈ getline_lines content, 0 ∉ l :=
      fun l hl hz => h0 (getline_lines_mem content l hl 0 hz)
    show (0, default_ignores ++ (getline_lines content).filterMap pattern_of_line) = _
    rw [filterMap_pattern_of_line _ hlines, kept_lines_getline]
    rfl
  · intro c
    unfold is_line_space
    simp only [Bool.or_eq_true, beq_iff_eq]
    constructor
    · rintro (((h | h) | h) | h) <;> simp [h]
    · rintro (h | h | h | h) <;> simp [h]

/-- An ignore file of four lines, the last one without a final LF. -/
theorem load_ignore_patterns_defaults_then_lines_witness :
    0 ∉ bytes "tmp/\n#x\n  \n!tmp/keep" ∧
    load_ignore_patterns (some (bytes "tmp/\n#x\n  \n!tmp/keep")) =
      (0, default_ignores ++ [bytes "tmp/", bytes "!tmp/keep"]) := by
  refine ⟨by decide, ?_⟩
  rw [load_ignore_patterns_defaults_then_lines.2.1 (bytes "tmp/\n#x\n  \n!tmp/keep") (by decide)]
  decide

/-- C17: `detect_shebang` returns no tag for every sample shorter than 2 bytes
or not starting with `#!`.  Otherwise it looks at the first line only, cut at
the first LF or CR and at 255 bytes: for a sample whose first line holds no NUL
byte (the classifier has excluded NUL bytes before the call) the result is the
tag of the first name that occurs in that line in the order `python`, `bash` or
`sh` (tag `bash`), `node` (tag `javascript`), `ruby`, `perl`, `lua`, and no tag
when none occurs; two samples with the same first line get the same result, so
a name after the first line or after the 255th byte is not detected. -/
theorem detect_shebang_scans_first_line :
    (∀ sample : List Nat, sample.length < 2 ∨ ¬ (bytes "#!" <+: sample) →
      detect_shebang sample = none) ∧
    (∀ sample : List Nat, bytes "#!" <+: sample → 0 ∉ first_line sample →
      detect_shebang sample = interpreter_tag (first_line sample)) ∧
    (∀ s1 s2 : List Nat, bytes "#!" <+: s1 → first_line s1 = first_line s2 →
      detect_shebang s1 = detect_shebang s2) ∧
    (∀ line : List Nat,
      (bytes "python" <:+: line → interpreter_tag line = some (bytes "python")) ∧
      (¬ bytes "python" <:+: line → bytes "bash" <:+: line ∨ bytes "sh" <:+: line →
        interpreter_tag line = some (bytes "bash")) ∧
      (¬ bytes "python" <:+: line → ¬ bytes "sh" <:+: line → bytes "node" <:+: line →
        interpreter_tag line = some (bytes "javascript")) ∧
      (¬ bytes "python" <:+: line → ¬ bytes "sh" <:+: line → ¬ bytes "node" <:+: line →
        bytes "ruby" <:+: line → interpreter_tag line = some (bytes "ruby")) ∧
      (¬ bytes "python" <:+: line → ¬ bytes "sh" <:+: line → ¬ bytes "node" <:+: line →
        ¬ bytes "ruby" <:+: line → bytes "perl" <:+: line →
        interpreter_tag line = some (bytes "perl")) ∧
      (¬ bytes "python" <:+: line → ¬ bytes "sh" <:+: line → ¬ bytes "node" <:+: line →
        ¬ bytes "ruby" <:+: line → ¬ bytes "perl" <:+: line → bytes "lua" <:+: line →
        interpreter_tag line = some (bytes "lua")) ∧
      (¬ bytes "python" <:+: line → ¬ bytes "sh" <:+: line → ¬ bytes "node" <:+: line →
        ¬ bytes "ruby" <:+: line → ¬ bytes "perl" <:+: line → ¬ bytes "lua" <:+: line →
        interpreter_tag line = none)) ∧
    detect_shebang (bytes "#!/bin/true\nexec python \"$0\"\n") = none ∧
    detect_shebang (bytes "#!" ++ List.replicate 253 32 ++ bytes "python\n") = none ∧
    detect_shebang (bytes "#!" ++ List.replicate 247 32 ++ bytes "python\n") =
      some (bytes "python") := by
  have hsample : ∀ sample : List Nat, bytes "#!" <+: sample → ¬ sample.length < 2 := by
    rintro sample ⟨rest, rfl⟩
    have hb : bytes "#!" = [35, 33] := rfl
    rw [hb]
    simp
  have hbash : ∀ line : List Nat, ¬ bytes "sh" <:+: line → ¬ bytes "bash" <:+: line := by
    intro line h hb
    apply h
    exact List.IsInfix.trans ⟨bytes "ba", [], by decide⟩ hb
  refine ⟨?_, ?_, ?_, ?_, detect_shebang_examples⟩
  · intro sample h
    rw [detect_shebang_eq, if_pos h]
  · intro sample hp h0
    rw [detect_shebang_eq, if_neg (by
      intro h
      rcases h with h | h
      · exact hsample sample hp h
      · exact h hp)]
    congr 1
    apply List.takeWhile_eq_self_iff.mpr
    intro b hb
    have : b ≠ 0 := fun hz => h0 (hz ▸ hb)
    simpa using this
  · intro s1 s2 hp1 hfl
    have hp2 : bytes "#!" <+: s2 := by
      have h1 := first_line_prefix s1 hp1
      rw [hfl] at h1
      exact h1.trans ((List.takeWhile_prefix _).trans (List.take_prefix _ _))
    rw [detect_shebang_eq, detect_shebang_eq, hfl,
      if_neg (by
        intro h
        rcases h with h | h
        · exact hsample s1 hp1 h
        · exact h hp1),
      if_neg (by
        intro h
        rcases h with h | h
        · exact hsample s2 hp2 h
        · exact h hp2)]
  · intro line
    unfold interpreter_tag
    refine ⟨?_, ?_, ?_, ?_, ?_, ?_, ?_⟩
    · intro h; rw [if_pos h]
    · intro h1 h2; rw [if_neg h1, if_pos h2]
    · intro h1 h2 h3
      rw [if_neg h1, if_neg (by rintro (h | h); exact hbash line h2 h; exact h2 h), if_pos h3]
    · intro h1 h2 h3 h4
      rw [if_neg h1, if_neg (by rintro (h | h); exact hbash line h2 h; exact h2 h), if_neg h3,
        if_pos h4]
    · intro h1 h2 h3 h4 h5
      rw [if_neg h1, if_neg (by rintro (h | h); exact hbash line h2 h; exact h2 h), if_neg h3,
        if_neg h4, if_pos h5]
    · intro h1 h2 h3 h4 h5 h6
      rw [if_neg h1, if_neg (by rintro (h | h); exact hbash line h2 h; exact h2 h), if_neg h3,
        if_neg h4, if_neg h5, if_pos h6]
    · intro h1 h2 h3 h4 h5 h6
      rw [if_neg h1, if_neg (by rintro (h | h); exact hbash line h2 h; exact h2 h), if_neg h3,
        if_neg h4, if_neg h5, if_neg h6]

/-- A node script. -/
theorem detect_shebang_scans_first_line_witness :
    bytes "#!" <+: bytes "#!/usr/bin/env node\nconsole.log(1)\n" ∧
    0 ∉ first_line (bytes "#!/usr/bin/env node\nconsole.log(1)\n") ∧
    first_line (bytes "#!/usr/bin/env node\nconsole.log(1)\n") = bytes "#!/usr/bin/env node" ∧
    detect_shebang (bytes "#!/usr/bin/env node\nconsole.log(1)\n") =
      interpreter_tag (first_line (bytes "#!/usr/bin/env node\nconsole.log(1)\n")) ∧
    interpreter_tag (bytes "#!/usr/bin/env node") = some (bytes "javascript") :=
  ⟨by decide, by decide, by decide,
    detect_shebang_scans_first_line.2.1 (bytes "#!/usr/bin/env node\nconsole.log(1)\n")
      (by decide) (by decide),
    by decide⟩

end Fuori
